import Mathlib

/-!
# SparseTSDF: the block-sparse hash store of `saiga/vision/reconstruction/SparseTSDF.h`

A shallow embedding of the hash-indexed voxel block store and a verification of its
specification.

Modelling conventions.

* `std::vector<T>` is a `List T`; an access outside the vector is the failure
  `Err.out_of_range` (undefined behaviour in the source).
* A `VoxelBlock*` is the slot number of the block in `blocks` (`nullptr` is `none`).
* `float` values are rationals: the store copies and compares them, and the sampling
  functions (`TrilinearAccess`, `findIntersectionBisection`) compute with them exactly,
  without rounding. The one rounded operation is the accumulation `current_t += current_step`
  of the marching loop of `RaySurfaceIntersection` (`floatAdd`): whether the loop advances,
  and with it whether the function returns, depends on the rounding of that sum to binary32
  (`float32`, round to nearest, ties to even). A rounded value of magnitude `2^128` or more
  stands for an infinity; there is no value that is not a number.
* `int` coordinates are integers; the arithmetic of `H` wraps at 32 bits.
* `current_blocks` and slot numbers are integers without wrap-around: a store of `2^31`
  blocks would need more than 8 TiB of voxel data.
* `SAIGA_ASSERT` is a fatal check: a failed assertion is the failure `Err.assertion`.
* An operation that changes the store returns its result together with the store as it is
  when the operation returns or fails.
* A chain walk that never ends (a cyclic chain) is the failure `Err.nontermination`: the
  walks never change the store, so a walk that visits more valid slots than `blocks` has
  entries repeats a slot and runs forever.
* The marching loop of `RaySurfaceIntersection` takes the number of loop tests it may make
  as an argument and fails with `Err.nontermination` when that number is used up; its
  results are stated for every large enough number, and a call that never returns is one
  that fails so for every number.
* Concurrent calls of `InsertBlockLock` are the interleavings of the steps of the calling
  threads (`threadStep`, `runSchedule`): a schedule names the thread that takes the next
  step; a thread in front of a held spin lock spins, and what a thread does to the store
  between taking and releasing its lock is divided at `fetch_add`.
-/

namespace Saiga

/-- Failure modes of the operations. -/
inductive Err where
  | assertion
  | out_of_range
  | div_by_zero
  | nontermination
  | length_error
  | exit_error
  deriving DecidableEq

/-- Three signed integers: `ivec3`, used as `VoxelBlockIndex` and `VoxelIndex`. -/
structure ivec3 where
  x : Int
  y : Int
  z : Int
  deriving DecidableEq

/-- One TSDF voxel; both members default to 0. -/
structure Voxel where
  distance : Rat := 0
  weight : Rat := 0
  deriving DecidableEq

/-- A voxel block: `data[z][y][x]`, the block coordinate and the chain pointer. -/
structure VoxelBlock where
  data : Fin 8 → Fin 8 → Fin 8 → Voxel := fun _ _ _ => {}
  index : ivec3 := ⟨-973454, -973454, -973454⟩
  next_index : Int := -1

/-- Default construction `VoxelBlock()`: all voxels zero, the sentinel index, no successor. -/
def VoxelBlock.fresh : VoxelBlock := {}

/-- The members of `SparseTSDF` (the spin locks are left out). -/
structure SparseTSDF where
  voxel_size : Rat
  voxel_size_inv : Rat
  hash_size : Nat
  current_blocks : Int
  blocks : List VoxelBlock
  first_hashed_block : List Int

/-- Constructor `SparseTSDF(voxel_size, reserve_blocks, hash_size)`. The two `int` arguments
are given as naturals: a negative `reserve_blocks` makes the vector constructor throw, and a
`hash_size` that is an `int` is below `2^31`. -/
def SparseTSDF.init (voxel_size : Rat) (reserve_blocks : Nat) (hash_size : Nat) : SparseTSDF :=
  { voxel_size := voxel_size
    voxel_size_inv := 1 / voxel_size
    hash_size := hash_size
    current_blocks := 0
    blocks := List.replicate reserve_blocks VoxelBlock.fresh
    first_hashed_block := List.replicate hash_size (-1) }

/-- Result of 32-bit signed arithmetic: the value wrapped into `[-2^31, 2^31)`. -/
def wrapInt (v : Int) : Int := (v + 2147483648) % 4294967296 - 2147483648

/-- Conversion of an `int` to `unsigned int`. -/
def toUnsigned (v : Int) : Int := v % 4294967296

/-- Element access `v[k]` with an `int` subscript. -/
def vecGet {α : Type} (v : List α) (k : Int) : Except Err α :=
  if k < 0 then .error .out_of_range
  else match v[k.toNat]? with
    | some a => .ok a
    | none => .error .out_of_range

/-- Element store `v[k] = a` (used after the access was checked). -/
def vecSet {α : Type} (v : List α) (k : Int) (a : α) : List α := v.set k.toNat a

/-- Method `std::vector::resize(n)` on the block array. -/
def resize (blocks : List VoxelBlock) (n : Nat) : List VoxelBlock :=
  blocks.take n ++ List.replicate (n - blocks.length) VoxelBlock.fresh

/-- Hash `H(i)`: the polynomial in 32-bit arithmetic, as `unsigned`, modulo `hash_size`. -/
def H (hash_size : Nat) (i : ivec3) : Except Err Int :=
  let u : Int :=
    toUnsigned (wrapInt (wrapInt (i.x + wrapInt (i.y * 1000)) + wrapInt (wrapInt (i.z * 1000) * 1000)))
  if hash_size = 0 then .error .div_by_zero
  else
    let result : Int := wrapInt (u % (hash_size : Int))
    if 0 ≤ result ∧ toUnsigned result < (hash_size : Int) then .ok result else .error .assertion

/-- The loop of `GetBlockId(i, hash)`, started at `block_id`. -/
def GetBlockIdLoop (blocks : List VoxelBlock) (i : ivec3) : Nat → Int → Except Err Int
  | 0, _ => .error .nontermination
  | fuel + 1, block_id =>
    if block_id = -1 then .ok block_id
    else match vecGet blocks block_id with
      | .error e => .error e
      | .ok block =>
        if block.index = i then .ok block_id
        else GetBlockIdLoop blocks i fuel block.next_index

/-- Lookup `GetBlockId(i, hash)`: the slot of the block with index `i` in bucket `hash`, or -1. -/
def GetBlockIdAt (s : SparseTSDF) (i : ivec3) (hash : Int) : Except Err Int :=
  match vecGet s.first_hashed_block hash with
  | .error e => .error e
  | .ok block_id => GetBlockIdLoop s.blocks i (s.blocks.length + 1) block_id

/-- Lookup `GetBlockId(i)`. -/
def GetBlockId (s : SparseTSDF) (i : ivec3) : Except Err Int :=
  match H s.hash_size i with
  | .error e => .error e
  | .ok h => GetBlockIdAt s i h

/-- Lookup `GetBlock(i, hash)`: the block pointer, `none` for `nullptr`. -/
def GetBlockAt (s : SparseTSDF) (i : ivec3) (hash : Int) : Except Err (Option Int) :=
  match GetBlockIdAt s i hash with
  | .error e => .error e
  | .ok id => if 0 ≤ id then .ok (some id) else .ok none

/-- Lookup `GetBlock(i)`. -/
def GetBlock (s : SparseTSDF) (i : ivec3) : Except Err (Option Int) :=
  match H s.hash_size i with
  | .error e => .error e
  | .ok h => GetBlockAt s i h

/-- Method `Size()`. -/
def Size (s : SparseTSDF) : Int := s.current_blocks

/-- Method `InsertBlock(i)`: the returned pointer is the slot. -/
def InsertBlock (s : SparseTSDF) (i : ivec3) : Except Err Int × SparseTSDF :=
  match H s.hash_size i with
  | .error e => (.error e, s)
  | .ok h =>
    match GetBlockAt s i h with
    | .error e => (.error e, s)
    | .ok (some block) => (.ok block, s)
    | .ok none =>
      let new_index := s.current_blocks
      let s1 := { s with current_blocks := s.current_blocks + 1 }
      let s2 :=
        if new_index < 0 ∨ (s1.blocks.length : Int) ≤ new_index then
          { s1 with blocks := resize s1.blocks (s1.blocks.length * 2) }
        else s1
      match H s2.hash_size i with
      | .error e => (.error e, s2)
      | .ok hash =>
        match vecGet s2.blocks new_index with
        | .error e => (.error e, s2)
        | .ok new_block =>
          let s3 := { s2 with blocks := vecSet s2.blocks new_index { new_block with index := i } }
          match vecGet s3.first_hashed_block hash with
          | .error e => (.error e, s3)
          | .ok head =>
            let s4 :=
              { s3 with blocks := vecSet s3.blocks new_index { new_block with index := i, next_index := head } }
            (.ok new_index, { s4 with first_hashed_block := vecSet s4.first_hashed_block hash new_index })

/-- An `int*` into the store: a bucket head or the `next_index` of a block. -/
inductive IntPtr where
  | head (hash : Int)
  | next (block_id : Int)
  deriving DecidableEq

/-- Read through an `int*`. -/
def deref (s : SparseTSDF) : IntPtr → Except Err Int
  | .head hash => vecGet s.first_hashed_block hash
  | .next block_id =>
    match vecGet s.blocks block_id with
    | .error e => .error e
    | .ok b => .ok b.next_index

/-- Write through an `int*`. -/
def assign (s : SparseTSDF) : IntPtr → Int → SparseTSDF
  | .head hash, v => { s with first_hashed_block := vecSet s.first_hashed_block hash v }
  | .next block_id, v =>
    match vecGet s.blocks block_id with
    | .error _ => s
    | .ok b => { s with blocks := vecSet s.blocks block_id { b with next_index := v } }

/-- The loop of `EraseBlockWithHole`: `some p` when the block was found through `p`. -/
def EraseBlockWithHoleLoop (s : SparseTSDF) (i : ivec3) : Nat → IntPtr → Except Err (Option IntPtr)
  | 0, _ => .error .nontermination
  | fuel + 1, block_id_ptr =>
    match deref s block_id_ptr with
    | .error e => .error e
    | .ok block_id =>
      if block_id = -1 then .ok none
      else match vecGet s.blocks block_id with
        | .error e => .error e
        | .ok b =>
          if b.index = i then .ok (some block_id_ptr)
          else EraseBlockWithHoleLoop s i fuel (.next block_id)

/-- Method `EraseBlockWithHole(i, hash)`: unlinks the block from its chain. -/
def EraseBlockWithHole (s : SparseTSDF) (i : ivec3) (hash : Int) : Except Err Bool × SparseTSDF :=
  match EraseBlockWithHoleLoop s i (s.blocks.length + 1) (.head hash) with
  | .error e => (.error e, s)
  | .ok none => (.ok false, s)
  | .ok (some block_id_ptr) =>
    match deref s block_id_ptr with
    | .error e => (.error e, s)
    | .ok block_id =>
      match vecGet s.blocks block_id with
      | .error e => (.error e, s)
      | .ok b => (.ok true, assign s block_id_ptr b.next_index)

/-- Method `EraseBlock(i)`. -/
def EraseBlock (s : SparseTSDF) (i : ivec3) : Except Err Bool × SparseTSDF :=
  match GetBlockId s i with
  | .error e => (.error e, s)
  | .ok block_id =>
    if ¬ (0 ≤ block_id) then (.error .assertion, s)
    else match H s.hash_size i with
      | .error e => (.error e, s)
      | .ok h =>
        match EraseBlockWithHole s i h with
        | (.error e, s1) => (.error e, s1)
        | (.ok found, s1) =>
          if found = false then (.ok false, s1)
          else if block_id = s1.current_blocks - 1 then
            (.ok true, { s1 with current_blocks := s1.current_blocks - 1 })
          else if ¬ (2 ≤ s1.current_blocks) then (.error .assertion, s1)
          else match vecGet s1.blocks (s1.current_blocks - 1) with
            | .error e => (.error e, s1)
            | .ok last_b =>
              if last_b.index = i then (.error .assertion, s1)
              else match H s1.hash_size last_b.index with
                | .error e => (.error e, s1)
                | .ok last_h =>
                  match GetBlockId s1 last_b.index with
                  | .error e => (.error e, s1)
                  | .ok last_id =>
                    if last_id ≠ s1.current_blocks - 1 then (.error .assertion, s1)
                    else match EraseBlockWithHole s1 last_b.index last_h with
                      | (.error e, s2) => (.error e, s2)
                      | (.ok _, s2) =>
                        match vecGet s2.blocks block_id with
                        | .error e => (.error e, s2)
                        | .ok _ =>
                          let s3 := { s2 with blocks := vecSet s2.blocks block_id last_b }
                          match vecGet s3.first_hashed_block last_h with
                          | .error e => (.error e, s3)
                          | .ok head =>
                            let s4 :=
                              { s3 with blocks := vecSet s3.blocks block_id { last_b with next_index := head } }
                            let s5 :=
                              { s4 with first_hashed_block := vecSet s4.first_hashed_block last_h block_id }
                            (.ok true, { s5 with current_blocks := s5.current_blocks - 1 })

/-- Method `Clear()`. -/
def Clear (s : SparseTSDF) : SparseTSDF :=
  { s with
    current_blocks := 0
    blocks := s.blocks.map (fun _ => VoxelBlock.fresh)
    first_hashed_block := s.first_hashed_block.map (fun _ => -1) }

/-- Method `Compact()`: a negative size converts to a length no vector can have. -/
def Compact (s : SparseTSDF) : Except Err Unit × SparseTSDF :=
  if s.current_blocks < 0 then (.error .length_error, s)
  else (.ok (), { s with blocks := resize s.blocks s.current_blocks.toNat })

/-- The caller's write `block->data[z][y][x] = v` through a block pointer. -/
def writeVoxel (s : SparseTSDF) (block : Int) (z y x : Fin 8) (v : Voxel) : Except Err Unit × SparseTSDF :=
  match vecGet s.blocks block with
  | .error e => (.error e, s)
  | .ok b =>
    (.ok (),
      { s with
        blocks := vecSet s.blocks block
          { b with data := fun z1 y1 x1 => if z1 = z ∧ y1 = y ∧ x1 = x then v else b.data z1 y1 x1 } })

/-- The coordinate stored in slot `a`, when the slot exists. -/
def indexAt (blocks : List VoxelBlock) (a : Nat) : Option ivec3 := (blocks[a]?).map (fun b => b.index)

/-- The chain pointer stored in slot `a`, when the slot exists. -/
def nextAt (blocks : List VoxelBlock) (a : Nat) : Option Int := (blocks[a]?).map (fun b => b.next_index)

/-- Following `next_index` from `start` visits exactly the slots `l`, in order, and then
reaches `stop`. -/
def IsSeg (blocks : List VoxelBlock) : Int → List Nat → Int → Prop
  | start, [], stop => start = stop
  | start, a :: rest, stop => start = (a : Int) ∧ ∃ n, nextAt blocks a = some n ∧ IsSeg blocks n rest stop

/-- Following `next_index` from `start` visits exactly the slots `l` and ends at -1. -/
def IsChain (blocks : List VoxelBlock) (start : Int) (l : List Nat) : Prop := IsSeg blocks start l (-1)

/-- The pointer through which a chain walk that started with `p` and passed the slots `l`
reads its next slot. -/
def lastPtr : IntPtr → List Nat → IntPtr
  | p, [] => p
  | _, a :: rest => lastPtr (.next (a : Int)) rest

/-- The hash index restricted to the slots `P`: every slot of `P` holds a block whose
coordinate hashes to a bucket, coordinates are pairwise distinct on `P`, and the chain of
bucket `h` visits, once each, exactly the slots of `P` whose coordinate hashes to `h`. -/
structure ChainInv (s : SparseTSDF) (P : Nat → Prop) : Prop where
  heads : s.first_hashed_block.length = s.hash_size
  stored : ∀ a, P a → ∃ c h, indexAt s.blocks a = some c ∧ H s.hash_size c = .ok h
  distinct : ∀ a a' c, P a → P a' → indexAt s.blocks a = some c → indexAt s.blocks a' = some c → a = a'
  chains : ∀ (h : Nat) (head : Int), s.first_hashed_block[h]? = some head →
    ∃ l, IsChain s.blocks head l ∧ l.Nodup ∧
      ∀ a, a ∈ l ↔ (P a ∧ ∃ c, indexAt s.blocks a = some c ∧ H s.hash_size c = .ok (h : Int))

/-- The voxels stored in slot `a`, when the slot exists. -/
def dataAt (blocks : List VoxelBlock) (a : Nat) : Option (Fin 8 → Fin 8 → Fin 8 → Voxel) :=
  (blocks[a]?).map (fun b => b.data)

/-- Store `s1` differs from `s` at most in chain pointers and bucket heads: the scalar
members, the array length and every slot's coordinate and voxels are the same. -/
structure SameContent (s s1 : SparseTSDF) : Prop where
  voxel_size : s1.voxel_size = s.voxel_size
  voxel_size_inv : s1.voxel_size_inv = s.voxel_size_inv
  hash_size : s1.hash_size = s.hash_size
  current_blocks : s1.current_blocks = s.current_blocks
  length : s1.blocks.length = s.blocks.length
  index : ∀ x, indexAt s1.blocks x = indexAt s.blocks x
  data : ∀ x, dataAt s1.blocks x = dataAt s.blocks x

/-- The store invariants: `current_blocks` counts slots of the backing array, there is one
bucket head per hash value, and on the live slots `0 .. current_blocks - 1` the coordinates
are pairwise distinct and the chain of every bucket is acyclic, ends at -1 and visits, once
each, exactly the live slots whose coordinate hashes to the bucket. -/
structure StoreInv (s : SparseTSDF) : Prop where
  size_nonneg : 0 ≤ s.current_blocks
  size_le : s.current_blocks ≤ (s.blocks.length : Int)
  index : ChainInv s (fun a => (a : Int) < s.current_blocks)

/-- Coordinate `c` is live: one of the slots `0 .. current_blocks - 1` holds it. -/
def Live (s : SparseTSDF) (c : ivec3) : Prop :=
  ∃ a : Nat, (a : Int) < s.current_blocks ∧ indexAt s.blocks a = some c

/-- What `EraseBlock` of the coordinate in live slot `a` leaves behind in `s1`: one live
slot less; when `a` was the last live slot no block changes place; otherwise the block of
the last live slot `m` now sits in slot `a` at the head of its bucket, and every other slot
keeps its coordinate and voxels. -/
structure ErasePost (s : SparseTSDF) (a : Nat) (s1 : SparseTSDF) : Prop where
  inv : StoreInv s1
  current_blocks : s1.current_blocks = s.current_blocks - 1
  hash_size : s1.hash_size = s.hash_size
  voxel_size : s1.voxel_size = s.voxel_size
  voxel_size_inv : s1.voxel_size_inv = s.voxel_size_inv
  length : s1.blocks.length = s.blocks.length
  last : (a : Int) = s.current_blocks - 1 →
    ∀ x, indexAt s1.blocks x = indexAt s.blocks x ∧ dataAt s1.blocks x = dataAt s.blocks x
  middle : (a : Int) ≠ s.current_blocks - 1 →
    ∃ (m hm : Nat) (cm : ivec3), (m : Int) = s.current_blocks - 1 ∧ indexAt s.blocks m = some cm ∧
      H s.hash_size cm = .ok (hm : Int) ∧ s1.first_hashed_block[hm]? = some (a : Int) ∧
      indexAt s1.blocks a = some cm ∧ dataAt s1.blocks a = dataAt s.blocks m ∧
      ∀ x, x ≠ a → indexAt s1.blocks x = indexAt s.blocks x ∧ dataAt s1.blocks x = dataAt s.blocks x

/-- The stores reachable from a freshly constructed one by calls that return: `InsertBlock`,
`EraseBlock` of a coordinate that `GetBlockId` finds, `Clear` and `Compact`. -/
inductive Reachable : SparseTSDF → Prop where
  | init (voxel_size : Rat) (reserve_blocks hash_size : Nat) :
      Reachable (SparseTSDF.init voxel_size reserve_blocks hash_size)
  | insert {s s1 : SparseTSDF} (c : ivec3) (r : Int) :
      Reachable s → InsertBlock s c = (.ok r, s1) → Reachable s1
  | erase {s s1 : SparseTSDF} (c : ivec3) (id : Int) (r : Bool) :
      Reachable s → GetBlockId s c = .ok id → 0 ≤ id → EraseBlock s c = (.ok r, s1) → Reachable s1
  | clear {s : SparseTSDF} : Reachable s → Reachable (Clear s)
  | compact {s s1 : SparseTSDF} : Reachable s → Compact s = (.ok (), s1) → Reachable s1

/-- Example: a fresh store with room for two blocks and a single bucket. -/
def exampleEmpty : SparseTSDF := SparseTSDF.init (1 / 100) 2 1

/-- Example: block (0,0,0) inserted into `exampleEmpty`. -/
def exampleOne : SparseTSDF := (InsertBlock exampleEmpty ⟨0, 0, 0⟩).2

/-- Example: block (1,0,0) inserted into `exampleOne`. -/
def exampleTwo : SparseTSDF := (InsertBlock exampleOne ⟨1, 0, 0⟩).2

/-- Example: a voxel of the block in slot 0 of `exampleOne` written by the caller. -/
def exampleWritten : SparseTSDF := (writeVoxel exampleOne 0 0 0 0 ⟨1, 1⟩).2

/-- Example: a fresh store constructed with `reserve_blocks = 0`. -/
def exampleNoCapacity : SparseTSDF := SparseTSDF.init (1 / 100) 0 1

/-- One call of the mutating interface. -/
inductive Op where
  | insert (c : ivec3)
  | erase (c : ivec3)
  deriving DecidableEq

/-- One call applied to the store; the returned pointer or flag is dropped, a failure ends
the run. -/
def applyOp (s : SparseTSDF) : Op → Except Err SparseTSDF
  | .insert c =>
    match InsertBlock s c with
    | (.ok _, s1) => .ok s1
    | (.error e, _) => .error e
  | .erase c =>
    match EraseBlock s c with
    | (.ok _, s1) => .ok s1
    | (.error e, _) => .error e

/-- A sequence of calls applied to the store, first call first. -/
def run (s : SparseTSDF) : List Op → Except Err SparseTSDF
  | [] => .ok s
  | op :: ops =>
    match applyOp s op with
    | .ok s1 => run s1 ops
    | .error e => .error e

/-- In the call sequence `ops`, coordinate `c` was inserted and not subsequently erased. -/
def InsertedNotErased (ops : List Op) (c : ivec3) : Prop :=
  ∃ pre post, ops = pre ++ Op.insert c :: post ∧ Op.erase c ∉ post

/-- Every `EraseBlock` of the sequence targets a coordinate that is live at that moment:
inserted and not subsequently erased by the calls before it. -/
def ErasesTargetLive (ops : List Op) : Prop :=
  ∀ pre c post, ops = pre ++ Op.erase c :: post → InsertedNotErased pre c

/-- The effect of one call on the list of live coordinates. -/
def liveStep (l : List ivec3) : Op → List ivec3
  | .insert c => if c ∈ l then l else c :: l
  | .erase c => l.erase c

/-- The coordinates live after the call sequence, each listed once. -/
def liveCoords (ops : List Op) : List ivec3 := ops.foldl liveStep []

/-- The number of `InsertBlock` calls of the run that found their coordinate absent
(`GetBlock` returned `nullptr`). -/
def freshInserts (s : SparseTSDF) : List Op → Nat
  | [] => 0
  | .insert c :: ops =>
    (match GetBlock s c with
      | .ok none => 1
      | _ => 0) + freshInserts (InsertBlock s c).2 ops
  | .erase c :: ops => freshInserts (EraseBlock s c).2 ops

/-- The number of `EraseBlock` calls of the sequence. -/
def eraseCalls : List Op → Nat
  | [] => 0
  | .insert _ :: ops => eraseCalls ops
  | .erase _ :: ops => eraseCalls ops + 1

/-- Example: insert (0,0,0), insert (1,0,0), erase (0,0,0). -/
def exampleOps : List Op := [Op.insert ⟨0, 0, 0⟩, Op.insert ⟨1, 0, 0⟩, Op.erase ⟨0, 0, 0⟩]

/-- Constant `VOXEL_BLOCK_SIZE`. -/
def VOXEL_BLOCK_SIZE : Int := 8

/-- Modelled from the spec: `iFloorDiv(a, b)`, an integer helper of the saiga core library
whose source is not among the files at hand. Section 4.2 of the specification gives the
block index as the floor division of each axis by the block edge length, "true mathematical
floor, not truncation", rounding toward negative infinity. -/
def iFloorDiv (a b : Int) : Int := Int.fdiv a b

/-- Method `GetBlockIndex(virtual_voxel)` on a voxel index. -/
def GetBlockIndex (virtual_voxel : ivec3) : ivec3 :=
  ⟨iFloorDiv virtual_voxel.x VOXEL_BLOCK_SIZE, iFloorDiv virtual_voxel.y VOXEL_BLOCK_SIZE,
    iFloorDiv virtual_voxel.z VOXEL_BLOCK_SIZE⟩

/-- Method `GetLocalOffset(block, virtual_voxel)`: `virtual_voxel - block * VOXEL_BLOCK_SIZE`
in 32-bit arithmetic, followed by the two range assertions. -/
def GetLocalOffset (block virtual_voxel : ivec3) : Except Err ivec3 :=
  let result : ivec3 :=
    ⟨wrapInt (virtual_voxel.x - wrapInt (block.x * VOXEL_BLOCK_SIZE)),
      wrapInt (virtual_voxel.y - wrapInt (block.y * VOXEL_BLOCK_SIZE)),
      wrapInt (virtual_voxel.z - wrapInt (block.z * VOXEL_BLOCK_SIZE))⟩
  if ¬ (0 ≤ result.x ∧ 0 ≤ result.y ∧ 0 ≤ result.z) then .error .assertion
  else if ¬ (result.x < VOXEL_BLOCK_SIZE ∧ result.y < VOXEL_BLOCK_SIZE ∧ result.z < VOXEL_BLOCK_SIZE) then
    .error .assertion
  else .ok result

/-- Subscript `k` of a `std::array` of 8 elements. -/
def arrayIndex (k : Int) : Except Err (Fin 8) :=
  if h : 0 ≤ k ∧ k < 8 then .ok ⟨k.toNat, by omega⟩ else .error .out_of_range

/-- Method `GetVoxel(virtual_voxel)`. -/
def GetVoxel (s : SparseTSDF) (virtual_voxel : ivec3) : Except Err Voxel :=
  let block_id := GetBlockIndex virtual_voxel
  match GetBlock s block_id with
  | .error e => .error e
  | .ok none => .ok ⟨0, 0⟩
  | .ok (some block) =>
    match GetLocalOffset block_id virtual_voxel with
    | .error e => .error e
    | .ok local_offset =>
      match vecGet s.blocks block with
      | .error e => .error e
      | .ok b =>
        match arrayIndex local_offset.z, arrayIndex local_offset.y, arrayIndex local_offset.x with
        | .ok z, .ok y, .ok x => .ok (b.data z y x)
        | _, _, _ => .error .out_of_range

/-- Method `InsertBlockLock(i)`: the lock of bucket `h` is taken on entry and released on
return; without another thread it is free, so the call does not wait. -/
def InsertBlockLock (s : SparseTSDF) (i : ivec3) : Except Err Int × SparseTSDF :=
  match H s.hash_size i with
  | .error e => (.error e, s)
  | .ok h =>
    match GetBlockAt s i h with
    | .error e => (.error e, s)
    | .ok (some block) => (.ok block, s)
    | .ok none =>
      let new_index := s.current_blocks
      let s1 := { s with current_blocks := s.current_blocks + 1 }
      if new_index < 0 ∨ (s1.blocks.length : Int) ≤ new_index then (.error .exit_error, s1)
      else
        match H s1.hash_size i with
        | .error e => (.error e, s1)
        | .ok hash =>
          match vecGet s1.blocks new_index with
          | .error e => (.error e, s1)
          | .ok new_block =>
            let s3 := { s1 with blocks := vecSet s1.blocks new_index { new_block with index := i } }
            match vecGet s3.first_hashed_block hash with
            | .error e => (.error e, s3)
            | .ok head =>
              let s4 :=
                { s3 with blocks := vecSet s3.blocks new_index { new_block with index := i, next_index := head } }
              (.ok new_index, { s4 with first_hashed_block := vecSet s4.first_hashed_block hash new_index })

/-- Three floats: `vec3`. -/
structure vec3 where
  x : Rat
  y : Rat
  z : Rat
  deriving DecidableEq

/-- Sum of two `vec3`. -/
def vec3.add (a b : vec3) : vec3 := ⟨a.x + b.x, a.y + b.y, a.z + b.z⟩

/-- Product of a `vec3` and a scalar. -/
def vec3.scale (a : vec3) (k : Rat) : vec3 := ⟨a.x * k, a.y * k, a.z * k⟩

/-- Sum of two `ivec3`; voxel coordinates obtained from a position are kept as integers (the
conversion `cast<int>` of a float outside the `int` range is undefined in the source). -/
def ivec3.add (a b : ivec3) : ivec3 := ⟨a.x + b.x, a.y + b.y, a.z + b.z⟩

/-- Method `TrilinearAccess(position)`: the 8 voxel indices and weights, in the order of
`result[0] .. result[7]`. -/
def TrilinearAccessWeights (s : SparseTSDF) (position : vec3) : List (ivec3 × Rat) :=
  let normalized_pos := position.scale s.voxel_size_inv
  let ipos : vec3 := ⟨⌊normalized_pos.x⌋, ⌊normalized_pos.y⌋, ⌊normalized_pos.z⌋⟩
  let frac : vec3 := ⟨normalized_pos.x - ipos.x, normalized_pos.y - ipos.y, normalized_pos.z - ipos.z⟩
  let corner : ivec3 := ⟨⌊normalized_pos.x⌋, ⌊normalized_pos.y⌋, ⌊normalized_pos.z⌋⟩
  [(corner.add ⟨0, 0, 0⟩, (1 - frac.x) * (1 - frac.y) * (1 - frac.z)),
    (corner.add ⟨0, 0, 1⟩, (1 - frac.x) * (1 - frac.y) * frac.z),
    (corner.add ⟨0, 1, 0⟩, (1 - frac.x) * frac.y * (1 - frac.z)),
    (corner.add ⟨0, 1, 1⟩, (1 - frac.x) * frac.y * frac.z),
    (corner.add ⟨1, 0, 0⟩, frac.x * (1 - frac.y) * (1 - frac.z)),
    (corner.add ⟨1, 0, 1⟩, frac.x * (1 - frac.y) * frac.z),
    (corner.add ⟨1, 1, 0⟩, frac.x * frac.y * (1 - frac.z)),
    (corner.add ⟨1, 1, 1⟩, frac.x * frac.y * frac.z)]

/-- The loop of `TrilinearAccess(position, result)` over the remaining index/weight pairs:
the flag is false when a voxel of weight 0 ended the loop early; `result` and `w_sum` are
what was accumulated until then. -/
def TrilinearAccessLoop (s : SparseTSDF) : List (ivec3 × Rat) → Voxel → Rat → Except Err (Bool × Voxel × Rat)
  | [], result, w_sum => .ok (true, result, w_sum)
  | iw :: rest, result, w_sum =>
    match GetVoxel s iw.1 with
    | .error e => .error e
    | .ok v =>
      if v.weight = 0 then .ok (false, result, w_sum)
      else
        TrilinearAccessLoop s rest
          ⟨result.distance + v.distance * iw.2, result.weight + v.weight * iw.2⟩ (w_sum + iw.2)

/-- Method `TrilinearAccess(position, result)`: the returned flag and the value left in
`result`. -/
def TrilinearAccess (s : SparseTSDF) (position : vec3) : Except Err (Bool × Voxel) :=
  match TrilinearAccessLoop s (TrilinearAccessWeights s position) ⟨0, 0⟩ 0 with
  | .error e => .error e
  | .ok (false, result, _) => .ok (false, result)
  | .ok (true, result, w_sum) =>
    if |w_sum - 1| < 1 / 10000 then .ok (true, result) else .error .assertion

/-- Method `IntersectionLinear(t1, t2, d1, d2)`; a zero denominator gives a float that is not
a number or not finite, which no rational stands for, and is reported as a failure. -/
def IntersectionLinear (t1 t2 d1 d2 : Rat) : Except Err Rat :=
  if d1 - d2 = 0 then .error .div_by_zero else .ok (t1 + (d1 / (d1 - d2)) * (t2 - t1))

/-- The loop of `findIntersectionBisection` with the remaining iterations and the variables
`a`, `b`, `aDist`, `bDist`, `c`: `none` for the return value false (`t` unwritten), `some t`
for true with `t` written. -/
def findIntersectionBisectionLoop (s : SparseTSDF) (ray_origin ray_dir : vec3) (t1 t2 : Rat) :
    Nat → Rat → Rat → Rat → Rat → Rat → Except Err (Option Rat)
  | 0, _, _, _, _, c => .ok (some c)
  | n + 1, a, b, aDist, bDist, c =>
    if ¬ (t1 ≤ c) then .error .assertion
    else if ¬ (c ≤ t2) then .error .assertion
    else
      match TrilinearAccess s (ray_origin.add (ray_dir.scale c)) with
      | .error e => .error e
      | .ok (false, _) => .ok none
      | .ok (true, sample) =>
        let cDist := sample.distance
        if 0 < aDist * cDist then
          match IntersectionLinear c b cDist bDist with
          | .error e => .error e
          | .ok c1 => findIntersectionBisectionLoop s ray_origin ray_dir t1 t2 n c b cDist bDist c1
        else
          match IntersectionLinear a c aDist cDist with
          | .error e => .error e
          | .ok c1 => findIntersectionBisectionLoop s ray_origin ray_dir t1 t2 n a c aDist cDist c1

/-- Method `findIntersectionBisection<bisect_iterations>(ray_origin, ray_dir, t1, t2, d1, d2, t)`. -/
def findIntersectionBisection (s : SparseTSDF) (bisect_iterations : Nat) (ray_origin ray_dir : vec3)
    (t1 t2 d1 d2 : Rat) : Except Err (Option Rat) :=
  match IntersectionLinear t1 t2 d1 d2 with
  | .error e => .error e
  | .ok c => findIntersectionBisectionLoop s ray_origin ray_dir t1 t2 bisect_iterations t1 t2 d1 d2 c

/-- The power `2^k` of an integer exponent. -/
def pow2 (k : Int) : Rat :=
  if 0 ≤ k then ((2 ^ k.toNat : Nat) : Rat) else 1 / ((2 ^ (-k).toNat : Nat) : Rat)

/-- Search for the exponent of the unit in the last place of a binary32 value of magnitude
`a`, downwards from the candidate `n - 149`: the largest candidate `e` with `2^(e+23) ≤ a`,
and `-149` when there is none. -/
def float32ExponentLoop (a : Rat) : Nat → Int
  | 0 => -149
  | n + 1 => if pow2 ((n : Int) + 1 - 126) ≤ a then (n : Int) + 1 - 149 else float32ExponentLoop a n

/-- The exponent `e` of the unit in the last place of the binary32 values around a magnitude
`a`: the values of binary32 are `m * 2^e` with a 24-bit significand `m < 2^24` and `e` from
`-149` (the subnormal values and the smallest normal ones) to `104` (the largest ones). For
`2^(e+23) ≤ a < 2^(e+24)` the exponent is `e`; below `2^(-126)` it is `-149`, from `2^127` on
it is `104`. -/
def float32Exponent (a : Rat) : Int := float32ExponentLoop a 253

/-- Rounding to the nearest integer, a tie to the even one. -/
def roundHalfEven (x : Rat) : Int :=
  let f : Int := ⌊x⌋
  if x - f < 1 / 2 then f
  else if 1 / 2 < x - f then f + 1
  else if f % 2 = 0 then f else f + 1

/-- Rounding of a magnitude `a ≥ 0` to binary32: the nearest multiple of the unit in the last
place, a tie to the even significand. The significand `2^24` is the next power of two; a
result of `2^128` or more stands for an overflow (the source gets an infinity). -/
def float32Abs (a : Rat) : Rat :=
  (roundHalfEven (a / pow2 (float32Exponent a)) : Rat) * pow2 (float32Exponent a)

/-- Rounding of a real value to `float` (IEEE 754 binary32, round to nearest, ties to even),
symmetric in the sign. -/
def float32 (x : Rat) : Rat :=
  if 0 ≤ x then float32Abs x else - float32Abs (-x)

/-- The `float` addition `a + b`: the exact sum rounded to binary32. -/
def floatAdd (a b : Rat) : Rat := float32 (a + b)

/-- The marching loop of `RaySurfaceIntersection` with the variables `current_t`, `last_t`,
`last_sample`; the first argument bounds the number of loop tests (the loop of the source has
no bound of its own). `last_t` is read only after it was assigned. `current_step` is never
assigned after its initialisation with `step`, so `current_t += current_step` is the float
addition of `step`. -/
def RaySurfaceIntersectionLoop (s : SparseTSDF) (bisect_iterations : Nat) (ray_origin ray_dir : vec3)
    (max_t step : Rat) (verbose : Bool) : Nat → Rat → Rat → Voxel → Except Err Rat
  | 0, _, _, _ => .error .nontermination
  | fuel + 1, current_t, last_t, last_sample =>
    if ¬ (current_t < max_t) then .ok max_t
    else
      match TrilinearAccess s (ray_origin.add (ray_dir.scale current_t)) with
      | .error e => .error e
      | .ok (false, current_sample) =>
        RaySurfaceIntersectionLoop s bisect_iterations ray_origin ray_dir max_t step verbose fuel
          (floatAdd current_t step) current_t current_sample
      | .ok (true, current_sample) =>
        if ¬ (0 < current_sample.weight) then .error .assertion
        else if verbose = false ∧ 0 < last_sample.weight ∧ 0 < last_sample.distance ∧
            current_sample.distance < 0 then
          match findIntersectionBisection s bisect_iterations ray_origin ray_dir last_t current_t
              last_sample.distance current_sample.distance with
          | .error e => .error e
          | .ok (some t_bi) =>
            if ¬ (last_t ≤ t_bi) then .error .assertion
            else if ¬ (t_bi ≤ current_t) then .error .assertion
            else .ok t_bi
          | .ok none =>
            RaySurfaceIntersectionLoop s bisect_iterations ray_origin ray_dir max_t step verbose fuel
              (floatAdd current_t step) current_t current_sample
        else
          RaySurfaceIntersectionLoop s bisect_iterations ray_origin ray_dir max_t step verbose fuel
            (floatAdd current_t step) current_t current_sample

/-- Method `RaySurfaceIntersection<bisect_iterations>(ray_origin, ray_dir, min_t, max_t, step,
verbose)`, run for at most `fuel` loop tests. -/
def RaySurfaceIntersection (s : SparseTSDF) (bisect_iterations : Nat) (ray_origin ray_dir : vec3)
    (min_t max_t step : Rat) (verbose : Bool) (fuel : Nat) : Except Err Rat :=
  RaySurfaceIntersectionLoop s bisect_iterations ray_origin ray_dir max_t step verbose fuel min_t 0
    { distance := 0, weight := 0 }

/-- The caller's writes into the voxel array of a block: `block->data = data`. -/
def writeData (s : SparseTSDF) (block : Int) (data : Fin 8 → Fin 8 → Fin 8 → Voxel) :
    Except Err Unit × SparseTSDF :=
  match vecGet s.blocks block with
  | .error e => (.error e, s)
  | .ok b => (.ok (), { s with blocks := vecSet s.blocks block { b with data := data } })

/-- The corner offsets `(dx, dy, dz)` in the order of `result[0] .. result[7]`. -/
def cornerOffsets : List ivec3 :=
  [⟨0, 0, 0⟩, ⟨0, 0, 1⟩, ⟨0, 1, 0⟩, ⟨0, 1, 1⟩, ⟨1, 0, 0⟩, ⟨1, 0, 1⟩, ⟨1, 1, 0⟩, ⟨1, 1, 1⟩]

/-- The factor of one axis in a trilinear weight: `1 - frac` for offset 0, `frac` for offset 1. -/
def trilinearFactor (offset : Int) (frac : Rat) : Rat := if offset = 0 then 1 - frac else frac

/-- The voxel that `GetVoxel` returns for a voxel index (the zero voxel when it fails). -/
def voxelAt (s : SparseTSDF) (v : ivec3) : Voxel :=
  match GetVoxel s v with
  | .ok vox => vox
  | .error _ => ⟨0, 0⟩

/-- Example: the freshly constructed store `SparseTSDF(1, 2, 1)`, voxel size 1, no block. -/
def exampleUnitEmpty : SparseTSDF := SparseTSDF.init 1 2 1

/-- Example: a store with voxel size 1 and block (0,0,0) in slot 0. -/
def exampleUnitStore : SparseTSDF := (InsertBlock (SparseTSDF.init 1 2 1) ⟨0, 0, 0⟩).2

/-- Example voxel data: voxel (x,y,z) = (0,0,1) was never written, the other voxels with
`x = 0` hold distance 1 and those with `x > 0` distance -1, all with weight 1. -/
def exampleRayData : Fin 8 → Fin 8 → Fin 8 → Voxel := fun z y x =>
  if x = 0 ∧ y = 0 ∧ z = 1 then ⟨0, 0⟩ else if x = 0 then ⟨1, 1⟩ else ⟨-1, 1⟩

/-- Example: `exampleUnitStore` after the caller wrote `exampleRayData` into its block. -/
def exampleRayStore : SparseTSDF := (writeData exampleUnitStore 0 exampleRayData).2

/-- The point `ray_origin + ray_dir * t` of a ray. -/
def rayPoint (ray_origin ray_dir : vec3) (t : Rat) : vec3 := ray_origin.add (ray_dir.scale t)

/-- The parameter of the `k`-th marching sample, the value of `current_t` at loop test `k`:
`min_t` after `k` executions of `current_t += current_step`. -/
def sampleTime (min_t step : Rat) : Nat → Rat
  | 0 => min_t
  | k + 1 => floatAdd (sampleTime min_t step k) step

/-- The crossing condition holds between the marching samples `k` and `k + 1` with a
successful bisection that gives `t`: the sample `k + 1` succeeded with a negative distance, the
value left by the trilinear access of sample `k` has positive weight and positive distance,
and `findIntersectionBisection` on the two parameters returns true with `t`. -/
def CrossingAt (s : SparseTSDF) (bisect_iterations : Nat) (ray_origin ray_dir : vec3)
    (min_t step : Rat) (k : Nat) (t : Rat) : Prop :=
  ∃ (b : Bool) (last cur : Voxel),
    TrilinearAccess s (rayPoint ray_origin ray_dir (sampleTime min_t step k)) = .ok (b, last) ∧
    TrilinearAccess s (rayPoint ray_origin ray_dir (sampleTime min_t step (k + 1))) = .ok (true, cur) ∧
    0 < last.weight ∧ 0 < last.distance ∧ cur.distance < 0 ∧
    findIntersectionBisection s bisect_iterations ray_origin ray_dir (sampleTime min_t step k)
      (sampleTime min_t step (k + 1)) last.distance cur.distance = .ok (some t)

/-- Method `VoxelBlock::Empty()`: the three nested loops over `data` return false at the
first voxel with `weight > 0` and true when there is none. -/
def VoxelBlock.Empty (b : VoxelBlock) : Bool :=
  (List.finRange 8).all fun z =>
    (List.finRange 8).all fun y =>
      (List.finRange 8).all fun x => decide (¬ (0 < (b.data z y x).weight))

/-- The stores reachable from one constructed with `reserve_blocks >= 1` by calls that return,
`Compact` excluded: `InsertBlock`, `EraseBlock` of a coordinate that `GetBlockId` finds, and
`Clear`. -/
inductive ReachableWithoutCompact : SparseTSDF → Prop where
  | init (voxel_size : Rat) (reserve_blocks hash_size : Nat) : 1 ≤ reserve_blocks →
      ReachableWithoutCompact (SparseTSDF.init voxel_size reserve_blocks hash_size)
  | insert {s s1 : SparseTSDF} (c : ivec3) (r : Int) :
      ReachableWithoutCompact s → InsertBlock s c = (.ok r, s1) → ReachableWithoutCompact s1
  | erase {s s1 : SparseTSDF} (c : ivec3) (id : Int) (r : Bool) :
      ReachableWithoutCompact s → GetBlockId s c = .ok id → 0 ≤ id → EraseBlock s c = (.ok r, s1) →
      ReachableWithoutCompact s1
  | clear {s : SparseTSDF} : ReachableWithoutCompact s → ReachableWithoutCompact (Clear s)

/-- The state of the loop of `findIntersectionBisection` is sound: the kept interval `[a, b]`
lies in `[t1, t2]`, the distances at its ends have opposite signs in the sense
`aDist > 0 >= bDist`, and `c` is the value `IntersectionLinear(a, b, aDist, bDist)`, computed
without a division by zero, inside the interval. -/
def BisectionInv (t1 t2 a b aDist bDist c : Rat) : Prop :=
  t1 ≤ a ∧ a ≤ c ∧ c ≤ b ∧ b ≤ t2 ∧ 0 < aDist ∧ bDist ≤ 0 ∧ IntersectionLinear a b aDist bDist = .ok c

/-- The last part of `InsertBlockLock(i)`, after the capacity check, on the store `s1` whose
counter `fetch_add` has already incremented: the new block is given its index and linked at
the head of its bucket. -/
def InsertBlockLockLink (s1 : SparseTSDF) (i : ivec3) (new_index : Int) : Except Err Int × SparseTSDF :=
  match H s1.hash_size i with
  | .error e => (.error e, s1)
  | .ok hash =>
    match vecGet s1.blocks new_index with
    | .error e => (.error e, s1)
    | .ok new_block =>
      let s3 := { s1 with blocks := vecSet s1.blocks new_index { new_block with index := i } }
      match vecGet s3.first_hashed_block hash with
      | .error e => (.error e, s3)
      | .ok head =>
        let s4 :=
          { s3 with blocks := vecSet s3.blocks new_index { new_block with index := i, next_index := head } }
        (.ok new_index, { s4 with first_hashed_block := vecSet s4.first_hashed_block hash new_index })

/-- Where a thread stands in its call of `InsertBlockLock(i)`: before `H(i)`; with `h`
computed, in front of the lock `hash_locks[h]`; holding the lock, before `GetBlock(i, h)`;
holding the lock with the slot `new_index` obtained from `fetch_add`, past the capacity check;
returned with a block pointer, the lock released; or ended by a failure. -/
inductive ThreadState where
  | start
  | hashed (h : Int)
  | locked (h : Int)
  | adding (h : Int) (new_index : Int)
  | done (block : Int)
  | failed (e : Err)
  deriving DecidableEq

/-- The threads that call `InsertBlockLock` on one store: the store, the spin locks
`hash_locks` (true when held) and the state of every thread. -/
structure Threads where
  store : SparseTSDF
  hash_locks : List Bool
  threads : List ThreadState

/-- The threads before any of them has run: `n` threads about to call, on the store `s` with
its `hash_size` locks free. -/
def Threads.init (s : SparseTSDF) (n : Nat) : Threads :=
  { store := s
    hash_locks := List.replicate s.hash_size false
    threads := List.replicate n .start }

/-- One step of thread `k` in its call `InsertBlockLock(i)`. A thread in front of a held lock
spins (nothing changes); taking the lock, the lookup together with `fetch_add` and the
capacity check, and the writes together with the release of the lock are one step each. A
thread that has returned or failed does nothing. -/
def threadStep (i : ivec3) (cfg : Threads) (k : Nat) : Threads :=
  match cfg.threads[k]? with
  | none => cfg
  | some .start =>
    match H cfg.store.hash_size i with
    | .error e => { cfg with threads := cfg.threads.set k (.failed e) }
    | .ok h => { cfg with threads := cfg.threads.set k (.hashed h) }
  | some (.hashed h) =>
    match vecGet cfg.hash_locks h with
    | .error e => { cfg with threads := cfg.threads.set k (.failed e) }
    | .ok true => cfg
    | .ok false =>
      { cfg with hash_locks := vecSet cfg.hash_locks h true, threads := cfg.threads.set k (.locked h) }
  | some (.locked h) =>
    match GetBlockAt cfg.store i h with
    | .error e => { cfg with threads := cfg.threads.set k (.failed e) }
    | .ok (some block) =>
      { cfg with hash_locks := vecSet cfg.hash_locks h false, threads := cfg.threads.set k (.done block) }
    | .ok none =>
      let new_index := cfg.store.current_blocks
      let s1 := { cfg.store with current_blocks := cfg.store.current_blocks + 1 }
      if new_index < 0 ∨ (s1.blocks.length : Int) ≤ new_index then
        { cfg with store := s1, threads := cfg.threads.set k (.failed .exit_error) }
      else { cfg with store := s1, threads := cfg.threads.set k (.adding h new_index) }
  | some (.adding h new_index) =>
    match InsertBlockLockLink cfg.store i new_index with
    | (.error e, s2) => { cfg with store := s2, threads := cfg.threads.set k (.failed e) }
    | (.ok block, s2) =>
      { store := s2
        hash_locks := vecSet cfg.hash_locks h false
        threads := cfg.threads.set k (.done block) }
  | some (.done _) => cfg
  | some (.failed _) => cfg

/-- The threads after the schedule: the listed threads take one step each, in this order. -/
def runSchedule (i : ivec3) (cfg : Threads) (schedule : List Nat) : Threads :=
  schedule.foldl (threadStep i) cfg

/-- The number of steps a thread still has to take before it has returned. -/
def remainingSteps : ThreadState → Nat
  | .start => 4
  | .hashed _ => 3
  | .locked _ => 2
  | .adding _ _ => 1
  | .done _ => 0
  | .failed _ => 0

/-- What the state of thread `k` may be while the threads insert one coordinate with bucket
`h0`: `phase` is 0 before the insertion, 1 while the thread `holder` is past `fetch_add` with
the new slot `n`, 2 when the block is linked in slot `slot`. -/
def ThreadOk (h0 slot n : Int) (phase : Nat) (holder : Option Nat) (k : Nat) : ThreadState → Prop
  | .start => True
  | .hashed h => h = h0
  | .locked h => h = h0 ∧ holder = some k ∧ phase ≠ 1
  | .adding h m => h = h0 ∧ m = n ∧ holder = some k ∧ phase = 1
  | .done r => r = slot ∧ phase = 2
  | .failed _ => False

/-- The invariant of the threads that insert one coordinate with bucket `h0` into the store
`s`, where a single call would return `slot` and leave `sF`: the lock of the bucket is held
exactly when a thread is between taking and releasing it, that thread is `holder`, and the
store is `s` before the insertion, `s` with the counter incremented while the holder is
about to link the block, and `sF` afterwards. -/
structure ThreadsInv (s : SparseTSDF) (c : ivec3) (h0 slot : Int) (sF : SparseTSDF) (cfg : Threads)
    (phase : Nat) (holder : Option Nat) : Prop where
  locks : vecGet cfg.hash_locks h0 = .ok holder.isSome
  holds : ∀ k, holder = some k →
    ∃ t, cfg.threads[k]? = some t ∧ (t = .locked h0 ∨ t = .adding h0 s.current_blocks)
  threads : ∀ k t, cfg.threads[k]? = some t → ThreadOk h0 slot s.current_blocks phase holder k t
  store : (phase = 0 ∧ cfg.store = s) ∨
    (phase = 1 ∧ cfg.store = { s with current_blocks := s.current_blocks + 1 }) ∨
    (phase = 2 ∧ cfg.store = sF)
  busy : phase = 1 → holder ≠ none
  fresh : phase ≠ 2 → ¬ Live s c

/-- The facts about a single call `InsertBlockLock(c)` on the store `s` that the threads rely
on: the bucket `h0` of `c`, the result `slot` and the store `sF` it leaves. -/
structure InsertFacts (s : SparseTSDF) (c : ivec3) (h0 slot : Int) (sF : SparseTSDF) : Prop where
  hash : H s.hash_size c = .ok h0
  hashF : sF.hash_size = s.hash_size
  found : GetBlockAt sF c h0 = .ok (some slot)
  absent : ¬ Live s c → GetBlockAt s c h0 = .ok none
  room : ¬ Live s c → ¬ (s.current_blocks < 0 ∨ (s.blocks.length : Int) ≤ s.current_blocks)
  link : ¬ Live s c →
    InsertBlockLockLink { s with current_blocks := s.current_blocks + 1 } c s.current_blocks = (.ok slot, sF)

/-! ## The hash function -/

theorem unsigned_poly (i : ivec3) :
    toUnsigned (wrapInt (wrapInt (i.x + wrapInt (i.y * 1000)) + wrapInt (wrapInt (i.z * 1000) * 1000)))
      = (i.x + i.y * 1000 + i.z * 1000 * 1000) % 4294967296 := by
  unfold toUnsigned wrapInt
  omega

theorem H_ok (hash_size : Nat) (i : ivec3) (h1 : 1 ≤ hash_size) (h2 : hash_size ≤ 2147483648) :
    H hash_size i = .ok (((i.x + i.y * 1000 + i.z * 1000 * 1000) % 4294967296) % (hash_size : Int)) := by
  unfold H
  simp only [unsigned_poly]
  have hne : hash_size ≠ 0 := by omega
  have hpos : (0 : Int) < (hash_size : Int) := by exact_mod_cast h1
  have hr0 := Int.emod_nonneg ((i.x + i.y * 1000 + i.z * 1000 * 1000) % 4294967296) (ne_of_gt hpos)
  have hr1 := Int.emod_lt_of_pos ((i.x + i.y * 1000 + i.z * 1000 * 1000) % 4294967296) hpos
  generalize ((i.x + i.y * 1000 + i.z * 1000 * 1000) % 4294967296) % (hash_size : Int) = r at hr0 hr1
  have hw : wrapInt r = r := by unfold wrapInt; omega
  have hu : toUnsigned r = r := by unfold toUnsigned; omega
  simp [hne, hw, hu, hr0, hr1]

theorem H_range (hash_size : Nat) (i : ivec3) (h : Int) (hh : H hash_size i = .ok h) :
    0 ≤ h ∧ h < hash_size := by
  unfold H at hh
  simp only [unsigned_poly] at hh
  split at hh
  · cases hh
  · split at hh
    · rename_i hc
      cases hh
      refine ⟨hc.1, ?_⟩
      have := hc.2
      unfold toUnsigned wrapInt at this
      unfold wrapInt at hc ⊢
      omega
    · cases hh

/-! ## Vector access and chains of slots -/

theorem vecGet_ok_iff {α : Type} (v : List α) (k : Int) (a : α) :
    vecGet v k = .ok a ↔ 0 ≤ k ∧ v[k.toNat]? = some a := by
  unfold vecGet
  by_cases hk : k < 0
  · simp [hk]
  · simp only [hk, if_false]
    cases hv : v[k.toNat]? with
    | none => simp
    | some b => simp; omega

theorem vecGet_natCast {α : Type} (v : List α) (n : Nat) (a : α) (h : v[n]? = some a) :
    vecGet v (n : Int) = .ok a := by
  rw [vecGet_ok_iff]
  simpa using h

theorem indexAt_eq_some (blocks : List VoxelBlock) (a : Nat) (c : ivec3) :
    indexAt blocks a = some c ↔ ∃ b, blocks[a]? = some b ∧ b.index = c := by
  simp [indexAt]

theorem nextAt_eq_some (blocks : List VoxelBlock) (a : Nat) (n : Int) :
    nextAt blocks a = some n ↔ ∃ b, blocks[a]? = some b ∧ b.next_index = n := by
  simp [nextAt]

theorem IsSeg.frame {blocks blocks' : List VoxelBlock} :
    ∀ {l : List Nat} {start stop : Int}, IsSeg blocks start l stop →
      (∀ a ∈ l, nextAt blocks' a = nextAt blocks a) → IsSeg blocks' start l stop
  | [], _, _, h, _ => h
  | a :: rest, _, _, ⟨h1, n, h2, h3⟩, hf =>
    ⟨h1, n, by rw [hf a (by simp)]; exact h2, IsSeg.frame h3 (fun x hx => hf x (by simp [hx]))⟩

theorem IsSeg.mem_lt {blocks : List VoxelBlock} :
    ∀ {l : List Nat} {start stop : Int}, IsSeg blocks start l stop → ∀ a ∈ l, a < blocks.length
  | [], _, _, _, a, ha => by simp at ha
  | x :: rest, _, _, ⟨_, n, h2, h3⟩, a, ha => by
    rcases List.mem_cons.1 ha with rfl | ha
    · rw [nextAt_eq_some] at h2
      obtain ⟨b, hb, _⟩ := h2
      exact (List.getElem?_eq_some.1 hb).1
    · exact IsSeg.mem_lt h3 a ha

theorem IsSeg.append {blocks : List VoxelBlock} :
    ∀ {l1 l2 : List Nat} {start stop : Int},
      IsSeg blocks start (l1 ++ l2) stop ↔ ∃ mid, IsSeg blocks start l1 mid ∧ IsSeg blocks mid l2 stop
  | [], l2, start, stop => by simp [IsSeg]
  | a :: rest, l2, start, stop => by
    simp only [List.cons_append, IsSeg]
    constructor
    · rintro ⟨h1, n, h2, h3⟩
      obtain ⟨mid, h4, h5⟩ := IsSeg.append.1 h3
      exact ⟨mid, ⟨h1, n, h2, h4⟩, h5⟩
    · rintro ⟨mid, ⟨h1, n, h2, h4⟩, h5⟩
      exact ⟨h1, n, h2, IsSeg.append.2 ⟨mid, h4, h5⟩⟩

theorem nodup_length_le (l : List Nat) (n : Nat) (hn : l.Nodup) (hl : ∀ a ∈ l, a < n) : l.length ≤ n := by
  have h1 : l.toFinset ⊆ Finset.range n := by
    intro a ha
    simp only [List.mem_toFinset] at ha
    simpa using hl a ha
  have h2 := Finset.card_le_card h1
  rw [List.toFinset_card_of_nodup hn] at h2
  simpa using h2

theorem lastPtr_append_singleton (p : IntPtr) (l : List Nat) (x : Nat) :
    lastPtr p (l ++ [x]) = .next (x : Int) := by
  induction l generalizing p with
  | nil => rfl
  | cons a rest ih => simpa [lastPtr] using ih _

theorem natCast_ne_neg_one (a : Nat) : ((a : Int) = -1) ↔ False := by
  constructor
  · intro h; omega
  · intro h; exact h.elim

/-! ## The two chain walks -/

theorem GetBlockIdLoop_stop (blocks : List VoxelBlock) (i : ivec3) (k : Nat) :
    GetBlockIdLoop blocks i (k + 1) (-1) = .ok (-1) := by
  simp [GetBlockIdLoop]

theorem GetBlockIdLoop_hit (blocks : List VoxelBlock) (i : ivec3) (k a : Nat)
    (h : indexAt blocks a = some i) : GetBlockIdLoop blocks i (k + 1) (a : Int) = .ok (a : Int) := by
  rw [indexAt_eq_some] at h
  obtain ⟨b, hb, hi⟩ := h
  simp [GetBlockIdLoop, natCast_ne_neg_one, vecGet_natCast _ _ _ hb, hi]

theorem GetBlockIdLoop_skip {blocks : List VoxelBlock} {i : ivec3} (k : Nat) :
    ∀ {l : List Nat} {start mid : Int}, IsSeg blocks start l mid →
      (∀ a ∈ l, indexAt blocks a ≠ some i) →
      GetBlockIdLoop blocks i (l.length + k) start = GetBlockIdLoop blocks i k mid
  | [], _, _, h, _ => by simp only [IsSeg] at h; simp [h]
  | a :: rest, start, mid, ⟨h1, n, h2, h3⟩, hne => by
    have ih := GetBlockIdLoop_skip k h3 (fun x hx => hne x (by simp [hx]))
    have hlen : (a :: rest).length + k = (rest.length + k) + 1 := by simp; omega
    rw [hlen, h1]
    rw [nextAt_eq_some] at h2
    obtain ⟨b, hb, hn⟩ := h2
    have hbi : b.index ≠ i := by
      intro hc
      exact hne a (by simp) ((indexAt_eq_some _ _ _).2 ⟨b, hb, hc⟩)
    simp only [GetBlockIdLoop, natCast_ne_neg_one, if_false, vecGet_natCast _ _ _ hb, hbi, hn]
    exact ih

theorem EraseBlockWithHoleLoop_stop (s : SparseTSDF) (i : ivec3) (k : Nat) (p : IntPtr)
    (h : deref s p = .ok (-1)) : EraseBlockWithHoleLoop s i (k + 1) p = .ok none := by
  simp [EraseBlockWithHoleLoop, h]

theorem EraseBlockWithHoleLoop_hit (s : SparseTSDF) (i : ivec3) (k a : Nat) (p : IntPtr)
    (h : deref s p = .ok (a : Int)) (hi : indexAt s.blocks a = some i) :
    EraseBlockWithHoleLoop s i (k + 1) p = .ok (some p) := by
  rw [indexAt_eq_some] at hi
  obtain ⟨b, hb, hi⟩ := hi
  simp [EraseBlockWithHoleLoop, h, natCast_ne_neg_one, vecGet_natCast _ _ _ hb, hi]

theorem EraseBlockWithHoleLoop_skip {s : SparseTSDF} {i : ivec3} (k : Nat) :
    ∀ {l : List Nat} {p : IntPtr} {start mid : Int}, deref s p = .ok start →
      IsSeg s.blocks start l mid → (∀ a ∈ l, indexAt s.blocks a ≠ some i) →
      EraseBlockWithHoleLoop s i (l.length + k) p = EraseBlockWithHoleLoop s i k (lastPtr p l)
        ∧ deref s (lastPtr p l) = .ok mid
  | [], _, _, _, hp, h, _ => by simp only [IsSeg] at h; simp [lastPtr, hp, h]
  | a :: rest, p, start, mid, hp, ⟨h1, n, h2, h3⟩, hne => by
    rw [nextAt_eq_some] at h2
    obtain ⟨b, hb, hn⟩ := h2
    have hp2 : deref s (.next (a : Int)) = .ok n := by
      simp [deref, vecGet_natCast _ _ _ hb, hn]
    have ih := EraseBlockWithHoleLoop_skip k hp2 h3 (fun x hx => hne x (by simp [hx]))
    have hlen : (a :: rest).length + k = (rest.length + k) + 1 := by simp; omega
    have hbi : b.index ≠ i := by
      intro hc
      exact hne a (by simp) ((indexAt_eq_some _ _ _).2 ⟨b, hb, hc⟩)
    rw [hlen]
    subst h1
    simp only [EraseBlockWithHoleLoop, hp, natCast_ne_neg_one, if_false, vecGet_natCast _ _ _ hb, hbi,
      lastPtr]
    exact ih

/-! ## Lookup under the index invariant -/

theorem ChainInv.bucket {s : SparseTSDF} {P : Nat → Prop} (inv : ChainInv s P) {c : ivec3} {h : Int}
    (hh : H s.hash_size c = .ok h) :
    ∃ (hn : Nat) (head : Int) (l : List Nat), h = (hn : Int) ∧ s.first_hashed_block[hn]? = some head ∧
      vecGet s.first_hashed_block h = .ok head ∧ IsChain s.blocks head l ∧ l.Nodup ∧
      ∀ a, a ∈ l ↔ (P a ∧ ∃ c, indexAt s.blocks a = some c ∧ H s.hash_size c = .ok (hn : Int)) := by
  obtain ⟨h0, h1⟩ := H_range _ _ _ hh
  obtain ⟨hn, rfl⟩ := Int.eq_ofNat_of_zero_le h0
  have hlt : hn < s.first_hashed_block.length := by rw [inv.heads]; exact_mod_cast h1
  have hget : s.first_hashed_block[hn]? = some (s.first_hashed_block[hn]) := List.getElem?_eq_getElem hlt
  obtain ⟨l, hl1, hl2, hl3⟩ := inv.chains hn _ hget
  exact ⟨hn, _, l, rfl, hget, vecGet_natCast _ _ _ hget, hl1, hl2, hl3⟩

theorem IsChain.length_le {blocks : List VoxelBlock} {start : Int} {l : List Nat}
    (h : IsChain blocks start l) (hn : l.Nodup) : l.length ≤ blocks.length :=
  nodup_length_le l _ hn (IsSeg.mem_lt h)

theorem ChainInv.lookup_hit {s : SparseTSDF} {P : Nat → Prop} (inv : ChainInv s P) {a : Nat} {c : ivec3}
    (hP : P a) (hc : indexAt s.blocks a = some c) : GetBlockId s c = .ok (a : Int) := by
  obtain ⟨c', h, hc', hh⟩ := inv.stored a hP
  rw [hc] at hc'
  cases hc'
  obtain ⟨hn, head, l, rfl, _, hget, hl1, hl2, hl3⟩ := inv.bucket hh
  have hal : a ∈ l := (hl3 a).2 ⟨hP, c, hc, hh⟩
  obtain ⟨l1, l2, rfl⟩ := List.append_of_mem hal
  obtain ⟨mid, hs1, hs2⟩ := IsSeg.append.1 hl1
  have hmid : mid = (a : Int) := hs2.1
  subst hmid
  have hne : ∀ x ∈ l1, indexAt s.blocks x ≠ some c := by
    intro x hx hxc
    have hxP : P x := ((hl3 x).1 (by simp [hx])).1
    have hxa : x = a := inv.distinct x a c hxP hP hxc hc
    subst hxa
    have := (List.nodup_append.1 hl2).2.2
    exact this hx (by simp)
  have hlen := IsChain.length_le hl1 hl2
  simp only [List.length_append, List.length_cons] at hlen
  have hfuel : s.blocks.length + 1 = l1.length + ((s.blocks.length - l1.length) + 1) := by omega
  unfold GetBlockId GetBlockIdAt
  simp only [hh, hget]
  rw [hfuel, GetBlockIdLoop_skip _ hs1 hne]
  exact GetBlockIdLoop_hit _ _ _ _ hc

theorem ChainInv.lookup_miss {s : SparseTSDF} {P : Nat → Prop} (inv : ChainInv s P) {c : ivec3} {h : Int}
    (hh : H s.hash_size c = .ok h) (hno : ∀ a, P a → indexAt s.blocks a ≠ some c) :
    GetBlockId s c = .ok (-1) := by
  obtain ⟨hn, head, l, rfl, _, hget, hl1, hl2, hl3⟩ := inv.bucket hh
  have hne : ∀ x ∈ l, indexAt s.blocks x ≠ some c := fun x hx => hno x ((hl3 x).1 hx).1
  have hlen := IsChain.length_le hl1 hl2
  have hfuel : s.blocks.length + 1 = l.length + ((s.blocks.length - l.length) + 1) := by omega
  unfold GetBlockId GetBlockIdAt
  simp only [hh, hget]
  rw [hfuel, GetBlockIdLoop_skip _ hl1 hne]
  exact GetBlockIdLoop_stop _ _ _

/-! ## Linking and unlinking a slot -/

theorem IsChain.unique {blocks : List VoxelBlock} :
    ∀ {l l' : List Nat} {start : Int}, IsChain blocks start l → IsChain blocks start l' → l = l'
  | [], [], _, _, _ => rfl
  | [], a :: _, _, h, h' => by
    have h1 : _ = (-1 : Int) := h
    have h2 := h'.1
    omega
  | a :: _, [], _, h, h' => by
    have h1 : _ = (-1 : Int) := h'
    have h2 := h.1
    omega
  | a :: rest, a' :: rest', _, ⟨h1, n, h2, h3⟩, ⟨h1', n', h2', h3'⟩ => by
    have haa : a = a' := by omega
    subst haa
    rw [h2] at h2'
    cases h2'
    rw [IsChain.unique h3 h3']

theorem IsSeg.set_last {blocks blocks' : List VoxelBlock} {l0 : List Nat} {p : Nat} {start mid v : Int}
    (h : IsSeg blocks start (l0 ++ [p]) mid) (hv : nextAt blocks' p = some v)
    (hf : ∀ x ∈ l0, nextAt blocks' x = nextAt blocks x) : IsSeg blocks' start (l0 ++ [p]) v := by
  obtain ⟨m, h1, h2⟩ := IsSeg.append.1 h
  exact IsSeg.append.2 ⟨m, IsSeg.frame h1 hf, h2.1, v, hv, rfl⟩

theorem ChainInv.congr {s s' : SparseTSDF} {P : Nat → Prop} (inv : ChainInv s P)
    (hhs : s'.hash_size = s.hash_size) (hf : s'.first_hashed_block = s.first_hashed_block)
    (hb : ∀ x, P x → indexAt s'.blocks x = indexAt s.blocks x ∧ nextAt s'.blocks x = nextAt s.blocks x) :
    ChainInv s' P where
  heads := by rw [hf, hhs]; exact inv.heads
  stored := by
    intro a ha
    rw [(hb a ha).1, hhs]
    exact inv.stored a ha
  distinct := by
    intro a a' c ha ha'
    rw [(hb a ha).1, (hb a' ha').1]
    exact inv.distinct a a' c ha ha'
  chains := by
    intro h head hh
    rw [hf] at hh
    obtain ⟨l, hl1, hl2, hl3⟩ := inv.chains h head hh
    refine ⟨l, IsSeg.frame hl1 (fun x hx => (hb x ((hl3 x).1 hx).1).2), hl2, ?_⟩
    intro x
    rw [hl3 x, hhs]
    constructor
    · rintro ⟨hx, hc⟩
      exact ⟨hx, by rw [(hb x hx).1]; exact hc⟩
    · rintro ⟨hx, hc⟩
      exact ⟨hx, by rw [(hb x hx).1] at hc; exact hc⟩

theorem ChainInv.iff {s : SparseTSDF} {P Q : Nat → Prop} (inv : ChainInv s P) (h : ∀ x, P x ↔ Q x) :
    ChainInv s Q := by
  have hPQ : P = Q := funext (fun x => propext (h x))
  rw [← hPQ]
  exact inv

theorem ChainInv.link {s s' : SparseTSDF} {P : Nat → Prop} (inv : ChainInv s P) {a hn : Nat}
    {head : Int} {c : ivec3} (ha : ¬ P a) (hc : H s.hash_size c = .ok (hn : Int))
    (hhead : s.first_hashed_block[hn]? = some head)
    (hfresh : ∀ x, P x → indexAt s.blocks x ≠ some c)
    (hhs : s'.hash_size = s.hash_size)
    (hf : s'.first_hashed_block = s.first_hashed_block.set hn (a : Int))
    (hia : indexAt s'.blocks a = some c) (hna : nextAt s'.blocks a = some head)
    (hb : ∀ x, P x → indexAt s'.blocks x = indexAt s.blocks x ∧ nextAt s'.blocks x = nextAt s.blocks x) :
    ChainInv s' (fun x => P x ∨ x = a) where
  heads := by rw [hf, hhs, List.length_set]; exact inv.heads
  stored := by
    rintro x (hx | rfl)
    · rw [(hb x hx).1, hhs]
      exact inv.stored x hx
    · exact ⟨c, hn, hia, by rw [hhs]; exact hc⟩
  distinct := by
    rintro x x' c' (hx | rfl) (hx' | rfl) h1 h2
    · rw [(hb x hx).1] at h1
      rw [(hb x' hx').1] at h2
      exact inv.distinct x x' c' hx hx' h1 h2
    · rw [hia] at h2
      cases h2
      rw [(hb x hx).1] at h1
      exact (hfresh x hx h1).elim
    · rw [hia] at h1
      cases h1
      rw [(hb x' hx').1] at h2
      exact (hfresh x' hx' h2).elim
    · rfl
  chains := by
    intro h head' hh
    rw [hf, List.getElem?_set] at hh
    by_cases hhn : hn = h
    · subst hhn
      have hlt : hn < s.first_hashed_block.length := (List.getElem?_eq_some.1 hhead).1
      simp only [if_true, hlt] at hh
      cases hh
      obtain ⟨l, hl1, hl2, hl3⟩ := inv.chains hn head hhead
      have hal : a ∉ l := fun hal => ha ((hl3 a).1 hal).1
      refine ⟨a :: l, ⟨rfl, head, hna, IsSeg.frame hl1 (fun x hx => (hb x ((hl3 x).1 hx).1).2)⟩,
        List.nodup_cons.2 ⟨hal, hl2⟩, ?_⟩
      intro x
      rw [List.mem_cons, hl3 x, hhs]
      constructor
      · rintro (rfl | ⟨hx, hcx⟩)
        · exact ⟨Or.inr rfl, c, hia, hc⟩
        · exact ⟨Or.inl hx, by rw [(hb x hx).1]; exact hcx⟩
      · rintro ⟨hx | rfl, hcx⟩
        · exact Or.inr ⟨hx, by rw [(hb x hx).1] at hcx; exact hcx⟩
        · exact Or.inl rfl
    · simp only [hhn, if_false] at hh
      obtain ⟨l, hl1, hl2, hl3⟩ := inv.chains h head' hh
      refine ⟨l, IsSeg.frame hl1 (fun x hx => (hb x ((hl3 x).1 hx).1).2), hl2, ?_⟩
      intro x
      rw [hl3 x, hhs]
      constructor
      · rintro ⟨hx, hcx⟩
        exact ⟨Or.inl hx, by rw [(hb x hx).1]; exact hcx⟩
      · rintro ⟨hx | rfl, hcx⟩
        · exact ⟨hx, by rw [(hb x hx).1] at hcx; exact hcx⟩
        · obtain ⟨c', hc1, hc2⟩ := hcx
          rw [hia] at hc1
          cases hc1
          rw [hc] at hc2
          injection hc2 with hc2
          exact (hhn (by exact_mod_cast hc2)).elim

theorem ChainInv.unlink_head {s s' : SparseTSDF} {P : Nat → Prop} (inv : ChainInv s P) {a hn : Nat}
    {c : ivec3} {na : Int} (hP : P a) (hca : indexAt s.blocks a = some c)
    (hc : H s.hash_size c = .ok (hn : Int)) (hna : nextAt s.blocks a = some na)
    (hhead : s.first_hashed_block[hn]? = some (a : Int))
    (hhs : s'.hash_size = s.hash_size)
    (hf : s'.first_hashed_block = s.first_hashed_block.set hn na)
    (hb : ∀ x, P x → indexAt s'.blocks x = indexAt s.blocks x ∧ nextAt s'.blocks x = nextAt s.blocks x) :
    ChainInv s' (fun x => P x ∧ x ≠ a) where
  heads := by rw [hf, hhs, List.length_set]; exact inv.heads
  stored := by
    rintro x ⟨hx, _⟩
    rw [(hb x hx).1, hhs]
    exact inv.stored x hx
  distinct := by
    rintro x x' c' ⟨hx, _⟩ ⟨hx', _⟩ h1 h2
    rw [(hb x hx).1] at h1
    rw [(hb x' hx').1] at h2
    exact inv.distinct x x' c' hx hx' h1 h2
  chains := by
    intro h head' hh
    rw [hf, List.getElem?_set] at hh
    by_cases hhn : hn = h
    · subst hhn
      have hlt : hn < s.first_hashed_block.length := (List.getElem?_eq_some.1 hhead).1
      simp only [if_true, hlt] at hh
      cases hh
      obtain ⟨l, hl1, hl2, hl3⟩ := inv.chains hn _ hhead
      cases l with
      | nil =>
        have h1 : _ = (-1 : Int) := hl1
        omega
      | cons a' l2 =>
        obtain ⟨h1, n, h2, h3⟩ := hl1
        have haa : a = a' := by omega
        subst haa
        rw [hna] at h2
        cases h2
        have hal : a ∉ l2 := (List.nodup_cons.1 hl2).1
        refine ⟨l2, IsSeg.frame h3 (fun x hx => (hb x ((hl3 x).1 (by simp [hx])).1).2),
          (List.nodup_cons.1 hl2).2, ?_⟩
        intro x
        have hx3 := hl3 x
        rw [List.mem_cons] at hx3
        rw [hhs]
        constructor
        · intro hx
          obtain ⟨hxP, hxc⟩ := hx3.1 (Or.inr hx)
          refine ⟨⟨hxP, ?_⟩, by rw [(hb x hxP).1]; exact hxc⟩
          rintro rfl
          exact hal hx
        · rintro ⟨⟨hxP, hxa⟩, hxc⟩
          rw [(hb x hxP).1] at hxc
          rcases hx3.2 ⟨hxP, hxc⟩ with rfl | hx
          · exact (hxa rfl).elim
          · exact hx
    · simp only [hhn, if_false] at hh
      obtain ⟨l, hl1, hl2, hl3⟩ := inv.chains h head' hh
      refine ⟨l, IsSeg.frame hl1 (fun x hx => (hb x ((hl3 x).1 hx).1).2), hl2, ?_⟩
      intro x
      rw [hl3 x, hhs]
      constructor
      · rintro ⟨hx, hcx⟩
        refine ⟨⟨hx, ?_⟩, by rw [(hb x hx).1]; exact hcx⟩
        rintro rfl
        obtain ⟨c', hc1, hc2⟩ := hcx
        rw [hca] at hc1
        cases hc1
        rw [hc] at hc2
        injection hc2 with hc2
        exact hhn (by exact_mod_cast hc2)
      · rintro ⟨⟨hx, _⟩, hcx⟩
        exact ⟨hx, by rw [(hb x hx).1] at hcx; exact hcx⟩

theorem ChainInv.unlink_next {s s' : SparseTSDF} {P : Nat → Prop} (inv : ChainInv s P) {a p hn : Nat}
    {c : ivec3} {na head : Int} {l0 l2 : List Nat} (hca : indexAt s.blocks a = some c)
    (hc : H s.hash_size c = .ok (hn : Int)) (hna : nextAt s.blocks a = some na)
    (hhead : s.first_hashed_block[hn]? = some head)
    (hl : IsChain s.blocks head (l0 ++ p :: a :: l2))
    (hhs : s'.hash_size = s.hash_size)
    (hf : s'.first_hashed_block = s.first_hashed_block)
    (hi : ∀ x, P x → indexAt s'.blocks x = indexAt s.blocks x)
    (hnp : nextAt s'.blocks p = some na)
    (hnx : ∀ x, P x → x ≠ p → nextAt s'.blocks x = nextAt s.blocks x) :
    ChainInv s' (fun x => P x ∧ x ≠ a) where
  heads := by rw [hf, hhs]; exact inv.heads
  stored := by
    rintro x ⟨hx, _⟩
    rw [hi x hx, hhs]
    exact inv.stored x hx
  distinct := by
    rintro x x' c' ⟨hx, _⟩ ⟨hx', _⟩ h1 h2
    rw [hi x hx] at h1
    rw [hi x' hx'] at h2
    exact inv.distinct x x' c' hx hx' h1 h2
  chains := by
    intro h head' hh
    rw [hf] at hh
    obtain ⟨l, hl1, hl2, hl3⟩ := inv.chains h head' hh
    have hidx : ∀ x, (P x ∧ ∃ c, indexAt s.blocks x = some c ∧ H s.hash_size c = .ok (h : Int)) →
        (∃ c, indexAt s'.blocks x = some c ∧ H s'.hash_size c = .ok (h : Int)) := by
      rintro x ⟨hx, hcx⟩
      rw [hi x hx, hhs]
      exact hcx
    by_cases hhn : hn = h
    · subst hhn
      rw [hhead] at hh
      cases hh
      have hll := IsChain.unique hl1 hl
      subst hll
      have hsplit : l0 ++ p :: a :: l2 = (l0 ++ [p]) ++ a :: l2 := by simp
      rw [hsplit] at hl1
      obtain ⟨mid, hs1, hs2⟩ := IsSeg.append.1 hl1
      obtain ⟨_, n, hn2, hs3⟩ := hs2
      rw [hna] at hn2
      cases hn2
      have hnd := hl2
      rw [hsplit] at hnd
      simp only [List.nodup_append, List.nodup_cons, List.mem_append, List.mem_cons, List.mem_singleton,
        List.nodup_nil, List.not_mem_nil] at hnd
      obtain ⟨⟨hnd0, _, hnd0p⟩, ⟨hnda, hnd2⟩, hdisj⟩ := hnd
      have hmemP : ∀ x, x ∈ l0 ++ p :: a :: l2 → P x := fun x hx => ((hl3 x).1 hx).1
      have hseg1 : IsSeg s'.blocks head (l0 ++ [p]) na := by
        refine IsSeg.set_last hs1 hnp ?_
        intro x hx
        refine hnx x (hmemP x (by simp [hx])) ?_
        rintro rfl
        exact hnd0p hx (by simp)
      have hseg2 : IsSeg s'.blocks na l2 (-1) := by
        refine IsSeg.frame hs3 ?_
        intro x hx
        refine hnx x (hmemP x (by simp [hx])) ?_
        rintro rfl
        exact hdisj (List.mem_append.2 (Or.inr (List.mem_singleton.2 rfl))) (List.mem_cons.2 (Or.inr hx))
      refine ⟨(l0 ++ [p]) ++ l2, IsSeg.append.2 ⟨na, hseg1, hseg2⟩, ?_, ?_⟩
      · simp only [List.nodup_append, List.nodup_cons, List.mem_append, List.mem_singleton,
          List.nodup_nil, List.not_mem_nil]
        refine ⟨⟨hnd0, ?_, hnd0p⟩, hnd2, ?_⟩
        · simp
        · intro x hx hx2
          exact hdisj hx (List.mem_cons.2 (Or.inr hx2))
      · intro x
        have hx3 := hl3 x
        constructor
        · intro hx
          have hxl : x ∈ l0 ++ p :: a :: l2 := by
            simp only [List.mem_append, List.mem_cons, List.mem_singleton, List.not_mem_nil, or_false] at hx ⊢
            tauto
          refine ⟨⟨(hx3.1 hxl).1, ?_⟩, hidx x (hx3.1 hxl)⟩
          rintro rfl
          simp only [List.mem_append, List.mem_singleton] at hx
          rcases hx with hx | hx
          · exact hdisj (List.mem_append.2 (hx.imp id List.mem_singleton.2)) (List.mem_cons.2 (Or.inl rfl))
          · exact hnda hx
        · rintro ⟨⟨hxP, hxa⟩, hxc⟩
          rw [hi x hxP, hhs] at hxc
          have hxl := hx3.2 ⟨hxP, hxc⟩
          simp only [List.mem_append, List.mem_cons, List.mem_singleton] at hxl ⊢
          tauto
    · have hpl : p ∉ l := by
        intro hp
        obtain ⟨_, cp, hcp1, hcp2⟩ := (hl3 p).1 hp
        obtain ⟨lh, hlh1, _, hlh3⟩ := inv.chains hn head hhead
        have hll := IsChain.unique hlh1 hl
        subst hll
        obtain ⟨_, cp', hcp1', hcp2'⟩ := (hlh3 p).1 (by simp)
        rw [hcp1] at hcp1'
        cases hcp1'
        rw [hcp2] at hcp2'
        injection hcp2' with hcp2'
        exact hhn (by exact_mod_cast hcp2'.symm)
      refine ⟨l, IsSeg.frame hl1 ?_, hl2, ?_⟩
      · intro x hx
        refine hnx x ((hl3 x).1 hx).1 ?_
        rintro rfl
        exact hpl hx
      · intro x
        constructor
        · intro hx
          refine ⟨⟨((hl3 x).1 hx).1, ?_⟩, hidx x ((hl3 x).1 hx)⟩
          rintro rfl
          obtain ⟨_, c', hc1, hc2⟩ := (hl3 x).1 hx
          rw [hca] at hc1
          cases hc1
          rw [hc] at hc2
          injection hc2 with hc2
          exact hhn (by exact_mod_cast hc2)
        · rintro ⟨⟨hxP, _⟩, hxc⟩
          rw [hi x hxP, hhs] at hxc
          exact (hl3 x).2 ⟨hxP, hxc⟩

/-! ## `EraseBlockWithHole` -/

theorem indexAt_set_ne (bs : List VoxelBlock) (p x : Nat) (b : VoxelBlock) (h : p ≠ x) :
    indexAt (bs.set p b) x = indexAt bs x := by
  simp [indexAt, List.getElem?_set_ne h]

theorem nextAt_set_ne (bs : List VoxelBlock) (p x : Nat) (b : VoxelBlock) (h : p ≠ x) :
    nextAt (bs.set p b) x = nextAt bs x := by
  simp [nextAt, List.getElem?_set_ne h]

theorem dataAt_set_ne (bs : List VoxelBlock) (p x : Nat) (b : VoxelBlock) (h : p ≠ x) :
    dataAt (bs.set p b) x = dataAt bs x := by
  simp [dataAt, List.getElem?_set_ne h]

theorem indexAt_set_self (bs : List VoxelBlock) (p : Nat) (b : VoxelBlock) (h : p < bs.length) :
    indexAt (bs.set p b) p = some b.index := by
  simp [indexAt, List.getElem?_set_self h]

theorem nextAt_set_self (bs : List VoxelBlock) (p : Nat) (b : VoxelBlock) (h : p < bs.length) :
    nextAt (bs.set p b) p = some b.next_index := by
  simp [nextAt, List.getElem?_set_self h]

theorem dataAt_set_self (bs : List VoxelBlock) (p : Nat) (b : VoxelBlock) (h : p < bs.length) :
    dataAt (bs.set p b) p = some b.data := by
  simp [dataAt, List.getElem?_set_self h]

theorem indexAt_set_same (bs : List VoxelBlock) (p x : Nat) (b b0 : VoxelBlock) (hb : bs[p]? = some b0)
    (hi : b.index = b0.index) : indexAt (bs.set p b) x = indexAt bs x := by
  by_cases h : p = x
  · subst h
    rw [indexAt_set_self _ _ _ (List.getElem?_eq_some.1 hb).1]
    simp [indexAt, hb, hi]
  · exact indexAt_set_ne _ _ _ _ h

theorem dataAt_set_same (bs : List VoxelBlock) (p x : Nat) (b b0 : VoxelBlock) (hb : bs[p]? = some b0)
    (hi : b.data = b0.data) : dataAt (bs.set p b) x = dataAt bs x := by
  by_cases h : p = x
  · subst h
    rw [dataAt_set_self _ _ _ (List.getElem?_eq_some.1 hb).1]
    simp [dataAt, hb, hi]
  · exact dataAt_set_ne _ _ _ _ h

theorem vecSet_natCast {α : Type} (v : List α) (n : Nat) (a : α) : vecSet v (n : Int) a = v.set n a := by
  simp [vecSet]

theorem SameContent.refl (s : SparseTSDF) : SameContent s s :=
  ⟨rfl, rfl, rfl, rfl, rfl, fun _ => rfl, fun _ => rfl⟩

theorem SameContent.trans {s s1 s2 : SparseTSDF} (h1 : SameContent s s1) (h2 : SameContent s1 s2) :
    SameContent s s2 :=
  ⟨h2.voxel_size.trans h1.voxel_size, h2.voxel_size_inv.trans h1.voxel_size_inv,
    h2.hash_size.trans h1.hash_size, h2.current_blocks.trans h1.current_blocks,
    h2.length.trans h1.length, fun x => (h2.index x).trans (h1.index x),
    fun x => (h2.data x).trans (h1.data x)⟩

/-- Where a block of the index sits in its chain. -/
theorem ChainInv.locate {s : SparseTSDF} {P : Nat → Prop} (inv : ChainInv s P) {a : Nat} {c : ivec3}
    {h : Int} (hP : P a) (hca : indexAt s.blocks a = some c) (hh : H s.hash_size c = .ok h) :
    ∃ (hn : Nat) (head na : Int) (l1 l2 : List Nat), h = (hn : Int) ∧
      s.first_hashed_block[hn]? = some head ∧ vecGet s.first_hashed_block h = .ok head ∧
      IsChain s.blocks head (l1 ++ a :: l2) ∧ IsSeg s.blocks head l1 (a : Int) ∧
      nextAt s.blocks a = some na ∧ (∀ x ∈ l1, indexAt s.blocks x ≠ some c) ∧
      l1.length + 1 ≤ s.blocks.length := by
  obtain ⟨hn, head, l, rfl, hget0, hget, hl1, hl2, hl3⟩ := inv.bucket hh
  have hal : a ∈ l := (hl3 a).2 ⟨hP, c, hca, hh⟩
  obtain ⟨l1, l2, rfl⟩ := List.append_of_mem hal
  obtain ⟨mid, hs1, hs2⟩ := IsSeg.append.1 hl1
  have hmid : mid = (a : Int) := hs2.1
  subst hmid
  obtain ⟨_, na, hna, _⟩ := hs2
  have hne : ∀ x ∈ l1, indexAt s.blocks x ≠ some c := by
    intro x hx hxc
    have hxP : P x := ((hl3 x).1 (by simp [hx])).1
    have hxa : x = a := inv.distinct x a c hxP hP hxc hca
    subst hxa
    have := (List.nodup_append.1 hl2).2.2
    exact this hx (by simp)
  have hlen := IsChain.length_le hl1 hl2
  simp only [List.length_append, List.length_cons] at hlen
  exact ⟨hn, head, na, l1, l2, rfl, hget0, hget, hl1, hs1, hna, hne, by omega⟩

theorem EraseBlockWithHole_spec {s : SparseTSDF} {P : Nat → Prop} (inv : ChainInv s P) {a : Nat}
    {c : ivec3} {h : Int} (hP : P a) (hca : indexAt s.blocks a = some c)
    (hh : H s.hash_size c = .ok h) :
    ∃ s1, EraseBlockWithHole s c h = (.ok true, s1) ∧ ChainInv s1 (fun x => P x ∧ x ≠ a) ∧
      SameContent s s1 := by
  obtain ⟨hn, head, na, l1, l2, rfl, hget0, hget, hl, hs1, hna, hne, hlen⟩ := inv.locate hP hca hh
  have hfuel : s.blocks.length + 1 = l1.length + ((s.blocks.length - l1.length) + 1) := by omega
  have hd0 : deref s (.head (hn : Int)) = .ok head := hget
  obtain ⟨hskip, hd1⟩ := @EraseBlockWithHoleLoop_skip s c ((s.blocks.length - l1.length) + 1) l1 _ _ _ hd0 hs1 hne
  have hloop : EraseBlockWithHoleLoop s c (s.blocks.length + 1) (.head (hn : Int))
      = .ok (some (lastPtr (.head (hn : Int)) l1)) := by
    rw [hfuel, hskip]
    exact EraseBlockWithHoleLoop_hit _ _ _ _ _ hd1 hca
  obtain ⟨ba, hba, hban⟩ := (nextAt_eq_some _ _ _).1 hna
  have hres : EraseBlockWithHole s c (hn : Int)
      = (.ok true, assign s (lastPtr (.head (hn : Int)) l1) na) := by
    unfold EraseBlockWithHole
    simp only [hloop, hd1, vecGet_natCast _ _ _ hba, hban]
  refine ⟨_, hres, ?_⟩
  rcases List.eq_nil_or_concat l1 with rfl | ⟨l0, p, hl1⟩
  · have hhead : head = (a : Int) := hs1
    subst hhead
    simp only [lastPtr, assign, vecSet_natCast]
    refine ⟨inv.unlink_head hP hca hh hna hget0 rfl rfl (fun _ _ => ⟨rfl, rfl⟩), ?_⟩
    exact ⟨rfl, rfl, rfl, rfl, rfl, fun _ => rfl, fun _ => rfl⟩
  · rw [List.concat_eq_append] at hl1
    subst hl1
    have hpl : p ∈ l0 ++ [p] ++ a :: l2 := by simp
    have hplt := IsSeg.mem_lt hl p hpl
    have hbp : s.blocks[p]? = some s.blocks[p] := List.getElem?_eq_getElem hplt
    simp only [lastPtr_append_singleton, assign, vecGet_natCast _ _ _ hbp, vecSet_natCast]
    have hl' : IsChain s.blocks head (l0 ++ p :: a :: l2) := by simpa using hl
    refine ⟨inv.unlink_next hca hh hna hget0 hl' rfl rfl ?_ ?_ ?_, ?_⟩
    · intro x _
      exact indexAt_set_same _ _ _ _ _ hbp rfl
    · exact nextAt_set_self _ _ _ hplt
    · intro x _ hxp
      exact nextAt_set_ne _ _ _ _ (Ne.symm hxp)
    · exact ⟨rfl, rfl, rfl, rfl, by simp, fun x => indexAt_set_same _ _ _ _ _ hbp rfl,
        fun x => dataAt_set_same _ _ _ _ _ hbp rfl⟩

/-! ## Lookup, `InsertBlock` and `EraseBlock` under the store invariants -/

theorem resize_length (bs : List VoxelBlock) (m : Nat) : (resize bs m).length = m := by
  simp [resize]
  omega

theorem resize_getElem?_of_lt (bs : List VoxelBlock) (m x : Nat) (hx : x < bs.length) (hm : x < m) :
    (resize bs m)[x]? = bs[x]? := by
  unfold resize
  rw [List.getElem?_append_left (by simp; omega), List.getElem?_take_of_lt hm]

theorem resize_getElem?_of_ge (bs : List VoxelBlock) (m x : Nat) (hx : bs.length ≤ x) (hm : x < m) :
    (resize bs m)[x]? = some VoxelBlock.fresh := by
  unfold resize
  rw [List.getElem?_append_right (by simp; omega)]
  simp [List.getElem?_replicate]
  simp [Nat.min_def]
  split <;> omega

theorem GetBlockId_ok_hash {s : SparseTSDF} {c : ivec3} {id : Int} (h : GetBlockId s c = .ok id) :
    ∃ h, H s.hash_size c = .ok h := by
  unfold GetBlockId at h
  cases hh : H s.hash_size c with
  | error e => simp [hh] at h
  | ok h => exact ⟨h, rfl⟩

theorem StoreInv.lookup_live {s : SparseTSDF} (inv : StoreInv s) {a : Nat} {c : ivec3}
    (ha : (a : Int) < s.current_blocks) (hc : indexAt s.blocks a = some c) :
    GetBlockId s c = .ok (a : Int) :=
  inv.index.lookup_hit ha hc

theorem StoreInv.lookup_dead {s : SparseTSDF} (inv : StoreInv s) {c : ivec3} {h : Int}
    (hh : H s.hash_size c = .ok h) (hc : ¬ Live s c) : GetBlockId s c = .ok (-1) :=
  inv.index.lookup_miss hh (fun a ha hca => hc ⟨a, ha, hca⟩)

theorem StoreInv.lookup_ok {s : SparseTSDF} (inv : StoreInv s) {c : ivec3} {id : Int}
    (h : GetBlockId s c = .ok id) :
    (id = -1 ∧ ¬ Live s c) ∨
      (∃ a : Nat, id = (a : Int) ∧ (a : Int) < s.current_blocks ∧ indexAt s.blocks a = some c) := by
  by_cases hl : Live s c
  · obtain ⟨a, ha, hc⟩ := hl
    rw [inv.lookup_live ha hc] at h
    injection h with h
    exact Or.inr ⟨a, h.symm, ha, hc⟩
  · obtain ⟨hh, hhh⟩ := GetBlockId_ok_hash h
    rw [inv.lookup_dead hhh hl] at h
    injection h with h
    exact Or.inl ⟨h.symm, hl⟩

theorem StoreInv.not_live_of_miss {s : SparseTSDF} (inv : StoreInv s) {c : ivec3}
    (h : GetBlockId s c = .ok (-1)) : ¬ Live s c := by
  rcases inv.lookup_ok h with ⟨_, hl⟩ | ⟨a, ha, _⟩
  · exact hl
  · omega

theorem GetBlockAt_of_GetBlockId {s : SparseTSDF} {c : ivec3} {h id : Int}
    (hh : H s.hash_size c = .ok h) (hid : GetBlockId s c = .ok id) :
    GetBlockAt s c h = .ok (if 0 ≤ id then some id else none) := by
  unfold GetBlockId at hid
  simp only [hh] at hid
  unfold GetBlockAt
  simp only [hid]
  split <;> rfl

theorem InsertBlock_absent_eq {s : SparseTSDF} {c : ivec3} {n hn : Nat} {head : Int} {b : VoxelBlock}
    {bs : List VoxelBlock}
    (habs : GetBlockId s c = .ok (-1)) (hcur : s.current_blocks = (n : Int))
    (hh : H s.hash_size c = .ok (hn : Int)) (hhead : s.first_hashed_block[hn]? = some head)
    (hbs : bs = if n < s.blocks.length then s.blocks else resize s.blocks (s.blocks.length * 2))
    (hb : bs[n]? = some b) :
    InsertBlock s c = (.ok s.current_blocks,
      { s with
        current_blocks := s.current_blocks + 1
        blocks := bs.set n { b with index := c, next_index := head }
        first_hashed_block := s.first_hashed_block.set hn (n : Int) }) := by
  have hgb := GetBlockAt_of_GetBlockId hh habs
  simp only [show ¬ ((0 : Int) ≤ -1) by omega, if_false] at hgb
  unfold InsertBlock
  simp only [hh, hgb, hcur]
  by_cases hlt : n < s.blocks.length
  · have hc1 : ¬ ((n : Int) < 0 ∨ (s.blocks.length : Int) ≤ (n : Int)) := by omega
    simp only [hlt, if_true] at hbs
    subst hbs
    simp only [hc1, if_false, hh, vecGet_natCast _ _ _ hb, vecGet_natCast _ _ _ hhead, vecSet_natCast,
      List.set_set]
  · have hc1 : ((n : Int) < 0 ∨ (s.blocks.length : Int) ≤ (n : Int)) := by omega
    simp only [hlt, if_false] at hbs
    subst hbs
    simp only [hc1, if_true, hh, vecGet_natCast _ _ _ hb, vecGet_natCast _ _ _ hhead, vecSet_natCast,
      List.set_set]

theorem InsertBlock_absent {s : SparseTSDF} {c : ivec3} (inv : StoreInv s)
    (habs : GetBlockId s c = .ok (-1)) (hcap : 1 ≤ s.blocks.length) :
    ∃ (n hn : Nat) (head : Int) (b : VoxelBlock) (bs : List VoxelBlock) (s' : SparseTSDF),
      s.current_blocks = (n : Int) ∧ H s.hash_size c = .ok (hn : Int) ∧
      s.first_hashed_block[hn]? = some head ∧
      bs = (if n < s.blocks.length then s.blocks else resize s.blocks (s.blocks.length * 2)) ∧
      bs[n]? = some b ∧
      s' = { s with
        current_blocks := s.current_blocks + 1
        blocks := bs.set n { b with index := c, next_index := head }
        first_hashed_block := s.first_hashed_block.set hn (n : Int) } ∧
      InsertBlock s c = (.ok s.current_blocks, s') ∧ StoreInv s' := by
  obtain ⟨h, hh⟩ := GetBlockId_ok_hash habs
  obtain ⟨hn, head, l, rfl, hget0, hget, -⟩ := inv.index.bucket hh
  obtain ⟨n, hcur⟩ := Int.eq_ofNat_of_zero_le inv.size_nonneg
  have hnle : n ≤ s.blocks.length := by
    have := inv.size_le
    omega
  obtain ⟨bs, hbs⟩ : ∃ bs, bs = (if n < s.blocks.length then s.blocks
      else resize s.blocks (s.blocks.length * 2)) := ⟨_, rfl⟩
  have hlen : n < bs.length := by
    rw [hbs]
    split
    · assumption
    · rw [resize_length]; omega
  have hold : ∀ x, x < n → bs[x]? = s.blocks[x]? := by
    intro x hx
    rw [hbs]
    split
    · rfl
    · exact resize_getElem?_of_lt _ _ _ (by omega) (by omega)
  have hb : bs[n]? = some bs[n] := List.getElem?_eq_getElem hlen
  refine ⟨n, hn, head, bs[n], bs, _, hcur, hh, hget0, hbs, hb, rfl,
    InsertBlock_absent_eq habs hcur hh hget0 hbs hb, ?_⟩
  refine ⟨?_, ?_, ?_⟩
  · show 0 ≤ s.current_blocks + 1
    have := inv.size_nonneg
    omega
  · show s.current_blocks + 1 ≤ ((bs.set n _).length : Int)
    rw [List.length_set]
    omega
  · have hfresh : ∀ x : Nat, (x : Int) < s.current_blocks → indexAt s.blocks x ≠ some c :=
      fun x hx hxc => inv.not_live_of_miss habs ⟨x, hx, hxc⟩
    have hlink : ChainInv { s with
        current_blocks := s.current_blocks + 1
        blocks := bs.set n { bs[n] with index := c, next_index := head }
        first_hashed_block := s.first_hashed_block.set hn (n : Int) }
        (fun x => (x : Int) < s.current_blocks ∨ x = n) := inv.index.link
      (by show ¬ ((n : Int) < s.current_blocks); omega) hh hget0 hfresh rfl rfl
      (indexAt_set_self _ _ _ hlen) (nextAt_set_self _ _ _ hlen)
      (by
        intro x hx
        have hxn : x < n := by omega
        have hne : n ≠ x := by omega
        show indexAt (bs.set n _) x = _ ∧ nextAt (bs.set n _) x = _
        rw [indexAt_set_ne _ _ _ _ hne, nextAt_set_ne _ _ _ _ hne]
        simp only [indexAt, nextAt, hold x hxn, and_self])
    refine hlink.iff ?_
    intro x
    show ((x : Int) < s.current_blocks ∨ x = n) ↔ (x : Int) < s.current_blocks + 1
    omega

theorem EraseBlock_last_eq {s s1 : SparseTSDF} {c : ivec3} {id h : Int}
    (hid : GetBlockId s c = .ok id) (h0 : 0 ≤ id) (hh : H s.hash_size c = .ok h)
    (he : EraseBlockWithHole s c h = (.ok true, s1)) (hlast : id = s1.current_blocks - 1) :
    EraseBlock s c = (.ok true, { s1 with current_blocks := s1.current_blocks - 1 }) := by
  unfold EraseBlock
  simp only [hid, hh, he]
  subst hlast
  simp only [h0, not_true, if_false, Bool.true_eq_false, if_true]

theorem EraseBlock_middle_eq {s s1 s2 : SparseTSDF} {c : ivec3} {h head : Int} {a m hm : Nat}
    {last_b b : VoxelBlock}
    (hid : GetBlockId s c = .ok (a : Int)) (hh : H s.hash_size c = .ok h)
    (he : EraseBlockWithHole s c h = (.ok true, s1)) (hlast : (a : Int) ≠ s1.current_blocks - 1)
    (ha : (a : Int) < s1.current_blocks)
    (hm1 : s1.current_blocks - 1 = (m : Int)) (hlb : s1.blocks[m]? = some last_b)
    (hne : last_b.index ≠ c) (hhl : H s1.hash_size last_b.index = .ok (hm : Int))
    (hidl : GetBlockId s1 last_b.index = .ok (m : Int))
    (he2 : EraseBlockWithHole s1 last_b.index (hm : Int) = (.ok true, s2))
    (hb : s2.blocks[a]? = some b) (hhead : s2.first_hashed_block[hm]? = some head) :
    EraseBlock s c = (.ok true,
      { s2 with
        current_blocks := s2.current_blocks - 1
        blocks := s2.blocks.set a { last_b with next_index := head }
        first_hashed_block := s2.first_hashed_block.set hm (a : Int) }) := by
  have h2 : 2 ≤ s1.current_blocks := by omega
  unfold EraseBlock
  simp only [hid, hh, he, hm1]
  simp only [show (0 : Int) ≤ (a : Int) by omega, not_true, if_false, Bool.true_eq_false]
  rw [hm1] at hlast
  simp only [hlast, if_false, h2, not_true, vecGet_natCast _ _ _ hlb, hne, hhl, hidl, ne_eq, he2,
    vecGet_natCast _ _ _ hb, vecSet_natCast, vecGet_natCast _ _ _ hhead, List.set_set]

theorem EraseBlock_live {s : SparseTSDF} {c : ivec3} {a : Nat} (inv : StoreInv s)
    (ha : (a : Int) < s.current_blocks) (hca : indexAt s.blocks a = some c) :
    ∃ s', EraseBlock s c = (.ok true, s') ∧ ErasePost s a s' := by
  have hid := inv.lookup_live ha hca
  obtain ⟨h, hh⟩ := GetBlockId_ok_hash hid
  obtain ⟨s1, he1, inv1, sc1⟩ := EraseBlockWithHole_spec inv.index ha hca hh
  have hsz := inv.size_le
  by_cases hlast : (a : Int) = s.current_blocks - 1
  · refine ⟨_, EraseBlock_last_eq hid (by omega) hh he1 (by rw [sc1.current_blocks]; exact hlast), ?_⟩
    refine ⟨⟨?_, ?_, ?_⟩, ?_, sc1.hash_size, sc1.voxel_size, sc1.voxel_size_inv, sc1.length, ?_, ?_⟩
    · show 0 ≤ s1.current_blocks - 1
      rw [sc1.current_blocks]; omega
    · show s1.current_blocks - 1 ≤ (s1.blocks.length : Int)
      rw [sc1.current_blocks, sc1.length]; omega
    · have hc : ChainInv { s1 with current_blocks := s1.current_blocks - 1 }
          (fun x => (x : Int) < s.current_blocks ∧ x ≠ a) :=
        inv1.congr rfl rfl (fun _ _ => ⟨rfl, rfl⟩)
      refine hc.iff ?_
      intro x
      show ((x : Int) < s.current_blocks ∧ x ≠ a) ↔ (x : Int) < s1.current_blocks - 1
      rw [sc1.current_blocks]
      omega
    · show s1.current_blocks - 1 = s.current_blocks - 1
      rw [sc1.current_blocks]
    · intro _ x
      exact ⟨sc1.index x, sc1.data x⟩
    · intro hne
      exact (hne hlast).elim
  · obtain ⟨m, hm⟩ : ∃ m : Nat, s.current_blocks - 1 = (m : Int) :=
      Int.eq_ofNat_of_zero_le (by omega)
    have hmP : (m : Int) < s.current_blocks ∧ m ≠ a := by omega
    obtain ⟨cm, hlm, hcm, hhm⟩ := inv1.stored m hmP
    obtain ⟨last_b, hlb, hlbi⟩ := (indexAt_eq_some _ _ _).1 hcm
    subst hlbi
    have hcm0 : indexAt s.blocks m = some last_b.index := by rw [← sc1.index m]; exact hcm
    have hne : last_b.index ≠ c := by
      intro hc
      rw [hc] at hcm0
      exact hmP.2 (inv.index.distinct m a c hmP.1 ha hcm0 hca)
    have hidl := inv1.lookup_hit hmP hcm
    obtain ⟨s2, he2, inv2, sc2⟩ := EraseBlockWithHole_spec inv1 hmP hcm hhm
    have hhm2 : H s2.hash_size last_b.index = .ok hlm := by rw [sc2.hash_size]; exact hhm
    obtain ⟨hmn, head, l, rfl, hhead, -, -⟩ := inv2.bucket hhm2
    have halt : a < s2.blocks.length := by
      rw [sc2.length, sc1.length]; omega
    have hb : s2.blocks[a]? = some s2.blocks[a] := List.getElem?_eq_getElem halt
    have heq := EraseBlock_middle_eq hid hh he1 (by rw [sc1.current_blocks]; exact hlast)
      (by rw [sc1.current_blocks]; exact ha) (by rw [sc1.current_blocks]; exact hm) hlb hne hhm hidl
      he2 hb hhead
    refine ⟨_, heq, ?_⟩
    have hfresh : ∀ x : Nat, (((x : Int) < s.current_blocks ∧ x ≠ a) ∧ x ≠ m) →
        indexAt s2.blocks x ≠ some last_b.index := by
      rintro x ⟨⟨hx1, _⟩, hx2⟩ hxc
      rw [sc2.index x, sc1.index x] at hxc
      exact hx2 (inv.index.distinct x m _ hx1 hmP.1 hxc hcm0)
    have hlink : ChainInv { s2 with
        current_blocks := s2.current_blocks - 1
        blocks := s2.blocks.set a { last_b with next_index := head }
        first_hashed_block := s2.first_hashed_block.set hmn (a : Int) }
        (fun x => (((x : Int) < s.current_blocks ∧ x ≠ a) ∧ x ≠ m) ∨ x = a) := inv2.link
      (by simp) hhm2 hhead hfresh rfl rfl
      (indexAt_set_self _ _ _ halt) (nextAt_set_self _ _ _ halt)
      (by
        rintro x ⟨⟨_, hxa⟩, _⟩
        exact ⟨indexAt_set_ne _ _ _ _ (Ne.symm hxa), nextAt_set_ne _ _ _ _ (Ne.symm hxa)⟩)
    have hcur : s2.current_blocks = s.current_blocks := sc2.current_blocks.trans sc1.current_blocks
    refine ⟨⟨?_, ?_, ?_⟩, ?_, sc2.hash_size.trans sc1.hash_size, sc2.voxel_size.trans sc1.voxel_size,
      sc2.voxel_size_inv.trans sc1.voxel_size_inv, ?_, ?_, ?_⟩
    · show 0 ≤ s2.current_blocks - 1
      omega
    · show s2.current_blocks - 1 ≤ ((s2.blocks.set a _).length : Int)
      rw [List.length_set, sc2.length, sc1.length]; omega
    · refine hlink.iff ?_
      intro x
      show ((((x : Int) < s.current_blocks ∧ x ≠ a) ∧ x ≠ m) ∨ x = a) ↔ (x : Int) < s2.current_blocks - 1
      omega
    · show s2.current_blocks - 1 = s.current_blocks - 1
      omega
    · show (s2.blocks.set a _).length = s.blocks.length
      rw [List.length_set, sc2.length, sc1.length]
    · intro hc
      exact (hlast hc).elim
    · intro _
      refine ⟨m, hmn, last_b.index, hm.symm, hcm0, by rw [← sc1.hash_size]; exact hhm, ?_, ?_, ?_, ?_⟩
      · show (s2.first_hashed_block.set hmn (a : Int))[hmn]? = some (a : Int)
        exact List.getElem?_set_self (List.getElem?_eq_some.1 hhead).1
      · exact indexAt_set_self _ _ _ halt
      · show dataAt (s2.blocks.set a _) a = _
        rw [dataAt_set_self _ _ _ halt]
        simp only [dataAt, ← sc1.index]
        have h1 := sc1.data m
        simp only [dataAt, hlb] at h1
        simpa using h1
      · intro x hxa
        show indexAt (s2.blocks.set a _) x = _ ∧ dataAt (s2.blocks.set a _) x = _
        rw [indexAt_set_ne _ _ _ _ (Ne.symm hxa), dataAt_set_ne _ _ _ _ (Ne.symm hxa)]
        exact ⟨(sc2.index x).trans (sc1.index x), (sc2.data x).trans (sc1.data x)⟩

/-! ## Every operation preserves the store invariants -/

theorem StoreInv.init (voxel_size : Rat) (reserve_blocks hash_size : Nat) :
    StoreInv (SparseTSDF.init voxel_size reserve_blocks hash_size) where
  size_nonneg := le_refl _
  size_le := by simp [SparseTSDF.init]
  index :=
    { heads := by simp [SparseTSDF.init]
      stored := by
        intro a ha
        simp only [SparseTSDF.init] at ha
        omega
      distinct := by
        intro a a' c ha
        simp only [SparseTSDF.init] at ha
        omega
      chains := by
        intro h head hh
        simp only [SparseTSDF.init, List.getElem?_replicate] at hh
        split at hh
        · cases hh
          refine ⟨[], rfl, List.nodup_nil, ?_⟩
          intro a
          simp only [SparseTSDF.init, List.not_mem_nil, false_iff, not_and]
          intro ha
          omega
        · cases hh }

theorem StoreInv.clear {s : SparseTSDF} (inv : StoreInv s) : StoreInv (Clear s) where
  size_nonneg := le_refl _
  size_le := by simp [Clear]
  index :=
    { heads := by simp [Clear, inv.index.heads]
      stored := by
        intro a ha
        simp only [Clear] at ha
        omega
      distinct := by
        intro a a' c ha
        simp only [Clear] at ha
        omega
      chains := by
        intro h head hh
        simp only [Clear, List.getElem?_map, Option.map_eq_some'] at hh
        obtain ⟨_, _, rfl⟩ := hh
        refine ⟨[], rfl, List.nodup_nil, ?_⟩
        intro a
        simp only [Clear, List.not_mem_nil, false_iff, not_and]
        intro ha
        omega }

theorem StoreInv.compact {s s' : SparseTSDF} (inv : StoreInv s) (h : Compact s = (.ok (), s')) :
    StoreInv s' := by
  unfold Compact at h
  have h0 := inv.size_nonneg
  have h1 := inv.size_le
  simp only [show ¬ s.current_blocks < 0 by omega, if_false, Prod.mk.injEq, true_and] at h
  subst h
  refine ⟨h0, ?_, ?_⟩
  · show s.current_blocks ≤ ((resize s.blocks s.current_blocks.toNat).length : Int)
    rw [resize_length]
    omega
  · refine inv.index.congr rfl rfl ?_
    intro x hx
    have hx1 : x < s.blocks.length := by omega
    have hx2 : x < s.current_blocks.toNat := by omega
    show indexAt (resize _ _) x = _ ∧ nextAt (resize _ _) x = _
    simp only [indexAt, nextAt, resize_getElem?_of_lt _ _ _ hx1 hx2, and_self]

theorem InsertBlock_present {s : SparseTSDF} {c : ivec3} {id : Int}
    (hid : GetBlockId s c = .ok id) (h0 : 0 ≤ id) : InsertBlock s c = (.ok id, s) := by
  obtain ⟨h, hh⟩ := GetBlockId_ok_hash hid
  have hgb := GetBlockAt_of_GetBlockId hh hid
  simp only [h0, if_true] at hgb
  unfold InsertBlock
  simp only [hh, hgb]

theorem InsertBlock_no_capacity {s : SparseTSDF} {c : ivec3}
    (habs : GetBlockId s c = .ok (-1)) (hcur : s.current_blocks = 0) (hcap : s.blocks = []) :
    InsertBlock s c = (.error .out_of_range, { s with current_blocks := 1 }) := by
  obtain ⟨h, hh⟩ := GetBlockId_ok_hash habs
  have hgb := GetBlockAt_of_GetBlockId hh habs
  simp only [show ¬ ((0 : Int) ≤ -1) by omega, if_false] at hgb
  unfold InsertBlock
  simp [hh, hgb, hcur, hcap, resize, vecGet]

theorem StoreInv.insert {s s' : SparseTSDF} {c : ivec3} {r : Int} (inv : StoreInv s)
    (h : InsertBlock s c = (.ok r, s')) : StoreInv s' := by
  cases hid : GetBlockId s c with
  | error e =>
    exfalso
    unfold GetBlockId at hid
    unfold InsertBlock at h
    cases hh : H s.hash_size c with
    | error e2 => simp [hh] at h
    | ok hv =>
      simp only [hh] at hid h
      unfold GetBlockAt at h
      simp [hid] at h
  | ok id =>
    rcases inv.lookup_ok hid with ⟨rfl, _⟩ | ⟨a, rfl, _, _⟩
    · by_cases hcap : 1 ≤ s.blocks.length
      · obtain ⟨n, hn, head, b, bs, s2, _, _, _, _, _, _, heq, inv2⟩ := InsertBlock_absent inv hid hcap
        rw [heq] at h
        cases h
        exact inv2
      · exfalso
        have hnil : s.blocks = [] := List.length_eq_zero.1 (by omega)
        have hcur : s.current_blocks = 0 := by
          have h0 := inv.size_nonneg
          have h1 := inv.size_le
          rw [hnil] at h1
          simp at h1
          omega
        rw [InsertBlock_no_capacity hid hcur hnil] at h
        cases h
    · rw [InsertBlock_present hid (by omega)] at h
      cases h
      exact inv

theorem StoreInv.erase {s s' : SparseTSDF} {c : ivec3} {id : Int} {r : Bool} (inv : StoreInv s)
    (hid : GetBlockId s c = .ok id) (h0 : 0 ≤ id) (h : EraseBlock s c = (.ok r, s')) : StoreInv s' := by
  rcases inv.lookup_ok hid with ⟨rfl, _⟩ | ⟨a, rfl, ha, hca⟩
  · omega
  · obtain ⟨s2, heq, post⟩ := EraseBlock_live inv ha hca
    rw [heq] at h
    cases h
    exact post.inv

theorem InsertBlock_absent_live {s : SparseTSDF} {c : ivec3} (inv : StoreInv s)
    (habs : GetBlockId s c = .ok (-1)) (hcap : 1 ≤ s.blocks.length) :
    ∃ s', InsertBlock s c = (.ok s.current_blocks, s') ∧ StoreInv s' ∧
      s'.current_blocks = s.current_blocks + 1 ∧ s'.hash_size = s.hash_size ∧
      s.blocks.length ≤ s'.blocks.length ∧ ∀ c', Live s' c' ↔ (c' = c ∨ Live s c') := by
  obtain ⟨n, hn, head, b, bs, s', hcur, hh, hhead, hbs, hb, rfl, heq, inv'⟩ :=
    InsertBlock_absent inv habs hcap
  have hnle : n ≤ s.blocks.length := by
    have := inv.size_le
    omega
  have hlen : n < bs.length := (List.getElem?_eq_some.1 hb).1
  have hold : ∀ x, x < n → bs[x]? = s.blocks[x]? := by
    intro x hx
    rw [hbs]
    split
    · rfl
    · exact resize_getElem?_of_lt _ _ _ (by omega) (by omega)
  refine ⟨_, heq, inv', rfl, rfl, ?_, ?_⟩
  · show s.blocks.length ≤ (bs.set n _).length
    rw [List.length_set, hbs]
    split
    · exact le_refl _
    · rw [resize_length]; omega
  · intro c'
    constructor
    · rintro ⟨x, hx, hxc⟩
      have hx' : (x : Int) < s.current_blocks + 1 := hx
      have hxc' : indexAt (bs.set n { b with index := c, next_index := head }) x = some c' := hxc
      by_cases hxn : x = n
      · subst hxn
        rw [indexAt_set_self _ _ _ hlen] at hxc'
        exact Or.inl (Option.some.inj hxc').symm
      · rw [indexAt_set_ne _ _ _ _ (Ne.symm hxn)] at hxc'
        refine Or.inr ⟨x, by omega, ?_⟩
        simp only [indexAt, ← hold x (by omega)]
        exact hxc'
    · rintro (rfl | ⟨x, hx, hxc⟩)
      · exact ⟨n, by show (n : Int) < s.current_blocks + 1; omega, indexAt_set_self _ _ _ hlen⟩
      · refine ⟨x, by show (x : Int) < s.current_blocks + 1; omega, ?_⟩
        show indexAt (bs.set n _) x = some c'
        rw [indexAt_set_ne _ _ _ _ (by omega)]
        simp only [indexAt, hold x (by omega)]
        exact hxc

theorem ErasePost.live_iff {s s' : SparseTSDF} {a : Nat} {c : ivec3} (inv : StoreInv s)
    (ha : (a : Int) < s.current_blocks) (hca : indexAt s.blocks a = some c)
    (post : ErasePost s a s') (c' : ivec3) : Live s' c' ↔ (c' ≠ c ∧ Live s c') := by
  have hcur := post.current_blocks
  by_cases hlast : (a : Int) = s.current_blocks - 1
  · have hsame := post.last hlast
    constructor
    · rintro ⟨x, hx, hxc⟩
      rw [(hsame x).1] at hxc
      refine ⟨?_, x, by omega, hxc⟩
      rintro rfl
      have := inv.index.distinct x a c' (by show (x : Int) < s.current_blocks; omega) ha hxc hca
      omega
    · rintro ⟨hne, x, hx, hxc⟩
      have hxa : x ≠ a := by
        rintro rfl
        rw [hca] at hxc
        exact hne (Option.some.inj hxc).symm
      exact ⟨x, by omega, by rw [(hsame x).1]; exact hxc⟩
  · obtain ⟨m, hm, cm, hm1, hcm, _, _, hia, _, hsame⟩ := post.middle hlast
    have hmlt : (m : Int) < s.current_blocks := by omega
    have hma : m ≠ a := by omega
    constructor
    · rintro ⟨x, hx, hxc⟩
      by_cases hxa : x = a
      · subst hxa
        rw [hia] at hxc
        have hcc : cm = c' := Option.some.inj hxc
        rw [← hcc]
        refine ⟨?_, m, hmlt, hcm⟩
        intro hc
        rw [hc] at hcm
        exact hma (inv.index.distinct m x c hmlt ha hcm hca)
      · rw [(hsame x hxa).1] at hxc
        refine ⟨?_, x, by omega, hxc⟩
        rintro rfl
        exact hxa (inv.index.distinct x a c' (by show (x : Int) < s.current_blocks; omega) ha hxc hca)
    · rintro ⟨hne, x, hx, hxc⟩
      have hxa : x ≠ a := by
        rintro rfl
        rw [hca] at hxc
        exact hne (Option.some.inj hxc).symm
      by_cases hxm : x = m
      · subst hxm
        rw [hcm] at hxc
        have hcc : cm = c' := Option.some.inj hxc
        rw [← hcc]
        exact ⟨a, by omega, hia⟩
      · exact ⟨x, by omega, by rw [(hsame x hxa).1]; exact hxc⟩

theorem exampleOne_inv : StoreInv exampleOne :=
  StoreInv.insert (StoreInv.init _ _ _) (show InsertBlock exampleEmpty ⟨0, 0, 0⟩ = (.ok 0, exampleOne) from rfl)

theorem exampleTwo_inv : StoreInv exampleTwo :=
  StoreInv.insert exampleOne_inv (show InsertBlock exampleOne ⟨1, 0, 0⟩ = (.ok 1, exampleTwo) from rfl)

theorem StoreInv.no_chain_of_not_live {s : SparseTSDF} (inv : StoreInv s) {c : ivec3} (hc : ¬ Live s c)
    (h : Nat) (head : Int) (l : List Nat) (hh : s.first_hashed_block[h]? = some head)
    (hl : IsChain s.blocks head l) : ∀ x ∈ l, indexAt s.blocks x ≠ some c := by
  obtain ⟨l', hl1, _, hl3⟩ := inv.index.chains h head hh
  have := IsChain.unique hl hl1
  subst this
  intro x hx hxc
  exact hc ⟨x, ((hl3 x).1 hx).1, hxc⟩

theorem Reachable.inv {s : SparseTSDF} (h : Reachable s) : StoreInv s := by
  induction h with
  | init v r hs => exact StoreInv.init v r hs
  | insert c r _ hi ih => exact ih.insert hi
  | erase c id r _ hid h0 he ih => exact ih.erase hid h0 he
  | clear _ ih => exact ih.clear
  | compact _ hc ih => exact ih.compact hc

theorem EraseBlock_absent {s : SparseTSDF} {c : ivec3} (h : GetBlockId s c = .ok (-1)) :
    EraseBlock s c = (.error .assertion, s) := by
  unfold EraseBlock
  simp [h]

/-! ## Call sequences -/

theorem InsertedNotErased.snoc_insert (ops : List Op) (c c' : ivec3) :
    InsertedNotErased (ops ++ [Op.insert c]) c' ↔ (c' = c ∨ InsertedNotErased ops c') := by
  constructor
  · rintro ⟨pre, post, h, hne⟩
    rcases List.eq_nil_or_concat post with rfl | ⟨post', x, hp⟩
    · have h' : ops ++ [Op.insert c] = pre ++ [Op.insert c'] := h
      have := (List.append_inj' h' rfl).2
      simp only [List.cons.injEq, Op.insert.injEq, and_true] at this
      exact Or.inl this.symm
    · rw [List.concat_eq_append] at hp
      subst hp
      have h' : ops ++ [Op.insert c] = (pre ++ Op.insert c' :: post') ++ [x] := by simpa using h
      have h1 := (List.append_inj' h' rfl).1
      refine Or.inr ⟨pre, post', h1, ?_⟩
      intro hm
      exact hne (List.mem_append.2 (Or.inl hm))
  · rintro (rfl | ⟨pre, post, h, hne⟩)
    · exact ⟨ops, [], rfl, by simp⟩
    · refine ⟨pre, post ++ [Op.insert c], by simp [h], ?_⟩
      simp only [List.mem_append, List.mem_singleton, not_or]
      exact ⟨hne, by simp⟩

theorem InsertedNotErased.snoc_erase (ops : List Op) (c c' : ivec3) :
    InsertedNotErased (ops ++ [Op.erase c]) c' ↔ (c' ≠ c ∧ InsertedNotErased ops c') := by
  constructor
  · rintro ⟨pre, post, h, hne⟩
    rcases List.eq_nil_or_concat post with rfl | ⟨post', x, hp⟩
    · have h' : ops ++ [Op.erase c] = pre ++ [Op.insert c'] := h
      have := (List.append_inj' h' rfl).2
      simp at this
    · rw [List.concat_eq_append] at hp
      subst hp
      have h' : ops ++ [Op.erase c] = (pre ++ Op.insert c' :: post') ++ [x] := by simpa using h
      obtain ⟨h1, h2⟩ := List.append_inj' h' rfl
      simp only [List.cons.injEq, and_true] at h2
      subst h2
      simp only [List.mem_append, List.mem_singleton, Op.erase.injEq, not_or] at hne
      exact ⟨hne.2, pre, post', h1, hne.1⟩
  · rintro ⟨hcc, pre, post, h, hne⟩
    refine ⟨pre, post ++ [Op.erase c], by simp [h], ?_⟩
    simp only [List.mem_append, List.mem_singleton, Op.erase.injEq, not_or]
    exact ⟨hne, hcc⟩

theorem InsertedNotErased.not_nil (c : ivec3) : ¬ InsertedNotErased [] c := by
  rintro ⟨pre, post, h, _⟩
  simp at h

theorem liveCoords_snoc (ops : List Op) (op : Op) :
    liveCoords (ops ++ [op]) = liveStep (liveCoords ops) op := by
  simp [liveCoords, List.foldl_append]

theorem liveCoords_spec (ops : List Op) :
    (liveCoords ops).Nodup ∧ ∀ c, c ∈ liveCoords ops ↔ InsertedNotErased ops c := by
  induction ops using List.reverseRecOn with
  | nil =>
    refine ⟨List.nodup_nil, ?_⟩
    intro c
    simp [liveCoords, InsertedNotErased.not_nil]
  | append_singleton ops op ih =>
    obtain ⟨hnd, hmem⟩ := ih
    rw [liveCoords_snoc]
    cases op with
    | insert c =>
      by_cases hc : c ∈ liveCoords ops
      · simp only [liveStep, hc, if_true]
        refine ⟨hnd, ?_⟩
        intro c'
        rw [InsertedNotErased.snoc_insert, ← hmem c']
        constructor
        · exact Or.inr
        · rintro (rfl | h)
          · exact hc
          · exact h
      · simp only [liveStep, hc, if_false]
        refine ⟨List.nodup_cons.2 ⟨hc, hnd⟩, ?_⟩
        intro c'
        rw [InsertedNotErased.snoc_insert, ← hmem c', List.mem_cons]
    | erase c =>
      constructor
      · exact hnd.erase c
      · intro c'
        rw [InsertedNotErased.snoc_erase, ← hmem c']
        exact hnd.mem_erase_iff

theorem ErasesTargetLive.of_nil : ErasesTargetLive [] := by
  intro pre c post h
  simp at h

theorem ErasesTargetLive.snoc_iff (ops : List Op) (op : Op) :
    ErasesTargetLive (ops ++ [op]) ↔
      (ErasesTargetLive ops ∧ ∀ c, op = Op.erase c → InsertedNotErased ops c) := by
  constructor
  · intro h
    constructor
    · intro pre c post hp
      exact h pre c (post ++ [op]) (by simp [hp])
    · rintro c rfl
      exact h ops c [] rfl
  · rintro ⟨h1, h2⟩ pre c post hp
    rcases List.eq_nil_or_concat post with rfl | ⟨post', x, hpp⟩
    · have h' : ops ++ [op] = pre ++ [Op.erase c] := hp
      obtain ⟨h3, h4⟩ := List.append_inj' h' rfl
      simp only [List.cons.injEq, and_true] at h4
      subst h3
      exact h2 c h4
    · rw [List.concat_eq_append] at hpp
      subst hpp
      have h' : ops ++ [op] = (pre ++ Op.erase c :: post') ++ [x] := by simpa using hp
      exact h1 pre c post' (List.append_inj' h' rfl).1

theorem run_snoc (s : SparseTSDF) (ops : List Op) (op : Op) :
    run s (ops ++ [op]) = match run s ops with
      | .ok s1 => applyOp s1 op
      | .error e => .error e := by
  induction ops generalizing s with
  | nil =>
    simp only [List.nil_append, run]
    cases applyOp s op <;> rfl
  | cons o ops ih =>
    simp only [List.cons_append, run]
    cases applyOp s o with
    | error e => rfl
    | ok s1 => exact ih s1

theorem freshInserts_snoc (s s1 : SparseTSDF) (ops : List Op) (op : Op) (h : run s ops = .ok s1) :
    freshInserts s (ops ++ [op]) = freshInserts s ops + freshInserts s1 [op] := by
  induction ops generalizing s with
  | nil =>
    simp only [run] at h
    cases h
    simp [freshInserts]
  | cons o ops ih =>
    simp only [run] at h
    cases o with
    | insert c =>
      simp only [applyOp] at h
      rcases hi : InsertBlock s c with ⟨r, s2⟩
      rw [hi] at h
      cases r with
      | error e => simp at h
      | ok v =>
        simp only at h
        have h2 := ih s2 h
        show (match GetBlock s c with
          | .ok none => 1
          | _ => 0) + freshInserts (InsertBlock s c).2 (ops ++ [op]) =
          (match GetBlock s c with
          | .ok none => 1
          | _ => 0) + freshInserts (InsertBlock s c).2 ops + freshInserts s1 [op]
        rw [hi]
        show _ + freshInserts s2 (ops ++ [op]) = _ + freshInserts s2 ops + _
        rw [h2]
        omega
    | erase c =>
      simp only [applyOp] at h
      rcases hi : EraseBlock s c with ⟨r, s2⟩
      rw [hi] at h
      cases r with
      | error e => simp at h
      | ok v =>
        simp only at h
        show freshInserts (EraseBlock s c).2 (ops ++ [op]) =
          freshInserts (EraseBlock s c).2 ops + freshInserts s1 [op]
        rw [hi]
        exact ih s2 h

theorem eraseCalls_snoc (ops : List Op) (op : Op) :
    eraseCalls (ops ++ [op]) = eraseCalls ops + eraseCalls [op] := by
  induction ops with
  | nil => simp [eraseCalls]
  | cons o ops ih =>
    cases o with
    | insert c => simpa [eraseCalls] using ih
    | erase c =>
      show eraseCalls (ops ++ [op]) + 1 = eraseCalls ops + 1 + eraseCalls [op]
      rw [ih]
      omega

theorem GetBlock_of_GetBlockId {s : SparseTSDF} {c : ivec3} {id : Int} (hid : GetBlockId s c = .ok id) :
    GetBlock s c = .ok (if 0 ≤ id then some id else none) := by
  obtain ⟨h, hh⟩ := GetBlockId_ok_hash hid
  unfold GetBlock
  simp only [hh]
  exact GetBlockAt_of_GetBlockId hh hid

theorem run_fresh_spec (voxel_size : Rat) (reserve_blocks hash_size : Nat) (hcap : 1 ≤ reserve_blocks)
    (h1 : 1 ≤ hash_size) (h2 : hash_size < 2147483648) (ops : List Op) (hvalid : ErasesTargetLive ops) :
    ∃ s, run (SparseTSDF.init voxel_size reserve_blocks hash_size) ops = .ok s ∧ StoreInv s ∧
      1 ≤ s.blocks.length ∧ s.hash_size = hash_size ∧
      (∀ c, Live s c ↔ InsertedNotErased ops c) ∧
      s.current_blocks = ((liveCoords ops).length : Int) ∧
      s.current_blocks = (freshInserts (SparseTSDF.init voxel_size reserve_blocks hash_size) ops : Int)
        - (eraseCalls ops : Int) := by
  induction ops using List.reverseRecOn with
  | nil =>
    refine ⟨_, rfl, StoreInv.init _ _ _, by simpa [SparseTSDF.init] using hcap, rfl, ?_, rfl, rfl⟩
    intro c
    constructor
    · rintro ⟨a, ha, _⟩
      simp only [SparseTSDF.init] at ha
      omega
    · intro h
      exact (InsertedNotErased.not_nil c h).elim
  | append_singleton ops op ih =>
    obtain ⟨hv1, hv2⟩ := (ErasesTargetLive.snoc_iff ops op).1 hvalid
    obtain ⟨s, hrun, inv, hlen, hhs, hlive, hcur, hcount⟩ := ih hv1
    obtain ⟨hnd, hmem⟩ := liveCoords_spec ops
    rw [run_snoc, hrun, liveCoords_snoc, freshInserts_snoc _ _ _ _ hrun, eraseCalls_snoc]
    cases op with
    | insert c =>
      by_cases hl : Live s c
      · obtain ⟨a, ha, hca⟩ := hl
        have hid := inv.lookup_live ha hca
        have hins := InsertBlock_present hid (by omega)
        have hgb := GetBlock_of_GetBlockId hid
        simp only [show (0 : Int) ≤ (a : Int) by omega, if_true] at hgb
        have hc : c ∈ liveCoords ops := (hmem c).2 ((hlive c).1 ⟨a, ha, hca⟩)
        refine ⟨s, by simp [applyOp, hins], inv, hlen, hhs, ?_, ?_, ?_⟩
        · intro c'
          rw [InsertedNotErased.snoc_insert, hlive c']
          constructor
          · exact Or.inr
          · rintro (rfl | h)
            · exact (hlive _).1 ⟨a, ha, hca⟩
            · exact h
        · simp only [liveStep, hc, if_true]
          exact hcur
        · simp only [freshInserts, hgb, eraseCalls]
          simp only [Nat.add_zero, Nat.cast_add, Nat.cast_zero]
          omega
      · have hh := H_ok s.hash_size c (by omega) (by omega)
        have hid := inv.lookup_dead hh hl
        obtain ⟨s1, hins, inv1, hcur1, hhs1, hlen1, hlive1⟩ := InsertBlock_absent_live inv hid hlen
        have hgb := GetBlock_of_GetBlockId hid
        simp only [show ¬ ((0 : Int) ≤ -1) by omega, if_false] at hgb
        have hc : c ∉ liveCoords ops := fun hc => hl ((hlive c).2 ((hmem c).1 hc))
        refine ⟨s1, by simp [applyOp, hins], inv1, by omega, by omega, ?_, ?_, ?_⟩
        · intro c'
          rw [InsertedNotErased.snoc_insert, hlive1 c', hlive c']
        · simp only [liveStep, hc, if_false, List.length_cons]
          rw [hcur1, hcur]
          push_cast
          rfl
        · simp only [freshInserts, hgb, eraseCalls]
          rw [hcur1]
          push_cast
          omega
    | erase c =>
      obtain ⟨a, ha, hca⟩ := (hlive c).2 (hv2 c rfl)
      obtain ⟨s1, hers, post⟩ := EraseBlock_live inv ha hca
      have hc : c ∈ liveCoords ops := (hmem c).2 (hv2 c rfl)
      refine ⟨s1, by simp [applyOp, hers], post.inv, by rw [post.length]; exact hlen,
        by rw [post.hash_size]; exact hhs, ?_, ?_, ?_⟩
      · intro c'
        rw [InsertedNotErased.snoc_erase, post.live_iff inv ha hca c', hlive c']
      · simp only [liveStep]
        rw [List.length_erase_of_mem hc, post.current_blocks, hcur]
        have hpos : 0 < (liveCoords ops).length := List.length_pos_of_mem hc
        omega
      · simp only [freshInserts, eraseCalls]
        rw [post.current_blocks]
        push_cast
        omega

theorem exampleOps_valid : ErasesTargetLive exampleOps := by
  have h0 : ErasesTargetLive ([] ++ [Op.insert ⟨0, 0, 0⟩]) :=
    (ErasesTargetLive.snoc_iff _ _).2 ⟨ErasesTargetLive.of_nil, fun c h => by cases h⟩
  have h1 : ErasesTargetLive ([Op.insert ⟨0, 0, 0⟩] ++ [Op.insert ⟨1, 0, 0⟩]) :=
    (ErasesTargetLive.snoc_iff _ _).2 ⟨h0, fun c h => by cases h⟩
  refine (ErasesTargetLive.snoc_iff [Op.insert ⟨0, 0, 0⟩, Op.insert ⟨1, 0, 0⟩] (Op.erase ⟨0, 0, 0⟩)).2
    ⟨h1, ?_⟩
  intro c h
  cases h
  exact ⟨[], [Op.insert ⟨1, 0, 0⟩], rfl, by decide⟩

/-! ## Voxel addressing and `GetVoxel` -/

theorem iFloorDiv_eight (a : Int) : iFloorDiv a VOXEL_BLOCK_SIZE = a / 8 := by
  unfold iFloorDiv VOXEL_BLOCK_SIZE
  exact Int.fdiv_eq_ediv a (by decide)

theorem iFloorDiv_eight_floor (a : Int) : iFloorDiv a VOXEL_BLOCK_SIZE = ⌊(a : ℚ) / 8⌋ := by
  rw [iFloorDiv_eight]
  have h := Rat.floor_intCast_div_natCast a 8
  simpa using h.symm

theorem GetLocalOffset_ok (v : ivec3) :
    GetLocalOffset (GetBlockIndex v) v = .ok ⟨v.x % 8, v.y % 8, v.z % 8⟩ := by
  unfold GetLocalOffset GetBlockIndex
  simp only [iFloorDiv_eight]
  unfold VOXEL_BLOCK_SIZE
  have hx : wrapInt (v.x - wrapInt (v.x / 8 * 8)) = v.x % 8 := by unfold wrapInt; omega
  have hy : wrapInt (v.y - wrapInt (v.y / 8 * 8)) = v.y % 8 := by unfold wrapInt; omega
  have hz : wrapInt (v.z - wrapInt (v.z / 8 * 8)) = v.z % 8 := by unfold wrapInt; omega
  rw [hx, hy, hz]
  have h1 : (0 ≤ v.x % 8 ∧ 0 ≤ v.y % 8 ∧ 0 ≤ v.z % 8) := by omega
  have h2 : (v.x % 8 < 8 ∧ v.y % 8 < 8 ∧ v.z % 8 < 8) := by omega
  simp only [h1, h2, not_true, if_false, and_self]

theorem arrayIndex_mod (k : Int) : ∃ i : Fin 8, arrayIndex (k % 8) = .ok i ∧ (i : Int) = k % 8 := by
  have h : 0 ≤ k % 8 ∧ k % 8 < 8 := by omega
  refine ⟨⟨(k % 8).toNat, by omega⟩, ?_, ?_⟩
  · unfold arrayIndex
    simp only [h, and_self, dite_true]
  · show (((k % 8).toNat : Nat) : Int) = k % 8
    omega

theorem StoreInv.getBlock_live {s : SparseTSDF} (inv : StoreInv s) {a : Nat} {c : ivec3}
    (ha : (a : Int) < s.current_blocks) (hc : indexAt s.blocks a = some c) :
    GetBlock s c = .ok (some (a : Int)) := by
  have h := GetBlock_of_GetBlockId (inv.lookup_live ha hc)
  simpa using h

theorem StoreInv.getBlock_dead {s : SparseTSDF} (inv : StoreInv s) {c : ivec3}
    (h1 : 1 ≤ s.hash_size) (h2 : s.hash_size < 2147483648) (hc : ¬ Live s c) :
    GetBlock s c = .ok none := by
  have hh := H_ok s.hash_size c h1 (by omega)
  have h := GetBlock_of_GetBlockId (inv.lookup_dead hh hc)
  simpa using h

theorem Fin8_eq_of_val {i j : Fin 8} (h : (i : Int) = (j : Int)) : i = j := by
  apply Fin.ext
  exact_mod_cast h

theorem GetVoxel_live {s : SparseTSDF} (inv : StoreInv s) {a : Nat} {v : ivec3} {blk : VoxelBlock}
    (ha : (a : Int) < s.current_blocks) (hc : indexAt s.blocks a = some (GetBlockIndex v))
    (hb : s.blocks[a]? = some blk) (ox oy oz : Fin 8)
    (hx : (ox : Int) = v.x - 8 * (GetBlockIndex v).x) (hy : (oy : Int) = v.y - 8 * (GetBlockIndex v).y)
    (hz : (oz : Int) = v.z - 8 * (GetBlockIndex v).z) :
    GetVoxel s v = .ok (blk.data oz oy ox) := by
  obtain ⟨ix, hix, hix2⟩ := arrayIndex_mod v.x
  obtain ⟨iy, hiy, hiy2⟩ := arrayIndex_mod v.y
  obtain ⟨iz, hiz, hiz2⟩ := arrayIndex_mod v.z
  have hbx : (GetBlockIndex v).x = v.x / 8 := iFloorDiv_eight v.x
  have hby : (GetBlockIndex v).y = v.y / 8 := iFloorDiv_eight v.y
  have hbz : (GetBlockIndex v).z = v.z / 8 := iFloorDiv_eight v.z
  have ex : ix = ox := Fin8_eq_of_val (by omega)
  have ey : iy = oy := Fin8_eq_of_val (by omega)
  have ez : iz = oz := Fin8_eq_of_val (by omega)
  subst ex ey ez
  unfold GetVoxel
  simp only [inv.getBlock_live ha hc, GetLocalOffset_ok, vecGet_natCast _ _ _ hb, hix, hiy, hiz]

theorem GetVoxel_dead {s : SparseTSDF} (inv : StoreInv s) {v : ivec3}
    (h1 : 1 ≤ s.hash_size) (h2 : s.hash_size < 2147483648) (hc : ¬ Live s (GetBlockIndex v)) :
    GetVoxel s v = .ok ⟨0, 0⟩ := by
  unfold GetVoxel
  simp only [inv.getBlock_dead h1 h2 hc]

theorem InsertBlockLock_eq_InsertBlock {s : SparseTSDF} (c : ivec3) (h0 : 0 ≤ s.current_blocks)
    (hcap : s.current_blocks < (s.blocks.length : Int)) : InsertBlockLock s c = InsertBlock s c := by
  have hc : ¬ (s.current_blocks < 0 ∨ (s.blocks.length : Int) ≤ s.current_blocks) := by omega
  unfold InsertBlockLock InsertBlock
  simp only [hc, if_false]

theorem StoreInv.writeVoxel {s s1 : SparseTSDF} (inv : StoreInv s) {block : Int} {z y x : Fin 8}
    {v : Voxel} (h : writeVoxel s block z y x v = (.ok (), s1)) : StoreInv s1 := by
  unfold Saiga.writeVoxel at h
  cases hb : vecGet s.blocks block with
  | error e => simp [hb] at h
  | ok b =>
    simp only [hb, Prod.mk.injEq, true_and] at h
    subst h
    obtain ⟨h0, hget⟩ := (vecGet_ok_iff _ _ _).1 hb
    refine ⟨inv.size_nonneg, ?_, ?_⟩
    · show s.current_blocks ≤ ((vecSet s.blocks block _).length : Int)
      unfold vecSet
      rw [List.length_set]
      exact inv.size_le
    · refine inv.index.congr rfl rfl ?_
      intro a _
      by_cases hab : block.toNat = a
      · subst hab
        have hlt := (List.getElem?_eq_some.1 hget).1
        show indexAt (vecSet s.blocks block _) block.toNat = _ ∧
          nextAt (vecSet s.blocks block _) block.toNat = _
        unfold vecSet
        rw [indexAt_set_self _ _ _ hlt, nextAt_set_self _ _ _ hlt]
        simp [indexAt, nextAt, hget]
      · show indexAt (vecSet s.blocks block _) a = _ ∧ nextAt (vecSet s.blocks block _) a = _
        unfold vecSet
        rw [indexAt_set_ne _ _ _ _ hab, nextAt_set_ne _ _ _ _ hab]
        exact ⟨rfl, rfl⟩

theorem exampleWritten_inv : StoreInv exampleWritten :=
  exampleOne_inv.writeVoxel (show Saiga.writeVoxel exampleOne 0 0 0 0 ⟨1, 1⟩ = (.ok (), exampleWritten) from rfl)

/-! ## Trilinear sampling and ray marching -/

theorem unit_mul3 {a b c : Rat} (ha : 0 ≤ a ∧ a ≤ 1) (hb : 0 ≤ b ∧ b ≤ 1) (hc : 0 ≤ c ∧ c ≤ 1) :
    0 ≤ a * b * c ∧ a * b * c ≤ 1 := by
  have hab : 0 ≤ a * b := mul_nonneg ha.1 hb.1
  have hab1 : a * b ≤ 1 := mul_le_one₀ ha.2 hb.1 hb.2
  exact ⟨mul_nonneg hab hc.1, mul_le_one₀ hab1 hc.1 hc.2⟩

theorem frac_unit (q : Rat) : (0 ≤ q - (⌊q⌋ : Rat) ∧ q - (⌊q⌋ : Rat) ≤ 1) ∧
    (0 ≤ 1 - (q - (⌊q⌋ : Rat)) ∧ 1 - (q - (⌊q⌋ : Rat)) ≤ 1) := by
  have h1 : (⌊q⌋ : Rat) ≤ q := Int.floor_le q
  have h2 : q < (⌊q⌋ : Rat) + 1 := Int.lt_floor_add_one q
  refine ⟨⟨by linarith, by linarith⟩, ⟨by linarith, by linarith⟩⟩

theorem TrilinearAccessWeights_eq (s : SparseTSDF) (position : vec3) :
    TrilinearAccessWeights s position = cornerOffsets.map (fun o =>
      ((⟨⌊position.x * s.voxel_size_inv⌋, ⌊position.y * s.voxel_size_inv⌋,
          ⌊position.z * s.voxel_size_inv⌋⟩ : ivec3).add o,
        trilinearFactor o.x (position.x * s.voxel_size_inv - (⌊position.x * s.voxel_size_inv⌋ : Rat)) *
          trilinearFactor o.y (position.y * s.voxel_size_inv - (⌊position.y * s.voxel_size_inv⌋ : Rat)) *
          trilinearFactor o.z (position.z * s.voxel_size_inv - (⌊position.z * s.voxel_size_inv⌋ : Rat)))) := by
  simp [TrilinearAccessWeights, cornerOffsets, trilinearFactor, vec3.scale]

theorem TrilinearAccessWeights_sum (s : SparseTSDF) (position : vec3) :
    ((TrilinearAccessWeights s position).map Prod.snd).sum = 1 := by
  simp only [TrilinearAccessWeights, List.map_cons, List.map_nil, List.sum_cons, List.sum_nil]
  ring

theorem TrilinearAccessWeights_unit (s : SparseTSDF) (position : vec3) :
    ∀ iw ∈ TrilinearAccessWeights s position, 0 ≤ iw.2 ∧ iw.2 ≤ 1 := by
  have hx := frac_unit (position.scale s.voxel_size_inv).x
  have hy := frac_unit (position.scale s.voxel_size_inv).y
  have hz := frac_unit (position.scale s.voxel_size_inv).z
  intro iw hiw
  simp only [TrilinearAccessWeights, List.mem_cons, List.mem_singleton, List.not_mem_nil, or_false] at hiw
  rcases hiw with h | h | h | h | h | h | h | h <;> subst h
  · exact unit_mul3 hx.2 hy.2 hz.2
  · exact unit_mul3 hx.2 hy.2 hz.1
  · exact unit_mul3 hx.2 hy.1 hz.2
  · exact unit_mul3 hx.2 hy.1 hz.1
  · exact unit_mul3 hx.1 hy.2 hz.2
  · exact unit_mul3 hx.1 hy.2 hz.1
  · exact unit_mul3 hx.1 hy.1 hz.2
  · exact unit_mul3 hx.1 hy.1 hz.1

theorem TrilinearAccessLoop_all (s : SparseTSDF) (vox : ivec3 → Voxel) :
    ∀ (l : List (ivec3 × Rat)) (r : Voxel) (w : Rat),
      (∀ iw ∈ l, GetVoxel s iw.1 = .ok (vox iw.1) ∧ (vox iw.1).weight ≠ 0) →
      TrilinearAccessLoop s l r w = .ok (true,
        ⟨r.distance + (l.map (fun iw => (vox iw.1).distance * iw.2)).sum,
          r.weight + (l.map (fun iw => (vox iw.1).weight * iw.2)).sum⟩,
        w + (l.map Prod.snd).sum)
  | [], r, w, _ => by simp [TrilinearAccessLoop]
  | iw :: rest, r, w, h => by
    obtain ⟨h1, h2⟩ := h iw (by simp)
    have ih := TrilinearAccessLoop_all s vox rest
      ⟨r.distance + (vox iw.1).distance * iw.2, r.weight + (vox iw.1).weight * iw.2⟩ (w + iw.2)
      (fun x hx => h x (by simp [hx]))
    simp only [TrilinearAccessLoop, h1, h2, if_false, ih, List.map_cons, List.sum_cons, add_assoc]

theorem TrilinearAccessLoop_zero (s : SparseTSDF) (vox : ivec3 → Voxel) :
    ∀ (l : List (ivec3 × Rat)) (r : Voxel) (w : Rat),
      (∀ iw ∈ l, GetVoxel s iw.1 = .ok (vox iw.1)) → (∃ iw ∈ l, (vox iw.1).weight = 0) →
      ∃ r1 w1, TrilinearAccessLoop s l r w = .ok (false, r1, w1)
  | [], _, _, _, h => by
    obtain ⟨iw, hiw, _⟩ := h
    simp at hiw
  | iw :: rest, r, w, hread, h => by
    have h1 := hread iw (by simp)
    by_cases hz : (vox iw.1).weight = 0
    · exact ⟨r, w, by simp [TrilinearAccessLoop, h1, hz]⟩
    · have hrest : ∃ x ∈ rest, (vox x.1).weight = 0 := by
        obtain ⟨x, hx, hx0⟩ := h
        rcases List.mem_cons.1 hx with rfl | hx
        · exact (hz hx0).elim
        · exact ⟨x, hx, hx0⟩
      obtain ⟨r1, w1, ih⟩ := TrilinearAccessLoop_zero s vox rest
        ⟨r.distance + (vox iw.1).distance * iw.2, r.weight + (vox iw.1).weight * iw.2⟩ (w + iw.2)
        (fun x hx => hread x (by simp [hx])) hrest
      exact ⟨r1, w1, by simp only [TrilinearAccessLoop, h1, hz, if_false, ih]⟩

theorem TrilinearAccess_true (s : SparseTSDF) (position : vec3) (vox : ivec3 → Voxel)
    (h : ∀ iw ∈ TrilinearAccessWeights s position,
      GetVoxel s iw.1 = .ok (vox iw.1) ∧ (vox iw.1).weight ≠ 0) :
    TrilinearAccess s position = .ok (true,
      ⟨((TrilinearAccessWeights s position).map (fun iw => (vox iw.1).distance * iw.2)).sum,
        ((TrilinearAccessWeights s position).map (fun iw => (vox iw.1).weight * iw.2)).sum⟩) := by
  unfold TrilinearAccess
  rw [TrilinearAccessLoop_all s vox _ _ _ h, TrilinearAccessWeights_sum]
  norm_num

theorem TrilinearAccess_false (s : SparseTSDF) (position : vec3) (vox : ivec3 → Voxel)
    (hread : ∀ iw ∈ TrilinearAccessWeights s position, GetVoxel s iw.1 = .ok (vox iw.1))
    (h : ∃ iw ∈ TrilinearAccessWeights s position, (vox iw.1).weight = 0) :
    ∃ r, TrilinearAccess s position = .ok (false, r) := by
  obtain ⟨r1, w1, hl⟩ := TrilinearAccessLoop_zero s vox _ ⟨0, 0⟩ 0 hread h
  exact ⟨r1, by unfold TrilinearAccess; rw [hl]⟩

theorem StoreInv.getVoxel_total {s : SparseTSDF} (inv : StoreInv s) (h1 : 1 ≤ s.hash_size)
    (h2 : s.hash_size < 2147483648) (v : ivec3) : GetVoxel s v = .ok (voxelAt s v) := by
  by_cases hl : Live s (GetBlockIndex v)
  · obtain ⟨a, ha, hca⟩ := hl
    obtain ⟨blk, hb, hi⟩ := (indexAt_eq_some _ _ _).1 hca
    have hbx : (GetBlockIndex v).x = v.x / 8 := iFloorDiv_eight v.x
    have hby : (GetBlockIndex v).y = v.y / 8 := iFloorDiv_eight v.y
    have hbz : (GetBlockIndex v).z = v.z / 8 := iFloorDiv_eight v.z
    obtain ⟨ix, _, hix⟩ := arrayIndex_mod v.x
    obtain ⟨iy, _, hiy⟩ := arrayIndex_mod v.y
    obtain ⟨iz, _, hiz⟩ := arrayIndex_mod v.z
    have h := GetVoxel_live inv ha hca hb ix iy iz (by omega) (by omega) (by omega)
    simp only [voxelAt, h]
  · have h := GetVoxel_dead inv h1 h2 hl
    simp only [voxelAt, h]

theorem StoreInv.writeData {s s1 : SparseTSDF} (inv : StoreInv s) {block : Int}
    {data : Fin 8 → Fin 8 → Fin 8 → Voxel} (h : writeData s block data = (.ok (), s1)) :
    StoreInv s1 := by
  unfold Saiga.writeData at h
  cases hb : vecGet s.blocks block with
  | error e => simp [hb] at h
  | ok b =>
    simp only [hb, Prod.mk.injEq, true_and] at h
    subst h
    obtain ⟨h0, hget⟩ := (vecGet_ok_iff _ _ _).1 hb
    refine ⟨inv.size_nonneg, ?_, ?_⟩
    · show s.current_blocks ≤ ((vecSet s.blocks block _).length : Int)
      unfold vecSet
      rw [List.length_set]
      exact inv.size_le
    · refine inv.index.congr rfl rfl ?_
      intro a _
      by_cases hab : block.toNat = a
      · subst hab
        have hlt := (List.getElem?_eq_some.1 hget).1
        show indexAt (vecSet s.blocks block _) block.toNat = _ ∧
          nextAt (vecSet s.blocks block _) block.toNat = _
        unfold vecSet
        rw [indexAt_set_self _ _ _ hlt, nextAt_set_self _ _ _ hlt]
        simp [indexAt, nextAt, hget]
      · show indexAt (vecSet s.blocks block _) a = _ ∧ nextAt (vecSet s.blocks block _) a = _
        unfold vecSet
        rw [indexAt_set_ne _ _ _ _ hab, nextAt_set_ne _ _ _ _ hab]
        exact ⟨rfl, rfl⟩

theorem exampleRayStore_inv : StoreInv exampleRayStore :=
  (StoreInv.insert (StoreInv.init 1 2 1)
    (show InsertBlock (SparseTSDF.init 1 2 1) ⟨0, 0, 0⟩ = (.ok 0, exampleUnitStore) from rfl)).writeData
    (show Saiga.writeData exampleUnitStore 0 exampleRayData = (.ok (), exampleRayStore) from rfl)

theorem exampleRayStore_reads (v : ivec3) : GetVoxel exampleRayStore v = .ok (voxelAt exampleRayStore v) :=
  exampleRayStore_inv.getVoxel_total (by decide) (by decide) v

theorem TrilinearAccess_total {s : SparseTSDF} (hread : ∀ v, GetVoxel s v = .ok (voxelAt s v))
    (position : vec3) : ∃ b v, TrilinearAccess s position = .ok (b, v) := by
  by_cases hz : ∃ iw ∈ TrilinearAccessWeights s position, (voxelAt s iw.1).weight = 0
  · obtain ⟨r, hr⟩ := TrilinearAccess_false s position (voxelAt s) (fun iw _ => hread iw.1) hz
    exact ⟨false, r, hr⟩
  · exact ⟨true, _, TrilinearAccess_true s position (voxelAt s)
      (fun iw hiw => ⟨hread iw.1, fun h0 => hz ⟨iw, hiw, h0⟩⟩)⟩

theorem weighted_sum_pos (f : ivec3 × Rat → Rat) :
    ∀ l : List (ivec3 × Rat), (∀ iw ∈ l, 0 ≤ iw.2) → (∀ iw ∈ l, 0 < f iw) →
      0 ≤ (l.map (fun iw => f iw * iw.2)).sum ∧
      (0 < (l.map Prod.snd).sum → 0 < (l.map (fun iw => f iw * iw.2)).sum)
  | [], _, _ => by simp
  | iw :: rest, hw, hf => by
    obtain ⟨ih1, ih2⟩ := weighted_sum_pos f rest (fun x hx => hw x (by simp [hx]))
      (fun x hx => hf x (by simp [hx]))
    have h1 : 0 ≤ iw.2 := hw iw (by simp)
    have h2 : 0 < f iw := hf iw (by simp)
    have h3 : 0 ≤ f iw * iw.2 := mul_nonneg (le_of_lt h2) h1
    simp only [List.map_cons, List.sum_cons]
    refine ⟨by linarith, ?_⟩
    intro hpos
    by_cases hi : 0 < iw.2
    · have : 0 < f iw * iw.2 := mul_pos h2 hi
      linarith
    · have hi0 : iw.2 = 0 := le_antisymm (not_lt.1 hi) h1
      rw [hi0] at hpos
      have := ih2 (by linarith)
      linarith

theorem TrilinearAccess_weight_pos {s : SparseTSDF} (hread : ∀ v, GetVoxel s v = .ok (voxelAt s v))
    (hw : ∀ v, 0 ≤ (voxelAt s v).weight) {position : vec3} {v : Voxel}
    (h : TrilinearAccess s position = .ok (true, v)) : 0 < v.weight := by
  by_cases hz : ∃ iw ∈ TrilinearAccessWeights s position, (voxelAt s iw.1).weight = 0
  · obtain ⟨r, hr⟩ := TrilinearAccess_false s position (voxelAt s) (fun iw _ => hread iw.1) hz
    rw [hr] at h
    cases h
  · have hnz : ∀ iw ∈ TrilinearAccessWeights s position, (voxelAt s iw.1).weight ≠ 0 :=
      fun iw hiw h0 => hz ⟨iw, hiw, h0⟩
    rw [TrilinearAccess_true s position (voxelAt s) (fun iw hiw => ⟨hread iw.1, hnz iw hiw⟩)] at h
    injection h with h
    injection h with _ h
    rw [← h]
    show 0 < ((TrilinearAccessWeights s position).map
      (fun iw => (voxelAt s iw.1).weight * iw.2)).sum
    refine (weighted_sum_pos (fun iw => (voxelAt s iw.1).weight) _
      (fun iw hiw => (TrilinearAccessWeights_unit s position iw hiw).1)
      (fun iw hiw => lt_of_le_of_ne (hw iw.1) (Ne.symm (hnz iw hiw)))).2 ?_
    rw [TrilinearAccessWeights_sum]
    norm_num

theorem IntersectionLinear_between {t1 t2 d1 d2 : Rat} (ht : t1 ≤ t2) (h1 : 0 < d1) (h2 : d2 ≤ 0) :
    ∃ c, IntersectionLinear t1 t2 d1 d2 = .ok c ∧ t1 ≤ c ∧ c ≤ t2 := by
  have hd : 0 < d1 - d2 := by linarith
  have hne : d1 - d2 ≠ 0 := ne_of_gt hd
  have hr0 : 0 ≤ d1 / (d1 - d2) := le_of_lt (div_pos h1 hd)
  have hr1 : d1 / (d1 - d2) ≤ 1 := (div_le_one hd).2 (by linarith)
  have hm0 : 0 ≤ d1 / (d1 - d2) * (t2 - t1) := mul_nonneg hr0 (by linarith)
  have hm1 : d1 / (d1 - d2) * (t2 - t1) ≤ t2 - t1 := mul_le_of_le_one_left (by linarith) hr1
  refine ⟨t1 + d1 / (d1 - d2) * (t2 - t1), ?_, by linarith, by linarith⟩
  unfold IntersectionLinear
  simp only [hne, if_false]

theorem findIntersectionBisectionLoop_between {s : SparseTSDF}
    (hTA : ∀ p, ∃ b v, TrilinearAccess s p = .ok (b, v)) (ray_origin ray_dir : vec3) (t1 t2 : Rat) :
    ∀ (n : Nat) (a b aDist bDist c : Rat), t1 ≤ a → a ≤ c → c ≤ b → b ≤ t2 → 0 < aDist → bDist ≤ 0 →
      ∃ r, findIntersectionBisectionLoop s ray_origin ray_dir t1 t2 n a b aDist bDist c = .ok r ∧
        ∀ t, r = some t → t1 ≤ t ∧ t ≤ t2
  | 0, a, b, aDist, bDist, c, h1, h2, h3, h4, _, _ => by
    refine ⟨some c, rfl, ?_⟩
    intro t ht
    cases ht
    exact ⟨by linarith, by linarith⟩
  | n + 1, a, b, aDist, bDist, c, h1, h2, h3, h4, h5, h6 => by
    have hc1 : t1 ≤ c := by linarith
    have hc2 : c ≤ t2 := by linarith
    obtain ⟨tb, sample, hs⟩ := hTA (ray_origin.add (ray_dir.scale c))
    simp only [findIntersectionBisectionLoop, hc1, hc2, not_true, if_false, hs]
    cases tb with
    | false => exact ⟨none, rfl, fun t ht => by cases ht⟩
    | true =>
      simp only []
      by_cases hpos : 0 < aDist * sample.distance
      · have hcd : 0 < sample.distance := by
          by_contra hneg
          have : aDist * sample.distance ≤ 0 :=
            mul_nonpos_of_nonneg_of_nonpos (le_of_lt h5) (not_lt.1 hneg)
          linarith
        obtain ⟨c1, hil, hl1, hl2⟩ := IntersectionLinear_between h3 hcd h6
        simp only [hpos, if_true, hil]
        exact findIntersectionBisectionLoop_between hTA ray_origin ray_dir t1 t2 n c b
          sample.distance bDist c1 hc1 hl1 hl2 h4 hcd h6
      · have hcd : sample.distance ≤ 0 := by
          by_contra hneg
          exact hpos (mul_pos h5 (not_le.1 hneg))
        obtain ⟨c1, hil, hl1, hl2⟩ := IntersectionLinear_between h2 h5 hcd
        simp only [hpos, if_false, hil]
        exact findIntersectionBisectionLoop_between hTA ray_origin ray_dir t1 t2 n a c aDist
          sample.distance c1 h1 hl1 hl2 hc2 h5 hcd

theorem findIntersectionBisection_between {s : SparseTSDF}
    (hTA : ∀ p, ∃ b v, TrilinearAccess s p = .ok (b, v)) (n : Nat) (ray_origin ray_dir : vec3)
    {t1 t2 d1 d2 : Rat} (ht : t1 ≤ t2) (h1 : 0 < d1) (h2 : d2 < 0) :
    ∃ r, findIntersectionBisection s n ray_origin ray_dir t1 t2 d1 d2 = .ok r ∧
      ∀ t, r = some t → t1 ≤ t ∧ t ≤ t2 := by
  obtain ⟨c, hil, hl1, hl2⟩ := IntersectionLinear_between ht h1 (le_of_lt h2)
  unfold findIntersectionBisection
  simp only [hil]
  exact findIntersectionBisectionLoop_between hTA ray_origin ray_dir t1 t2 n t1 t2 d1 d2 c
    (le_refl _) hl1 hl2 (le_refl _) h1 (le_of_lt h2)

/-! ### Rounding to binary32 -/

theorem pow2_eq (k : Int) : pow2 k = (2 : Rat) ^ k := by
  unfold pow2
  split_ifs with h
  · obtain ⟨n, rfl⟩ := Int.eq_ofNat_of_zero_le h
    simp
  · push_neg at h
    obtain ⟨n, hn⟩ := Int.eq_ofNat_of_zero_le (show 0 ≤ -k by omega)
    have hk : k = -(n : Int) := by omega
    subst hk
    simp

theorem pow2_pos (k : Int) : 0 < pow2 k := by
  rw [pow2_eq]; positivity

theorem pow2_le {j k : Int} (h : j ≤ k) : pow2 j ≤ pow2 k := by
  rw [pow2_eq, pow2_eq]
  exact zpow_le_zpow_right₀ (by norm_num) h

theorem pow2_add (j k : Int) : pow2 (j + k) = pow2 j * pow2 k := by
  rw [pow2_eq, pow2_eq, pow2_eq]
  exact zpow_add₀ (by norm_num) j k

theorem float32ExponentLoop_spec (a : Rat) :
    ∀ n : Nat, (-149 ≤ float32ExponentLoop a n ∧ float32ExponentLoop a n ≤ (n : Int) - 149) ∧
      (float32ExponentLoop a n ≠ -149 → pow2 (float32ExponentLoop a n + 23) ≤ a) ∧
      (∀ e : Int, float32ExponentLoop a n < e → e ≤ (n : Int) - 149 → a < pow2 (e + 23))
  | 0 => by
    refine ⟨⟨le_refl _, by simp [float32ExponentLoop]⟩, fun h => absurd rfl h, ?_⟩
    intro e h1 h2
    simp only [float32ExponentLoop] at h1
    push_cast at h2
    omega
  | n + 1 => by
    obtain ⟨⟨h1, h2⟩, h3, h4⟩ := float32ExponentLoop_spec a n
    unfold float32ExponentLoop
    split_ifs with h
    · refine ⟨⟨by omega, by push_cast; omega⟩, fun _ => ?_, ?_⟩
      · have : (n : Int) + 1 - 149 + 23 = (n : Int) + 1 - 126 := by ring
        rw [this]; exact h
      · intro e h5 h6
        push_cast at h6
        omega
    · refine ⟨⟨h1, by push_cast; omega⟩, h3, ?_⟩
      intro e h5 h6
      push_cast at h6
      by_cases he : e = (n : Int) + 1 - 149
      · subst he
        have : (n : Int) + 1 - 149 + 23 = (n : Int) + 1 - 126 := by ring
        rw [this]
        exact not_le.1 h
      · exact h4 e h5 (by omega)

theorem float32Exponent_spec (a : Rat) :
    (-149 ≤ float32Exponent a ∧ float32Exponent a ≤ 104) ∧
      (float32Exponent a ≠ -149 → pow2 (float32Exponent a + 23) ≤ a) ∧
      (∀ e : Int, float32Exponent a < e → e ≤ 104 → a < pow2 (e + 23)) := by
  have h := float32ExponentLoop_spec a 253
  unfold float32Exponent
  norm_num at h ⊢
  exact h

theorem float32Exponent_unique (a : Rat) (e : Int) (h1 : -149 ≤ e) (h2 : e ≤ 104)
    (h3 : e ≠ -149 → pow2 (e + 23) ≤ a) (h4 : e < 104 → a < pow2 (e + 24)) :
    float32Exponent a = e := by
  obtain ⟨⟨g1, g2⟩, g3, g4⟩ := float32Exponent_spec a
  rcases lt_trichotomy (float32Exponent a) e with h | h | h
  · have := g4 e h h2
    have := h3 (by omega)
    linarith
  · exact h
  · have ha := g3 (by omega)
    have hb := h4 (by omega)
    have hc : pow2 (e + 24) ≤ pow2 (float32Exponent a + 23) := pow2_le (by omega)
    linarith

theorem float32Exponent_mono {x y : Rat} (h : x ≤ y) : float32Exponent x ≤ float32Exponent y := by
  obtain ⟨⟨g1, g2⟩, g3, _⟩ := float32Exponent_spec x
  obtain ⟨⟨k1, _⟩, _, k4⟩ := float32Exponent_spec y
  by_contra hlt
  push_neg at hlt
  have := g3 (by omega)
  have := k4 _ hlt g2
  linarith

theorem roundHalfEven_intCast (n : Int) : roundHalfEven (n : Rat) = n := by
  unfold roundHalfEven
  simp

theorem roundHalfEven_mono {x y : Rat} (h : x ≤ y) : roundHalfEven x ≤ roundHalfEven y := by
  have hx1 := Int.floor_le x
  have hx2 := Int.lt_floor_add_one x
  have hy1 := Int.floor_le y
  have hy2 := Int.lt_floor_add_one y
  have hf : ⌊x⌋ ≤ ⌊y⌋ := Int.floor_mono h
  unfold roundHalfEven
  simp only []
  rcases hf.lt_or_eq with hlt | heq
  · split_ifs <;> omega
  · have hc : ((⌊x⌋ : Int) : Rat) = ((⌊y⌋ : Int) : Rat) := by rw [heq]
    split_ifs <;> first | omega | (exfalso; linarith)

theorem roundHalfEven_nonneg {x : Rat} (h : 0 ≤ x) : 0 ≤ roundHalfEven x := by
  have := roundHalfEven_mono h
  rw [show (0 : Rat) = ((0 : Int) : Rat) by simp, roundHalfEven_intCast] at this
  exact this

theorem float32Abs_nonneg {a : Rat} (h : 0 ≤ a) : 0 ≤ float32Abs a := by
  unfold float32Abs
  have h1 : 0 ≤ roundHalfEven (a / pow2 (float32Exponent a)) :=
    roundHalfEven_nonneg (div_nonneg h (le_of_lt (pow2_pos _)))
  exact mul_nonneg (by exact_mod_cast h1) (le_of_lt (pow2_pos _))

theorem pow2_natCast (n : Nat) : pow2 (n : Int) = (((2 : Int) ^ n : Int) : Rat) := by
  rw [pow2_eq]
  simp

theorem float32Abs_mono {x y : Rat} (h : x ≤ y) : float32Abs x ≤ float32Abs y := by
  have he := float32Exponent_mono h
  obtain ⟨⟨g1, g2⟩, g3, g4⟩ := float32Exponent_spec x
  obtain ⟨⟨k1, k2⟩, k3, k4⟩ := float32Exponent_spec y
  unfold float32Abs
  rcases he.lt_or_eq with hlt | heq
  · have hx : x < pow2 (float32Exponent x + 24) := by
      have := g4 (float32Exponent x + 1) (by omega) (by omega)
      rwa [show float32Exponent x + 1 + 23 = float32Exponent x + 24 by ring] at this
    have hy : pow2 (float32Exponent y + 23) ≤ y := k3 (by omega)
    have h1 : roundHalfEven (x / pow2 (float32Exponent x)) ≤ (2 : Int) ^ 24 := by
      have hd : x / pow2 (float32Exponent x) ≤ (((2 : Int) ^ 24 : Int) : Rat) := by
        rw [div_le_iff₀ (pow2_pos _), ← pow2_natCast, ← pow2_add]
        rw [show ((24 : Nat) : Int) + float32Exponent x = float32Exponent x + 24 by push_cast; ring]
        exact le_of_lt hx
      have := roundHalfEven_mono hd
      rwa [roundHalfEven_intCast] at this
    have h2 : (2 : Int) ^ 23 ≤ roundHalfEven (y / pow2 (float32Exponent y)) := by
      have hd : (((2 : Int) ^ 23 : Int) : Rat) ≤ y / pow2 (float32Exponent y) := by
        rw [le_div_iff₀ (pow2_pos _), ← pow2_natCast, ← pow2_add]
        rw [show ((23 : Nat) : Int) + float32Exponent y = float32Exponent y + 23 by push_cast; ring]
        exact hy
      have := roundHalfEven_mono hd
      rwa [roundHalfEven_intCast] at this
    have h3 : ((roundHalfEven (x / pow2 (float32Exponent x)) : Int) : Rat) * pow2 (float32Exponent x)
        ≤ pow2 (float32Exponent x + 24) := by
      rw [show float32Exponent x + 24 = ((24 : Nat) : Int) + float32Exponent x by push_cast; ring,
        pow2_add, pow2_natCast]
      exact mul_le_mul_of_nonneg_right (by exact_mod_cast h1) (le_of_lt (pow2_pos _))
    have h4 : pow2 (float32Exponent y + 23)
        ≤ ((roundHalfEven (y / pow2 (float32Exponent y)) : Int) : Rat) * pow2 (float32Exponent y) := by
      rw [show float32Exponent y + 23 = ((23 : Nat) : Int) + float32Exponent y by push_cast; ring,
        pow2_add, pow2_natCast]
      exact mul_le_mul_of_nonneg_right (by exact_mod_cast h2) (le_of_lt (pow2_pos _))
    have h5 : pow2 (float32Exponent x + 24) ≤ pow2 (float32Exponent y + 23) := pow2_le (by omega)
    linarith
  · rw [heq]
    have hd : x / pow2 (float32Exponent y) ≤ y / pow2 (float32Exponent y) :=
      div_le_div_of_nonneg_right h (le_of_lt (pow2_pos _))
    have := roundHalfEven_mono hd
    exact mul_le_mul_of_nonneg_right (by exact_mod_cast this) (le_of_lt (pow2_pos _))

theorem float32Abs_zero : float32Abs 0 = 0 := by
  unfold float32Abs
  rw [zero_div, show (0 : Rat) = ((0 : Int) : Rat) by simp, roundHalfEven_intCast]
  simp

theorem float32Abs_def (a : Rat) : float32Abs a
    = ((roundHalfEven (a / pow2 (float32Exponent a)) : Int) : Rat) * pow2 (float32Exponent a) := rfl

theorem float32Abs_float32Abs {a : Rat} (h : 0 ≤ a) : float32Abs (float32Abs a) = float32Abs a := by
  obtain ⟨⟨g1, g2⟩, g3, g4⟩ := float32Exponent_spec a
  have hp := pow2_pos (float32Exponent a)
  have hm0 : 0 ≤ roundHalfEven (a / pow2 (float32Exponent a)) :=
    roundHalfEven_nonneg (div_nonneg h (le_of_lt hp))
  have hv := float32Abs_def a
  -- the significand is at least 2^23 unless the exponent is the smallest one
  have hlo : float32Exponent a ≠ -149 → (2 : Int) ^ 23 ≤ roundHalfEven (a / pow2 (float32Exponent a)) := by
    intro hne
    have hd : (((2 : Int) ^ 23 : Int) : Rat) ≤ a / pow2 (float32Exponent a) := by
      rw [le_div_iff₀ hp, ← pow2_natCast, ← pow2_add]
      rw [show ((23 : Nat) : Int) + float32Exponent a = float32Exponent a + 23 by push_cast; ring]
      exact g3 hne
    have := roundHalfEven_mono hd
    rwa [roundHalfEven_intCast] at this
  -- and at most 2^24 unless the exponent is the largest one
  have hhi : float32Exponent a < 104 → roundHalfEven (a / pow2 (float32Exponent a)) ≤ (2 : Int) ^ 24 := by
    intro hlt
    have hx : a < pow2 (float32Exponent a + 24) := by
      have := g4 (float32Exponent a + 1) (by omega) (by omega)
      rwa [show float32Exponent a + 1 + 23 = float32Exponent a + 24 by ring] at this
    have hd : a / pow2 (float32Exponent a) ≤ (((2 : Int) ^ 24 : Int) : Rat) := by
      rw [div_le_iff₀ hp, ← pow2_natCast, ← pow2_add]
      rw [show ((24 : Nat) : Int) + float32Exponent a = float32Exponent a + 24 by push_cast; ring]
      exact le_of_lt hx
    have := roundHalfEven_mono hd
    rwa [roundHalfEven_intCast] at this
  by_cases hcarry : float32Exponent a < 104 ∧ roundHalfEven (a / pow2 (float32Exponent a)) = (2 : Int) ^ 24
  · obtain ⟨hlt, hm⟩ := hcarry
    have hval : float32Abs a = pow2 (float32Exponent a + 24) := by
      rw [hv, hm, show float32Exponent a + 24 = ((24 : Nat) : Int) + float32Exponent a by push_cast; ring,
        pow2_add, pow2_natCast]
    have hexp : float32Exponent (float32Abs a) = float32Exponent a + 1 := by
      apply float32Exponent_unique _ _ (by omega) (by omega)
      · intro _
        rw [hval]
        exact pow2_le (by omega)
      · intro _
        rw [hval, pow2_eq, pow2_eq]
        exact zpow_lt_zpow_right₀ (by norm_num) (by omega)
    have hq : float32Abs a / pow2 (float32Exponent a + 1) = (((2 : Int) ^ 23 : Int) : Rat) := by
      rw [div_eq_iff (ne_of_gt (pow2_pos _)), hval, ← pow2_natCast, ← pow2_add]
      congr 1
      push_cast
      ring
    rw [float32Abs_def (float32Abs a), hexp, hq, roundHalfEven_intCast, hval, ← pow2_natCast, ← pow2_add]
    congr 1
    push_cast
    ring
  · have hexp : float32Exponent (float32Abs a) = float32Exponent a := by
      apply float32Exponent_unique _ _ g1 g2
      · intro hne
        rw [hv, show float32Exponent a + 23 = ((23 : Nat) : Int) + float32Exponent a by push_cast; ring,
          pow2_add, pow2_natCast]
        exact mul_le_mul_of_nonneg_right (by exact_mod_cast hlo hne) (le_of_lt hp)
      · intro hlt
        have hle := hhi hlt
        have hne : roundHalfEven (a / pow2 (float32Exponent a)) ≠ (2 : Int) ^ 24 :=
          fun hm => hcarry ⟨hlt, hm⟩
        have hlt2 : roundHalfEven (a / pow2 (float32Exponent a)) < (2 : Int) ^ 24 :=
          lt_of_le_of_ne hle hne
        rw [hv, show float32Exponent a + 24 = ((24 : Nat) : Int) + float32Exponent a by push_cast; ring,
          pow2_add, pow2_natCast]
        exact mul_lt_mul_of_pos_right (by exact_mod_cast hlt2) hp
    have hq : float32Abs a / pow2 (float32Exponent a)
        = ((roundHalfEven (a / pow2 (float32Exponent a)) : Int) : Rat) := by
      rw [hv]
      field_simp
    rw [float32Abs_def (float32Abs a), hexp, hq, roundHalfEven_intCast]
    exact hv.symm

theorem float32_mono {x y : Rat} (h : x ≤ y) : float32 x ≤ float32 y := by
  unfold float32
  split_ifs with hx hy hy
  · exact float32Abs_mono h
  · linarith
  · have h1 := float32Abs_nonneg (show (0 : Rat) ≤ -x by linarith)
    have h2 := float32Abs_nonneg hy
    linarith
  · have := float32Abs_mono (show -y ≤ -x by linarith)
    linarith

theorem float32_float32 (x : Rat) : float32 (float32 x) = float32 x := by
  unfold float32
  split_ifs with hx h1 h1
  · exact float32Abs_float32Abs hx
  · exact absurd (float32Abs_nonneg hx) h1
  · have hx' : (0 : Rat) ≤ -x := by linarith
    have h0 : float32Abs (-x) = 0 := le_antisymm (by linarith) (float32Abs_nonneg hx')
    rw [h0, neg_zero, float32Abs_zero]
  · rw [neg_neg, float32Abs_float32Abs (by linarith)]

theorem le_floatAdd {t b : Rat} (ht : float32 t = t) (hb : 0 ≤ b) : t ≤ floatAdd t b := by
  have := float32_mono (show t ≤ t + b by linarith)
  rw [ht] at this
  exact this

theorem float32_floatAdd (a b : Rat) : float32 (floatAdd a b) = floatAdd a b :=
  float32_float32 _

/-! ### The marching loop -/

theorem sampleTime_succ (min_t step : Rat) (k : Nat) :
    sampleTime min_t step (k + 1) = floatAdd (sampleTime min_t step k) step := rfl

theorem sampleTime_float32 {min_t : Rat} (step : Rat) (hmin : float32 min_t = min_t) :
    ∀ k, float32 (sampleTime min_t step k) = sampleTime min_t step k
  | 0 => hmin
  | _ + 1 => float32_floatAdd _ _

theorem sampleTime_le_succ {min_t step : Rat} (hmin : float32 min_t = min_t) (hstep : 0 ≤ step)
    (k : Nat) : sampleTime min_t step k ≤ sampleTime min_t step (k + 1) :=
  le_floatAdd (sampleTime_float32 step hmin k) hstep

theorem sampleTime_ge {min_t step : Rat} (hmin : float32 min_t = min_t) (hstep : 0 ≤ step) :
    ∀ k, min_t ≤ sampleTime min_t step k
  | 0 => le_refl _
  | k + 1 => le_trans (sampleTime_ge hmin hstep k) (sampleTime_le_succ hmin hstep k)

theorem RaySurfaceIntersectionLoop_returns {s : SparseTSDF}
    (hread : ∀ v, GetVoxel s v = .ok (voxelAt s v)) (hw : ∀ v, 0 ≤ (voxelAt s v).weight)
    (n : Nat) (ray_origin ray_dir : vec3) (min_t max_t step : Rat) (verbose : Bool)
    (hmono : verbose = false → ∀ k, sampleTime min_t step k ≤ sampleTime min_t step (k + 1)) :
    ∀ (fuel j : Nat) (last_t : Rat) (last_sample : Voxel),
      max_t ≤ sampleTime min_t step (j + fuel) →
      (0 < last_sample.weight → ∃ k, j = k + 1 ∧ last_t = sampleTime min_t step k) →
      ∃ r, RaySurfaceIntersectionLoop s n ray_origin ray_dir max_t step verbose (fuel + 1)
          (sampleTime min_t step j) last_t last_sample = .ok r
  | 0, j, last_t, last_sample, hfuel, _ => by
    have hdone : ¬ (sampleTime min_t step j < max_t) := not_lt.2 hfuel
    exact ⟨max_t, by simp only [RaySurfaceIntersectionLoop, hdone, not_false_eq_true, if_true]⟩
  | fuel + 1, j, last_t, last_sample, hfuel, hlast => by
    have hTA := TrilinearAccess_total hread
    by_cases hdone : sampleTime min_t step j < max_t
    · have hfuel1 : max_t ≤ sampleTime min_t step (j + 1 + fuel) := by
        rw [show j + 1 + fuel = j + (fuel + 1) by omega]
        exact hfuel
      obtain ⟨b, cur, hcur⟩ := hTA (ray_origin.add (ray_dir.scale (sampleTime min_t step j)))
      have hnext : ∃ r,
          RaySurfaceIntersectionLoop s n ray_origin ray_dir max_t step verbose (fuel + 1)
            (floatAdd (sampleTime min_t step j) step) (sampleTime min_t step j) cur = .ok r := by
        rw [← sampleTime_succ]
        exact RaySurfaceIntersectionLoop_returns hread hw n ray_origin ray_dir min_t max_t step
          verbose hmono fuel (j + 1) (sampleTime min_t step j) cur hfuel1 (fun _ => ⟨j, rfl, rfl⟩)
      rw [RaySurfaceIntersectionLoop]
      simp only [hdone, not_true, if_false, hcur]
      cases b with
      | false => exact hnext
      | true =>
        have hpos := TrilinearAccess_weight_pos hread hw hcur
        simp only [hpos, not_true, if_false]
        by_cases hcross : verbose = false ∧ 0 < last_sample.weight ∧ 0 < last_sample.distance ∧
            cur.distance < 0
        · obtain ⟨hv, hlw, hld, hcd⟩ := hcross
          obtain ⟨k, hj, hlt⟩ := hlast hlw
          have hle : last_t ≤ sampleTime min_t step j := by
            rw [hlt, hj]
            exact hmono hv k
          obtain ⟨rb, hbis, hbound⟩ := findIntersectionBisection_between hTA n ray_origin ray_dir
            hle hld hcd
          rw [if_pos ⟨hv, hlw, hld, hcd⟩, hbis]
          cases rb with
          | none => exact hnext
          | some t =>
            obtain ⟨hb1, hb2⟩ := hbound t rfl
            have hn1 : ¬ ¬ last_t ≤ t := not_not.2 hb1
            have hn2 : ¬ ¬ t ≤ sampleTime min_t step j := not_not.2 hb2
            exact ⟨t, by show (if _ then _ else _) = _; rw [if_neg hn1, if_neg hn2]⟩
        · rw [if_neg hcross]
          exact hnext
    · exact ⟨max_t, by rw [RaySurfaceIntersectionLoop]; simp only [hdone, not_false_eq_true, if_true]⟩

theorem RaySurfaceIntersectionLoop_sound (s : SparseTSDF) (n : Nat) (ray_origin ray_dir : vec3)
    (min_t max_t step : Rat) (verbose : Bool) :
    ∀ (fuel j : Nat) (last_t : Rat) (last_sample : Voxel) (r : Rat),
      (0 < last_sample.weight → ∃ k b, j = k + 1 ∧ last_t = sampleTime min_t step k ∧
        TrilinearAccess s (rayPoint ray_origin ray_dir (sampleTime min_t step k))
          = .ok (b, last_sample)) →
      RaySurfaceIntersectionLoop s n ray_origin ray_dir max_t step verbose fuel
        (sampleTime min_t step j) last_t last_sample = .ok r →
      r = max_t ∨ (verbose = false ∧ ∃ k, sampleTime min_t step (k + 1) < max_t ∧
        CrossingAt s n ray_origin ray_dir min_t step k r ∧
        sampleTime min_t step k ≤ r ∧ r ≤ sampleTime min_t step (k + 1))
  | 0, _, _, _, _, _, h => by simp [RaySurfaceIntersectionLoop] at h
  | fuel + 1, j, last_t, last_sample, r, hlast, h => by
    have ih := RaySurfaceIntersectionLoop_sound s n ray_origin ray_dir min_t max_t step verbose
      fuel (j + 1)
    rw [RaySurfaceIntersectionLoop] at h
    by_cases hdone : sampleTime min_t step j < max_t
    · simp only [hdone, not_true, if_false] at h
      cases hTA : TrilinearAccess s (ray_origin.add (ray_dir.scale (sampleTime min_t step j))) with
      | error e => rw [hTA] at h; simp at h
      | ok res =>
        obtain ⟨b, cur⟩ := res
        rw [hTA] at h
        have hnext : ∀ r1,
            RaySurfaceIntersectionLoop s n ray_origin ray_dir max_t step verbose fuel
              (floatAdd (sampleTime min_t step j) step) (sampleTime min_t step j) cur = .ok r1 →
            r1 = max_t ∨ (verbose = false ∧ ∃ k, sampleTime min_t step (k + 1) < max_t ∧
              CrossingAt s n ray_origin ray_dir min_t step k r1 ∧
              sampleTime min_t step k ≤ r1 ∧ r1 ≤ sampleTime min_t step (k + 1)) := by
          intro r1 h1
          rw [← sampleTime_succ] at h1
          exact ih (sampleTime min_t step j) cur r1 (fun _ => ⟨j, b, rfl, rfl, hTA⟩) h1
        cases b with
        | false => exact hnext r h
        | true =>
          simp only [] at h
          by_cases hpos : 0 < cur.weight
          · simp only [hpos, not_true, if_false] at h
            by_cases hcross : verbose = false ∧ 0 < last_sample.weight ∧ 0 < last_sample.distance ∧
                cur.distance < 0
            · rw [if_pos hcross] at h
              obtain ⟨hv, hlw, hld, hcd⟩ := hcross
              obtain ⟨k, b0, hj, hlt, hprev⟩ := hlast hlw
              cases hbis : findIntersectionBisection s n ray_origin ray_dir last_t
                  (sampleTime min_t step j) last_sample.distance cur.distance with
              | error e => rw [hbis] at h; simp at h
              | ok rb =>
                rw [hbis] at h
                cases rb with
                | none => exact hnext r h
                | some t =>
                  simp only [] at h
                  by_cases hb1 : last_t ≤ t
                  · by_cases hb2 : t ≤ sampleTime min_t step j
                    · rw [if_neg (not_not.2 hb1), if_neg (not_not.2 hb2)] at h
                      injection h with h
                      subst h
                      refine Or.inr ⟨hv, k, ?_, ?_, ?_, ?_⟩
                      · rw [← hj]; exact hdone
                      · refine ⟨b0, last_sample, cur, hprev, ?_, hlw, hld, hcd, ?_⟩
                        · rw [← hj]; exact hTA
                        · rw [← hj, ← hlt]; exact hbis
                      · rw [← hlt]; exact hb1
                      · rw [← hj]; exact hb2
                    · rw [if_neg (not_not.2 hb1), if_pos hb2] at h
                      cases h
                  · rw [if_pos hb1] at h
                    cases h
            · rw [if_neg hcross] at h
              exact hnext r h
          · simp [hpos] at h
    · simp only [hdone, not_false_eq_true, if_true] at h
      injection h with h
      exact Or.inl h.symm

theorem RaySurfaceIntersectionLoop_absorbed (s : SparseTSDF) (n : Nat) (ray_origin ray_dir : vec3)
    (max_t step : Rat) (verbose : Bool) (current_t : Rat) (v0 : Voxel)
    (habs : floatAdd current_t step = current_t) (hlt : current_t < max_t)
    (hTA : TrilinearAccess s (ray_origin.add (ray_dir.scale current_t)) = .ok (false, v0)) :
    ∀ (fuel : Nat) (last_t : Rat) (last_sample : Voxel),
      RaySurfaceIntersectionLoop s n ray_origin ray_dir max_t step verbose fuel current_t last_t
        last_sample = .error .nontermination
  | 0, _, _ => rfl
  | fuel + 1, last_t, last_sample => by
    rw [RaySurfaceIntersectionLoop]
    simp only [hlt, not_true, if_false, hTA]
    rw [habs]
    exact RaySurfaceIntersectionLoop_absorbed s n ray_origin ray_dir max_t step verbose current_t v0
      habs hlt hTA fuel current_t v0

theorem RaySurfaceIntersectionLoop_mono (s : SparseTSDF) (n : Nat) (ray_origin ray_dir : vec3)
    (max_t step : Rat) (verbose : Bool) :
    ∀ (fuel : Nat) (current_t last_t : Rat) (last_sample : Voxel) (r : Rat),
      RaySurfaceIntersectionLoop s n ray_origin ray_dir max_t step verbose fuel current_t last_t
        last_sample = .ok r →
      RaySurfaceIntersectionLoop s n ray_origin ray_dir max_t step verbose (fuel + 1) current_t last_t
        last_sample = .ok r
  | 0, _, _, _, _, h => by simp [RaySurfaceIntersectionLoop] at h
  | fuel + 1, current_t, last_t, last_sample, r, h => by
    have ih := RaySurfaceIntersectionLoop_mono s n ray_origin ray_dir max_t step verbose fuel
    rw [RaySurfaceIntersectionLoop] at h ⊢
    by_cases hdone : current_t < max_t
    · simp only [hdone, not_true, if_false] at h ⊢
      cases hTA : TrilinearAccess s (ray_origin.add (ray_dir.scale current_t)) with
      | error e => rw [hTA] at h; simp at h
      | ok res =>
        obtain ⟨b, cur⟩ := res
        simp only [hTA] at h ⊢
        cases b with
        | false => exact ih _ _ _ _ h
        | true =>
          simp only [] at h ⊢
          by_cases hpos : 0 < cur.weight
          · simp only [hpos, not_true, if_false] at h ⊢
            by_cases hcross : verbose = false ∧ 0 < last_sample.weight ∧ 0 < last_sample.distance ∧
                cur.distance < 0
            · rw [if_pos hcross] at h ⊢
              cases hbis : findIntersectionBisection s n ray_origin ray_dir last_t current_t
                  last_sample.distance cur.distance with
              | error e => rw [hbis] at h; simp at h
              | ok rb =>
                rw [hbis] at h
                cases rb with
                | none => exact ih _ _ _ _ h
                | some t => exact h
            · rw [if_neg hcross] at h ⊢
              exact ih _ _ _ _ h
          · simp [hpos] at h
    · simp only [hdone, not_false_eq_true, if_true] at h ⊢
      exact h

theorem RaySurfaceIntersectionLoop_mono_le (s : SparseTSDF) (n : Nat) (ray_origin ray_dir : vec3)
    (max_t step : Rat) (verbose : Bool) (current_t last_t : Rat) (last_sample : Voxel) (r : Rat)
    (fuel : Nat)
    (h : RaySurfaceIntersectionLoop s n ray_origin ray_dir max_t step verbose fuel current_t last_t
      last_sample = .ok r) :
    ∀ fuel1, fuel ≤ fuel1 →
      RaySurfaceIntersectionLoop s n ray_origin ray_dir max_t step verbose fuel1 current_t last_t
        last_sample = .ok r := by
  intro fuel1 hle
  induction hle with
  | refl => exact h
  | step _ ih => exact RaySurfaceIntersectionLoop_mono s n ray_origin ray_dir max_t step verbose _ _ _ _ _ ih

theorem vecGet_mem {α : Type} {v : List α} {k : Int} {a : α} (h : vecGet v k = .ok a) : a ∈ v := by
  unfold vecGet at h
  by_cases hk : k < 0
  · simp [hk] at h
  · simp only [hk, if_false] at h
    cases hg : v[k.toNat]? with
    | none => rw [hg] at h; cases h
    | some b =>
      rw [hg] at h
      injection h with h
      subst h
      obtain ⟨hlt, hget⟩ := List.getElem?_eq_some_iff.1 hg
      rw [← hget]
      exact List.getElem_mem hlt

theorem voxelAt_weight_nonneg {s : SparseTSDF}
    (hdata : ∀ blk ∈ s.blocks, ∀ z y x, 0 ≤ (blk.data z y x).weight) (v : ivec3) :
    0 ≤ (voxelAt s v).weight := by
  unfold voxelAt GetVoxel
  simp only []
  split
  · rename_i vox hv
    split at hv
    · cases hv
    · injection hv with hv
      rw [← hv]
    · split at hv
      · cases hv
      · split at hv
        · cases hv
        · rename_i b hb
          split at hv
          · injection hv with hv
            rw [← hv]
            exact hdata b (vecGet_mem hb) _ _ _
          · cases hv
  · exact le_refl _

theorem voxelAt_weight_zero {s : SparseTSDF}
    (hdata : ∀ blk ∈ s.blocks, ∀ z y x, (blk.data z y x).weight = 0) (v : ivec3) :
    (voxelAt s v).weight = 0 := by
  unfold voxelAt GetVoxel
  simp only []
  split
  · rename_i vox hv
    split at hv
    · cases hv
    · injection hv with hv
      rw [← hv]
    · split at hv
      · cases hv
      · split at hv
        · cases hv
        · rename_i b hb
          split at hv
          · injection hv with hv
            rw [← hv]
            exact hdata b (vecGet_mem hb) _ _ _
          · cases hv
  · rfl

theorem exampleUnitEmpty_reads (v : ivec3) :
    GetVoxel exampleUnitEmpty v = .ok (voxelAt exampleUnitEmpty v) :=
  (StoreInv.init 1 2 1).getVoxel_total (by decide) (by decide) v

theorem exampleUnitEmpty_weights (v : ivec3) : (voxelAt exampleUnitEmpty v).weight = 0 := by
  refine voxelAt_weight_zero ?_ v
  have hb : exampleUnitEmpty.blocks = [VoxelBlock.fresh, VoxelBlock.fresh] := rfl
  intro blk hblk z y x
  rw [hb] at hblk
  simp only [List.mem_cons, List.mem_singleton, List.not_mem_nil, or_false, or_self] at hblk
  subst hblk
  rfl

theorem exampleRayStore_weights (v : ivec3) : 0 ≤ (voxelAt exampleRayStore v).weight := by
  refine voxelAt_weight_nonneg ?_ v
  have hb : exampleRayStore.blocks =
      [{ data := exampleRayData, index := ⟨0, 0, 0⟩, next_index := -1 }, VoxelBlock.fresh] := rfl
  intro blk hblk z y x
  rw [hb] at hblk
  simp only [List.mem_cons, List.mem_singleton, List.not_mem_nil, or_false] at hblk
  rcases hblk with h | h
  · subst h
    show 0 ≤ (exampleRayData z y x).weight
    unfold exampleRayData
    split_ifs <;> norm_num
  · subst h
    exact le_refl _

theorem TrilinearAccess_not_true_of_zero {s : SparseTSDF}
    (hread : ∀ v, GetVoxel s v = .ok (voxelAt s v)) (hzero : ∀ v, (voxelAt s v).weight = 0)
    (position : vec3) (v : Voxel) : TrilinearAccess s position ≠ .ok (true, v) := by
  intro h
  have hmem : ∃ iw, iw ∈ TrilinearAccessWeights s position := by
    rw [TrilinearAccessWeights_eq]
    exact ⟨_, List.mem_cons_self _ _⟩
  obtain ⟨iw, hiw⟩ := hmem
  obtain ⟨r, hr⟩ := TrilinearAccess_false s position (voxelAt s) (fun iw _ => hread iw.1)
    ⟨iw, hiw, hzero iw.1⟩
  rw [hr] at h
  cases h

/-! ## Capacity, `Compact` and `InsertBlockLock` -/
theorem InsertBlockLock_present {s : SparseTSDF} {c : ivec3} {id : Int}
    (hid : GetBlockId s c = .ok id) (h0 : 0 ≤ id) : InsertBlockLock s c = (.ok id, s) := by
  obtain ⟨h, hh⟩ := GetBlockId_ok_hash hid
  have hgb := GetBlockAt_of_GetBlockId hh hid
  simp only [h0, if_true] at hgb
  unfold InsertBlockLock
  simp only [hh, hgb]

theorem InsertBlockLock_full {s : SparseTSDF} {c : ivec3} (habs : GetBlockId s c = .ok (-1))
    (hfull : s.current_blocks < 0 ∨ (s.blocks.length : Int) ≤ s.current_blocks) :
    InsertBlockLock s c = (.error .exit_error, { s with current_blocks := s.current_blocks + 1 }) := by
  obtain ⟨h, hh⟩ := GetBlockId_ok_hash habs
  have hgb := GetBlockAt_of_GetBlockId hh habs
  simp only [show ¬ ((0 : Int) ≤ -1) by omega, if_false] at hgb
  unfold InsertBlockLock
  simp only [hh, hgb, hfull, if_true]

theorem Compact_eq {s : SparseTSDF} (inv : StoreInv s) :
    Compact s = (.ok (), { s with blocks := resize s.blocks s.current_blocks.toNat }) := by
  unfold Compact
  have h0 := inv.size_nonneg
  simp only [show ¬ s.current_blocks < 0 by omega, if_false]

theorem Compact_getElem? {s : SparseTSDF} (inv : StoreInv s) (a : Nat)
    (ha : (a : Int) < s.current_blocks) :
    (resize s.blocks s.current_blocks.toNat)[a]? = s.blocks[a]? := by
  have h1 := inv.size_le
  exact resize_getElem?_of_lt _ _ _ (by omega) (by omega)

theorem GetBlockId_eq_of_live_iff {s s1 : SparseTSDF} (inv : StoreInv s) (inv1 : StoreInv s1)
    (hhs : s1.hash_size = s.hash_size)
    (hlive : ∀ (a : Nat) (c : ivec3), ((a : Int) < s1.current_blocks ∧ indexAt s1.blocks a = some c) ↔
      ((a : Int) < s.current_blocks ∧ indexAt s.blocks a = some c)) (c : ivec3) :
    GetBlockId s1 c = GetBlockId s c := by
  cases hH : H s.hash_size c with
  | error e =>
    unfold GetBlockId
    rw [hhs, hH]
  | ok h =>
    by_cases hc : Live s c
    · obtain ⟨a, ha, hca⟩ := hc
      obtain ⟨ha1, hca1⟩ := (hlive a c).2 ⟨ha, hca⟩
      rw [inv.lookup_live ha hca, inv1.lookup_live ha1 hca1]
    · have hc1 : ¬ Live s1 c := by
        rintro ⟨a, ha, hca⟩
        exact hc ⟨a, (hlive a c).1 ⟨ha, hca⟩⟩
      rw [inv.lookup_dead hH hc, inv1.lookup_dead (by rw [hhs]; exact hH) hc1]

theorem GetBlock_eq_of_GetBlockId_eq {s s1 : SparseTSDF} (hhs : s1.hash_size = s.hash_size) (c : ivec3)
    (h : GetBlockId s1 c = GetBlockId s c) : GetBlock s1 c = GetBlock s c := by
  unfold GetBlockId at h
  unfold GetBlock GetBlockAt
  rw [hhs] at h ⊢
  cases hH : H s.hash_size c with
  | error e => rfl
  | ok hv =>
    rw [hH] at h
    simp only [] at h ⊢
    rw [h]

theorem GetBlock_some_live {s : SparseTSDF} (inv : StoreInv s) {c : ivec3} {block : Int}
    (h : GetBlock s c = .ok (some block)) :
    ∃ a : Nat, block = (a : Int) ∧ (a : Int) < s.current_blocks ∧ indexAt s.blocks a = some c := by
  cases hid : GetBlockId s c with
  | error e =>
    exfalso
    unfold GetBlockId at hid
    unfold GetBlock GetBlockAt at h
    cases hH : H s.hash_size c with
    | error e1 => rw [hH] at h; cases h
    | ok hv =>
      rw [hH] at h hid
      simp only [] at h hid
      rw [hid] at h
      cases h
  | ok id =>
    rw [GetBlock_of_GetBlockId hid] at h
    rcases inv.lookup_ok hid with ⟨rfl, _⟩ | ⟨a, rfl, ha, hca⟩
    · simp at h
    · have h0 : (0 : Int) ≤ (a : Int) := by omega
      rw [if_pos h0] at h
      injection h with h
      injection h with h
      exact ⟨a, h.symm, ha, hca⟩

theorem GetVoxel_eq_of_same_blocks {s s1 : SparseTSDF} (inv : StoreInv s)
    (hgb : ∀ c, GetBlock s1 c = GetBlock s c)
    (hblk : ∀ a : Nat, (a : Int) < s.current_blocks → s1.blocks[a]? = s.blocks[a]?) (v : ivec3) :
    GetVoxel s1 v = GetVoxel s v := by
  unfold GetVoxel
  simp only []
  rw [hgb]
  cases hg : GetBlock s (GetBlockIndex v) with
  | error e => rfl
  | ok ob =>
    cases ob with
    | none => rfl
    | some block =>
      obtain ⟨a, rfl, ha, _⟩ := GetBlock_some_live inv hg
      have hv : vecGet s1.blocks (a : Int) = vecGet s.blocks (a : Int) := by
        unfold vecGet
        simp only [show ¬ ((a : Int) < 0) by omega, if_false, Int.toNat_ofNat, hblk a ha]
      simp only [hv]

theorem ReachableWithoutCompact.inv_capacity {s : SparseTSDF} (h : ReachableWithoutCompact s) :
    StoreInv s ∧ 1 ≤ s.blocks.length := by
  induction h with
  | init voxel_size reserve_blocks hash_size hres =>
    exact ⟨StoreInv.init _ _ _, by simp [SparseTSDF.init]; omega⟩
  | @insert s s1 c r _ hins ih =>
    obtain ⟨inv, hcap⟩ := ih
    refine ⟨inv.insert hins, ?_⟩
    cases hH : H s.hash_size c with
    | error e =>
      exfalso
      unfold InsertBlock at hins
      rw [hH] at hins
      cases hins
    | ok hv =>
      by_cases hc : Live s c
      · obtain ⟨a, ha, hca⟩ := hc
        rw [InsertBlock_present (inv.lookup_live ha hca) (by omega)] at hins
        injection hins with _ hs
        rw [← hs]
        exact hcap
      · obtain ⟨s', hins', _, _, _, hlen, _⟩ := InsertBlock_absent_live inv (inv.lookup_dead hH hc) hcap
        rw [hins'] at hins
        injection hins with _ hs
        rw [← hs]
        omega
  | @erase s s1 c id r _ hid h0 her ih =>
    obtain ⟨inv, hcap⟩ := ih
    refine ⟨inv.erase hid h0 her, ?_⟩
    rcases inv.lookup_ok hid with ⟨rfl, _⟩ | ⟨a, _, ha, hca⟩
    · omega
    · obtain ⟨s', her', post⟩ := EraseBlock_live inv ha hca
      rw [her'] at her
      injection her with _ hs
      rw [← hs, post.length]
      exact hcap
  | @clear s _ ih =>
    obtain ⟨inv, hcap⟩ := ih
    exact ⟨inv.clear, by simp [Clear]; omega⟩

/-! ## `Empty`, bisection and `verbose` -/

theorem VoxelBlock.Empty_iff (b : VoxelBlock) :
    VoxelBlock.Empty b = true ↔ ∀ z y x, ¬ (0 < (b.data z y x).weight) := by
  unfold VoxelBlock.Empty
  simp only [List.all_eq_true, List.mem_finRange, true_implies, decide_eq_true_eq]

theorem VoxelBlock.Empty_iff_of_nonneg (b : VoxelBlock) (hnn : ∀ z y x, 0 ≤ (b.data z y x).weight) :
    VoxelBlock.Empty b = true ↔ ∀ z y x, (b.data z y x).weight = 0 := by
  rw [VoxelBlock.Empty_iff]
  constructor
  · intro hall z y x
    exact le_antisymm (not_lt.1 (hall z y x)) (hnn z y x)
  · intro hall z y x
    rw [hall z y x]
    exact lt_irrefl _

theorem BisectionInv.step {t1 t2 a b aDist bDist c : Rat} (h : BisectionInv t1 t2 a b aDist bDist c)
    (cDist : Rat) :
    (0 < aDist * cDist →
      ∃ c1, IntersectionLinear c b cDist bDist = .ok c1 ∧ BisectionInv t1 t2 c b cDist bDist c1) ∧
    (¬ (0 < aDist * cDist) →
      ∃ c1, IntersectionLinear a c aDist cDist = .ok c1 ∧ BisectionInv t1 t2 a c aDist cDist c1) := by
  obtain ⟨h1, h2, h3, h4, h5, h6, _⟩ := h
  constructor
  · intro hpos
    have hc : 0 < cDist := (mul_pos_iff_of_pos_left h5).1 hpos
    obtain ⟨c1, hc1, hlo, hhi⟩ := IntersectionLinear_between h3 hc h6
    exact ⟨c1, hc1, by linarith, hlo, hhi, h4, hc, h6, hc1⟩
  · intro hneg
    have hc : cDist ≤ 0 := by
      by_contra hcon
      exact hneg (mul_pos h5 (not_le.1 hcon))
    obtain ⟨c1, hc1, hlo, hhi⟩ := IntersectionLinear_between h2 h5 hc
    exact ⟨c1, hc1, h1, hlo, hhi, by linarith, h5, hc, hc1⟩

theorem findIntersectionBisectionLoop_true {s : SparseTSDF} (ray_origin ray_dir : vec3)
    {t1 t2 a b aDist bDist c : Rat} (h : BisectionInv t1 t2 a b aDist bDist c) (k : Nat)
    {sample : Voxel} (hs : TrilinearAccess s (rayPoint ray_origin ray_dir c) = .ok (true, sample)) :
    ∃ a1 b1 aDist1 bDist1 c1,
      findIntersectionBisectionLoop s ray_origin ray_dir t1 t2 (k + 1) a b aDist bDist c
        = findIntersectionBisectionLoop s ray_origin ray_dir t1 t2 k a1 b1 aDist1 bDist1 c1 ∧
      BisectionInv t1 t2 a1 b1 aDist1 bDist1 c1 ∧ a ≤ a1 ∧ b1 ≤ b := by
  have hstep := h.step sample.distance
  obtain ⟨h1, h2, h3, h4, h5, h6, _⟩ := h
  have hc1 : t1 ≤ c := by linarith
  have hc2 : c ≤ t2 := by linarith
  have hs' : TrilinearAccess s (ray_origin.add (ray_dir.scale c)) = .ok (true, sample) := hs
  by_cases hpos : 0 < aDist * sample.distance
  · obtain ⟨c1, hIL, hinv⟩ := hstep.1 hpos
    refine ⟨c, b, sample.distance, bDist, c1, ?_, hinv, h2, le_refl _⟩
    rw [findIntersectionBisectionLoop]
    simp only [hc1, hc2, not_true, if_false, hs', hpos, if_true, hIL]
  · obtain ⟨c1, hIL, hinv⟩ := hstep.2 hpos
    refine ⟨a, c, aDist, sample.distance, c1, ?_, hinv, le_refl _, h3⟩
    rw [findIntersectionBisectionLoop]
    simp only [hc1, hc2, not_true, if_false, hs', hpos, hIL]

theorem findIntersectionBisectionLoop_false {s : SparseTSDF} (ray_origin ray_dir : vec3)
    {t1 t2 a b aDist bDist c : Rat} (h : BisectionInv t1 t2 a b aDist bDist c) (k : Nat)
    {sample : Voxel} (hs : TrilinearAccess s (rayPoint ray_origin ray_dir c) = .ok (false, sample)) :
    findIntersectionBisectionLoop s ray_origin ray_dir t1 t2 (k + 1) a b aDist bDist c = .ok none := by
  obtain ⟨h1, h2, h3, h4, _, _, _⟩ := h
  have hc1 : t1 ≤ c := by linarith
  have hc2 : c ≤ t2 := by linarith
  have hs' : TrilinearAccess s (ray_origin.add (ray_dir.scale c)) = .ok (false, sample) := hs
  rw [findIntersectionBisectionLoop]
  simp only [hc1, hc2, not_true, if_false, hs']

theorem findIntersectionBisectionLoop_sound {s : SparseTSDF} (ray_origin ray_dir : vec3) (t1 t2 : Rat)
    (hTA : ∀ c, t1 ≤ c → c ≤ t2 →
      ∃ b v, TrilinearAccess s (rayPoint ray_origin ray_dir c) = .ok (b, v)) :
    ∀ (k : Nat) (a b aDist bDist c : Rat), BisectionInv t1 t2 a b aDist bDist c →
      ∃ r, findIntersectionBisectionLoop s ray_origin ray_dir t1 t2 k a b aDist bDist c = .ok r ∧
        (∀ t, r = some t → a ≤ t ∧ t ≤ b) ∧
        (r = none → ∃ c1 v, a ≤ c1 ∧ c1 ≤ b ∧
          TrilinearAccess s (rayPoint ray_origin ray_dir c1) = .ok (false, v))
  | 0, a, b, aDist, bDist, c, h => by
    refine ⟨some c, rfl, ?_, fun hn => by cases hn⟩
    intro t ht
    cases ht
    exact ⟨h.2.1, h.2.2.1⟩
  | k + 1, a, b, aDist, bDist, c, h => by
    obtain ⟨h1, h2, h3, h4, _, _, _⟩ := id h
    obtain ⟨tb, sample, hs⟩ := hTA c (by linarith) (by linarith)
    cases tb with
    | false =>
      refine ⟨none, findIntersectionBisectionLoop_false ray_origin ray_dir h k hs,
        fun t ht => (by cases ht), fun _ => ⟨c, sample, h2, h3, hs⟩⟩
    | true =>
      obtain ⟨a1, b1, aDist1, bDist1, c1, heq, hinv, ha, hb⟩ :=
        findIntersectionBisectionLoop_true ray_origin ray_dir h k hs
      obtain ⟨r, hr, hsome, hnone⟩ :=
        findIntersectionBisectionLoop_sound ray_origin ray_dir t1 t2 hTA k a1 b1 aDist1 bDist1 c1 hinv
      refine ⟨r, by rw [heq]; exact hr, ?_, ?_⟩
      · intro t ht
        obtain ⟨hlo, hhi⟩ := hsome t ht
        exact ⟨by linarith, by linarith⟩
      · intro hn
        obtain ⟨c2, v, hlo, hhi, hv⟩ := hnone hn
        exact ⟨c2, v, by linarith, by linarith, hv⟩

theorem RaySurfaceIntersectionLoop_verbose (s : SparseTSDF) (n n1 : Nat) (ray_origin ray_dir : vec3)
    (max_t step : Rat) :
    ∀ (fuel : Nat) (current_t last_t : Rat) (last_sample : Voxel),
      RaySurfaceIntersectionLoop s n ray_origin ray_dir max_t step true fuel current_t last_t last_sample
        = RaySurfaceIntersectionLoop s n1 ray_origin ray_dir max_t step true fuel current_t last_t
          last_sample
  | 0, _, _, _ => rfl
  | fuel + 1, current_t, last_t, last_sample => by
    have ih := RaySurfaceIntersectionLoop_verbose s n n1 ray_origin ray_dir max_t step fuel
    have hv : ∀ cur : Voxel, ¬ (true = false ∧ 0 < last_sample.weight ∧ 0 < last_sample.distance ∧
        cur.distance < 0) := fun _ h => Bool.noConfusion h.1
    rw [RaySurfaceIntersectionLoop, RaySurfaceIntersectionLoop]
    by_cases hdone : current_t < max_t
    · simp only [hdone, not_true, if_false]
      cases hTA : TrilinearAccess s (ray_origin.add (ray_dir.scale current_t)) with
      | error e => rfl
      | ok res =>
        obtain ⟨b, cur⟩ := res
        cases b with
        | false => exact ih _ _ _
        | true =>
          simp only []
          by_cases hpos : 0 < cur.weight
          · simp only [hpos, not_true, if_false]
            rw [if_neg (hv cur), if_neg (hv cur)]
            exact ih _ _ _
          · simp only [hpos, not_false_eq_true, if_true]
    · simp only [hdone, not_false_eq_true, if_true]

/-! ## Threads inserting one coordinate -/

theorem InsertBlockLock_eq_link {s : SparseTSDF} {c : ivec3} {h : Int}
    (hh : H s.hash_size c = .ok h) (hg : GetBlockAt s c h = .ok none)
    (hroom : ¬ (s.current_blocks < 0 ∨ (s.blocks.length : Int) ≤ s.current_blocks)) :
    InsertBlockLock s c
      = InsertBlockLockLink { s with current_blocks := s.current_blocks + 1 } c s.current_blocks := by
  unfold InsertBlockLock
  rw [hh]
  simp only []
  rw [hg]
  simp only []
  rw [if_neg hroom]
  rfl

theorem InsertFacts.intro (s : SparseTSDF) (c : ivec3) (inv : StoreInv s) (h1 : 1 ≤ s.hash_size)
    (h2 : s.hash_size < 2147483648) (hcap : s.current_blocks < (s.blocks.length : Int)) :
    ∃ (h0 slot : Int) (sF : SparseTSDF), InsertFacts s c h0 slot sF ∧
      InsertBlockLock s c = (.ok slot, sF) ∧ StoreInv sF ∧
      (Live s c → sF = s) ∧ (¬ Live s c → sF.current_blocks = s.current_blocks + 1) ∧
      ∃ a : Nat, slot = (a : Int) ∧ (a : Int) < sF.current_blocks ∧ indexAt sF.blocks a = some c := by
  have hh := H_ok s.hash_size c h1 (by omega)
  have h0 := inv.size_nonneg
  by_cases hc : Live s c
  · obtain ⟨a, ha, hca⟩ := hc
    have hid := inv.lookup_live ha hca
    have hgb := GetBlockAt_of_GetBlockId hh hid
    rw [if_pos (by omega)] at hgb
    refine ⟨_, (a : Int), s, ⟨hh, rfl, hgb, ?_, ?_, ?_⟩, InsertBlockLock_present hid (by omega), inv,
      fun _ => rfl, fun hn => absurd ⟨a, ha, hca⟩ hn, a, rfl, ha, hca⟩
    · exact fun hn => absurd ⟨a, ha, hca⟩ hn
    · exact fun hn => absurd ⟨a, ha, hca⟩ hn
    · exact fun hn => absurd ⟨a, ha, hca⟩ hn
  · have habs := inv.lookup_dead hh hc
    have hgb := GetBlockAt_of_GetBlockId hh habs
    rw [if_neg (by omega)] at hgb
    have hroom : ¬ (s.current_blocks < 0 ∨ (s.blocks.length : Int) ≤ s.current_blocks) := by omega
    obtain ⟨n, hn, head, b, bs, s1, hcur, hhn, hhead, hbs, hb, hs1, hins, inv1⟩ :=
      InsertBlock_absent inv habs (by omega)
    have hnb : n < bs.length := (List.getElem?_eq_some.1 hb).1
    have hlock : InsertBlockLock s c = (.ok s.current_blocks, s1) := by
      rw [InsertBlockLock_eq_InsertBlock c h0 hcap]; exact hins
    have hhs : s1.hash_size = s.hash_size := by rw [hs1]
    have hcur1 : s1.current_blocks = s.current_blocks + 1 := by rw [hs1]
    have hlt : (n : Int) < s1.current_blocks := by omega
    have hidx : indexAt s1.blocks n = some c := by
      rw [hs1]
      show indexAt (bs.set n _) n = some c
      simp [indexAt, List.getElem?_set, hnb]
    have hid1 := inv1.lookup_live hlt hidx
    have hgb1 := GetBlockAt_of_GetBlockId (by rw [hhs]; exact hh) hid1
    rw [if_pos (by omega)] at hgb1
    refine ⟨_, s.current_blocks, s1, ⟨hh, hhs, by rw [hcur]; exact hgb1, fun _ => hgb, fun _ => hroom, ?_⟩,
      hlock, inv1, fun hl => absurd hl hc, fun _ => hcur1, n, hcur, hlt, hidx⟩
    intro _
    rw [← InsertBlockLock_eq_link hh hgb hroom]
    exact hlock

theorem vecGet_vecSet_self {α : Type} {v : List α} {k : Int} {a : α} (b : α)
    (h : vecGet v k = .ok a) : vecGet (vecSet v k b) k = .ok b := by
  rw [vecGet_ok_iff] at h ⊢
  obtain ⟨hk, hv⟩ := h
  have hlt : k.toNat < v.length := (List.getElem?_eq_some.1 hv).1
  exact ⟨hk, by simp [vecSet, List.getElem?_set, hlt]⟩

theorem getElem?_set_thread (l : List ThreadState) (k j : Nat) (t : ThreadState) (hk : k < l.length) :
    (l.set k t)[j]? = if j = k then some t else l[j]? := by
  by_cases hjk : j = k
  · subst hjk
    simp [List.getElem?_set, hk]
  · simp [List.getElem?_set, hjk, Ne.symm hjk]

theorem sum_remainingSteps_set :
    ∀ (l : List ThreadState) (k : Nat) (t t1 : ThreadState), l[k]? = some t →
      remainingSteps t1 < remainingSteps t →
      ((l.set k t1).map remainingSteps).sum < (l.map remainingSteps).sum
  | [], k, t, t1, h, _ => by simp at h
  | x :: rest, 0, t, t1, h, hlt => by
    simp only [List.getElem?_cons_zero, Option.some.injEq] at h
    subst h
    simp only [List.set_cons_zero, List.map_cons, List.sum_cons]
    omega
  | x :: rest, k + 1, t, t1, h, hlt => by
    simp only [List.getElem?_cons_succ] at h
    have ih := sum_remainingSteps_set rest k t t1 h hlt
    simp only [List.set_cons_succ, List.map_cons, List.sum_cons]
    omega

theorem ThreadOk.outside {h0 slot n : Int} {phase : Nat} {holder : Option Nat} {j : Nat}
    {t : ThreadState} (h : ThreadOk h0 slot n phase holder j t) (hj : holder ≠ some j) :
    t = .start ∨ t = .hashed h0 ∨ (t = .done slot ∧ phase = 2) := by
  cases t with
  | start => exact Or.inl rfl
  | hashed h1 =>
    have h' : h1 = h0 := h
    exact Or.inr (Or.inl (by rw [h']))
  | locked h1 => exact absurd h.2.1 hj
  | adding h1 m => exact absurd h.2.2.1 hj
  | done r =>
    have h' : r = slot ∧ phase = 2 := h
    exact Or.inr (Or.inr ⟨by rw [h'.1], h'.2⟩)
  | failed e => exact absurd h id

theorem ThreadOk.of_outside {h0 slot n : Int} {phase phase1 : Nat} (holder1 : Option Nat) (j : Nat)
    {t : ThreadState} (h : t = .start ∨ t = .hashed h0 ∨ (t = .done slot ∧ phase = 2))
    (hp : phase = 2 → phase1 = 2) : ThreadOk h0 slot n phase1 holder1 j t := by
  rcases h with rfl | rfl | ⟨rfl, hp2⟩
  · exact trivial
  · exact rfl
  · exact ⟨rfl, hp hp2⟩

theorem ThreadsInv.hash {s : SparseTSDF} {c : ivec3} {h0 slot : Int} {sF : SparseTSDF} {cfg : Threads}
    {phase : Nat} {holder : Option Nat} (facts : InsertFacts s c h0 slot sF)
    (hinv : ThreadsInv s c h0 slot sF cfg phase holder) : H cfg.store.hash_size c = .ok h0 := by
  rcases hinv.store with ⟨_, hs⟩ | ⟨_, hs⟩ | ⟨_, hs⟩
  · rw [hs]; exact facts.hash
  · rw [hs]; exact facts.hash
  · rw [hs, facts.hashF]; exact facts.hash

theorem ThreadsInv.move {s : SparseTSDF} {c : ivec3} {h0 slot : Int} {sF : SparseTSDF} {cfg : Threads}
    {phase : Nat} {holder : Option Nat} (hinv : ThreadsInv s c h0 slot sF cfg phase holder)
    {k : Nat} {t : ThreadState} (hk : cfg.threads[k]? = some t) (hold : holder = none ∨ holder = some k)
    (cfg1 : Threads) (t1 : ThreadState) (phase1 : Nat) (holder1 : Option Nat)
    (hthreads : cfg1.threads = cfg.threads.set k t1)
    (hlocks : vecGet cfg1.hash_locks h0 = .ok holder1.isSome)
    (hstore : (phase1 = 0 ∧ cfg1.store = s) ∨
      (phase1 = 1 ∧ cfg1.store = { s with current_blocks := s.current_blocks + 1 }) ∨
      (phase1 = 2 ∧ cfg1.store = sF))
    (hbusy : phase1 = 1 → holder1 ≠ none) (hfresh : phase1 ≠ 2 → ¬ Live s c)
    (hmono : phase = 2 → phase1 = 2)
    (hok : ThreadOk h0 slot s.current_blocks phase1 holder1 k t1)
    (hholder : holder1 = none ∨
      (holder1 = some k ∧ (t1 = .locked h0 ∨ t1 = .adding h0 s.current_blocks))) :
    ThreadsInv s c h0 slot sF cfg1 phase1 holder1 := by
  have hklt : k < cfg.threads.length := (List.getElem?_eq_some.1 hk).1
  refine ⟨hlocks, ?_, ?_, hstore, hbusy, hfresh⟩
  · intro k1 hk1
    rcases hholder with hn | ⟨hs, ht1⟩
    · rw [hn] at hk1; cases hk1
    · rw [hs] at hk1
      injection hk1 with hk1
      subst hk1
      exact ⟨t1, by rw [hthreads, getElem?_set_thread _ _ _ _ hklt, if_pos rfl], ht1⟩
  · intro j tj hj
    rw [hthreads, getElem?_set_thread _ _ _ _ hklt] at hj
    by_cases hjk : j = k
    · rw [if_pos hjk] at hj
      injection hj with hj
      rw [← hj, hjk]
      exact hok
    · rw [if_neg hjk] at hj
      have hne : holder ≠ some j := by
        rcases hold with hn | hs
        · rw [hn]; exact fun h => Option.noConfusion h
        · rw [hs]
          intro h
          injection h with h
          exact hjk h.symm
      exact ThreadOk.of_outside holder1 j ((hinv.threads j tj hj).outside hne) hmono

theorem ThreadsInv.stay {s : SparseTSDF} {c : ivec3} {h0 slot : Int} {sF : SparseTSDF} {cfg : Threads}
    {phase : Nat} {holder : Option Nat} (hinv : ThreadsInv s c h0 slot sF cfg phase holder)
    {k : Nat} (hk : cfg.threads[k]? = some .start) (cfg1 : Threads)
    (hthreads : cfg1.threads = cfg.threads.set k (.hashed h0))
    (hlocks : cfg1.hash_locks = cfg.hash_locks) (hstore : cfg1.store = cfg.store) :
    ThreadsInv s c h0 slot sF cfg1 phase holder := by
  have hklt : k < cfg.threads.length := (List.getElem?_eq_some.1 hk).1
  refine ⟨by rw [hlocks]; exact hinv.locks, ?_, ?_, by rw [hstore]; exact hinv.store, hinv.busy,
    hinv.fresh⟩
  · intro k1 hk1
    obtain ⟨t, ht, hcase⟩ := hinv.holds k1 hk1
    have hne : k1 ≠ k := by
      rintro rfl
      rw [hk] at ht
      injection ht with ht
      rcases hcase with h | h <;> rw [← ht] at h <;> cases h
    exact ⟨t, by rw [hthreads, getElem?_set_thread _ _ _ _ hklt, if_neg hne]; exact ht, hcase⟩
  · intro j tj hj
    rw [hthreads, getElem?_set_thread _ _ _ _ hklt] at hj
    by_cases hjk : j = k
    · rw [if_pos hjk] at hj
      injection hj with hj
      rw [← hj]
      exact rfl
    · rw [if_neg hjk] at hj
      exact hinv.threads j tj hj

theorem threadStep_inv {s : SparseTSDF} {c : ivec3} {h0 slot : Int} {sF : SparseTSDF}
    (facts : InsertFacts s c h0 slot sF) {cfg : Threads} {phase : Nat} {holder : Option Nat}
    (hinv : ThreadsInv s c h0 slot sF cfg phase holder) (k : Nat) :
    ∃ phase1 holder1, ThreadsInv s c h0 slot sF (threadStep c cfg k) phase1 holder1 ∧
      (threadStep c cfg k).threads.length = cfg.threads.length ∧
      (∀ t, cfg.threads[k]? = some t → (∀ r, t ≠ .done r) → (holder = none ∨ holder = some k) →
        ∃ t1, (threadStep c cfg k).threads = cfg.threads.set k t1 ∧
          remainingSteps t1 < remainingSteps t) := by
  cases hk : cfg.threads[k]? with
  | none =>
    have hstep : threadStep c cfg k = cfg := by simp only [threadStep, hk]
    rw [hstep]
    exact ⟨phase, holder, hinv, rfl, fun t ht => by cases ht⟩
  | some t =>
    have hok := hinv.threads k t hk
    cases t with
    | start =>
      have hH := hinv.hash facts
      have hstep : threadStep c cfg k = { cfg with threads := cfg.threads.set k (.hashed h0) } := by
        simp only [threadStep, hk, hH]
      rw [hstep]
      refine ⟨phase, holder, hinv.stay hk _ rfl rfl rfl, by simp, ?_⟩
      intro t ht _ _
      injection ht with ht
      subst ht
      exact ⟨.hashed h0, rfl, by simp [remainingSteps]⟩
    | hashed h =>
      have hh : h = h0 := hok
      subst hh
      cases hholder : holder with
      | none =>
        have hl : vecGet cfg.hash_locks h = .ok false := by
          have := hinv.locks
          rw [hholder] at this
          exact this
        have hstep : threadStep c cfg k = { cfg with
            hash_locks := vecSet cfg.hash_locks h true
            threads := cfg.threads.set k (.locked h) } := by
          simp only [threadStep, hk, hl]
        rw [hstep]
        have hp1 : phase ≠ 1 := fun hp => hinv.busy hp hholder
        refine ⟨phase, some k, hinv.move hk (Or.inl hholder) _ (.locked h) phase (some k) rfl
          (vecGet_vecSet_self true hl) hinv.store (fun _ h => Option.noConfusion h) hinv.fresh id
          ⟨rfl, rfl, hp1⟩ (Or.inr ⟨rfl, Or.inl rfl⟩), by simp, ?_⟩
        intro t ht _ _
        injection ht with ht
        subst ht
        exact ⟨.locked h, rfl, by simp [remainingSteps]⟩
      | some j =>
        have hl : vecGet cfg.hash_locks h = .ok true := by
          have := hinv.locks
          rw [hholder] at this
          exact this
        have hstep : threadStep c cfg k = cfg := by
          simp only [threadStep, hk, hl]
        rw [hstep]
        refine ⟨phase, holder, hinv, rfl, ?_⟩
        intro t ht _ hold
        exfalso
        have hjk : j = k := by
          rcases hold with h1 | h1
          · cases h1
          · injection h1
        subst hjk
        obtain ⟨t2, ht2, hcase⟩ := hinv.holds j hholder
        rw [hk] at ht2
        injection ht2 with ht2
        rcases hcase with h1 | h1 <;> rw [← ht2] at h1 <;> cases h1
    | locked h =>
      obtain ⟨hh, hholder, hp1⟩ : h = h0 ∧ holder = some k ∧ phase ≠ 1 := hok
      subst hh
      have hl : vecGet cfg.hash_locks h = .ok true := by
        have := hinv.locks
        rw [hholder] at this
        exact this
      rcases hinv.store with ⟨hp, hs⟩ | ⟨hp, hs⟩ | ⟨hp, hs⟩
      · have hfresh := hinv.fresh (by omega)
        have hg := facts.absent hfresh
        have hroom := facts.room hfresh
        have hstep : threadStep c cfg k = { cfg with
            store := { s with current_blocks := s.current_blocks + 1 }
            threads := cfg.threads.set k (.adding h s.current_blocks) } := by
          simp only [threadStep, hk, hs, hg, hroom, if_false]
        rw [hstep]
        refine ⟨1, some k, hinv.move hk (Or.inr hholder) _ (.adding h s.current_blocks) 1 (some k) rfl
          (by show vecGet cfg.hash_locks h = .ok true; exact hl) (Or.inr (Or.inl ⟨rfl, rfl⟩))
          (fun _ h => Option.noConfusion h) (fun _ => hfresh) (fun h2 => by omega)
          ⟨rfl, rfl, rfl, rfl⟩ (Or.inr ⟨rfl, Or.inr rfl⟩), by simp, ?_⟩
        intro t ht _ _
        injection ht with ht
        subst ht
        exact ⟨.adding h s.current_blocks, rfl, by simp [remainingSteps]⟩
      · exact absurd hp hp1
      · have hg := facts.found
        have hstep : threadStep c cfg k = { cfg with
            hash_locks := vecSet cfg.hash_locks h false
            threads := cfg.threads.set k (.done slot) } := by
          simp only [threadStep, hk, hs, hg]
        rw [hstep]
        refine ⟨2, none, hinv.move hk (Or.inr hholder) _ (.done slot) 2 none rfl
          (vecGet_vecSet_self false hl) (Or.inr (Or.inr ⟨rfl, hs⟩))
          (fun h => by omega) (fun h => absurd rfl h) (fun _ => rfl)
          ⟨rfl, rfl⟩ (Or.inl rfl), by simp, ?_⟩
        intro t ht _ _
        injection ht with ht
        subst ht
        exact ⟨.done slot, rfl, by simp [remainingSteps]⟩
    | adding h m =>
      obtain ⟨hh, hm, hholder, hp1⟩ : h = h0 ∧ m = s.current_blocks ∧ holder = some k ∧ phase = 1 := hok
      subst hh
      subst hm
      have hl : vecGet cfg.hash_locks h = .ok true := by
        have := hinv.locks
        rw [hholder] at this
        exact this
      have hfresh := hinv.fresh (by omega)
      have hs : cfg.store = { s with current_blocks := s.current_blocks + 1 } := by
        rcases hinv.store with ⟨hp, _⟩ | ⟨_, hs⟩ | ⟨hp, _⟩
        · omega
        · exact hs
        · omega
      have hlink := facts.link hfresh
      have hstep : threadStep c cfg k =
          { store := sF
            hash_locks := vecSet cfg.hash_locks h false
            threads := cfg.threads.set k (.done slot) } := by
        simp only [threadStep, hk, hs, hlink]
      rw [hstep]
      refine ⟨2, none, hinv.move hk (Or.inr hholder) _ (.done slot) 2 none rfl
        (vecGet_vecSet_self false hl) (Or.inr (Or.inr ⟨rfl, rfl⟩))
        (fun h => by omega) (fun h => absurd rfl h) (fun _ => rfl)
        ⟨rfl, rfl⟩ (Or.inl rfl), by simp, ?_⟩
      intro t ht _ _
      injection ht with ht
      subst ht
      exact ⟨.done slot, rfl, by simp [remainingSteps]⟩
    | done r =>
      have hstep : threadStep c cfg k = cfg := by simp only [threadStep, hk]
      rw [hstep]
      refine ⟨phase, holder, hinv, rfl, ?_⟩
      intro t ht hnd _
      injection ht with ht
      exact absurd ht.symm (hnd r)
    | failed e => exact absurd hok id

theorem ThreadsInv.at_start {s : SparseTSDF} {c : ivec3} {h0 slot : Int} {sF : SparseTSDF}
    (facts : InsertFacts s c h0 slot sF) (hlive : Live s c → sF = s) (n : Nat) :
    ∃ phase, ThreadsInv s c h0 slot sF (Threads.init s n) phase none := by
  obtain ⟨hlo, hhi⟩ := H_range _ _ _ facts.hash
  have hlocks : vecGet (Threads.init s n).hash_locks h0 = .ok false := by
    rw [vecGet_ok_iff]
    refine ⟨hlo, ?_⟩
    show (List.replicate s.hash_size false)[h0.toNat]? = some false
    rw [List.getElem?_replicate]
    simp only [ite_eq_left_iff, not_lt, reduceCtorEq, imp_false, not_le]
    omega
  have hthreads : ∀ (phase : Nat) (k : Nat) (t : ThreadState), (Threads.init s n).threads[k]? = some t →
      ThreadOk h0 slot s.current_blocks phase none k t := by
    intro phase k t ht
    have ht' : (List.replicate n ThreadState.start)[k]? = some t := ht
    rw [List.getElem?_replicate] at ht'
    split at ht'
    · injection ht' with ht'
      rw [← ht']
      exact trivial
    · cases ht'
  by_cases hc : Live s c
  · exact ⟨2, hlocks, fun k hk => (by cases hk), hthreads 2, Or.inr (Or.inr ⟨rfl, (hlive hc).symm⟩),
      (fun h => by omega), fun h => absurd rfl h⟩
  · exact ⟨0, hlocks, fun k hk => (by cases hk), hthreads 0, Or.inl ⟨rfl, rfl⟩,
      (fun h => by omega), fun _ => hc⟩

theorem runSchedule_inv {s : SparseTSDF} {c : ivec3} {h0 slot : Int} {sF : SparseTSDF}
    (facts : InsertFacts s c h0 slot sF) :
    ∀ (schedule : List Nat) (cfg : Threads) (phase : Nat) (holder : Option Nat),
      ThreadsInv s c h0 slot sF cfg phase holder →
      ∃ phase1 holder1, ThreadsInv s c h0 slot sF (runSchedule c cfg schedule) phase1 holder1 ∧
        (runSchedule c cfg schedule).threads.length = cfg.threads.length
  | [], cfg, phase, holder, hinv => ⟨phase, holder, hinv, rfl⟩
  | k :: rest, cfg, phase, holder, hinv => by
    obtain ⟨phase1, holder1, hinv1, hlen1, _⟩ := threadStep_inv facts hinv k
    obtain ⟨phase2, holder2, hinv2, hlen2⟩ := runSchedule_inv facts rest _ phase1 holder1 hinv1
    exact ⟨phase2, holder2, hinv2, by rw [← hlen1]; exact hlen2⟩

theorem runSchedule_append (c : ivec3) (cfg : Threads) (l1 l2 : List Nat) :
    runSchedule c cfg (l1 ++ l2) = runSchedule c (runSchedule c cfg l1) l2 := by
  simp [runSchedule, List.foldl_append]

theorem runSchedule_complete {s : SparseTSDF} {c : ivec3} {h0 slot : Int} {sF : SparseTSDF}
    (facts : InsertFacts s c h0 slot sF) :
    ∀ (n : Nat) (cfg : Threads) (phase : Nat) (holder : Option Nat),
      ThreadsInv s c h0 slot sF cfg phase holder → (cfg.threads.map remainingSteps).sum ≤ n →
      ∃ ext : List Nat, ∀ t ∈ (runSchedule c cfg ext).threads, ∃ r, t = .done r := by
  intro n
  induction n with
  | zero =>
    intro cfg phase holder hinv hsum
    refine ⟨[], ?_⟩
    intro t ht
    obtain ⟨k, hklt, hkt⟩ := List.getElem_of_mem ht
    have hk : cfg.threads[k]? = some t := by
      rw [List.getElem?_eq_some]
      exact ⟨hklt, hkt⟩
    by_contra hnd
    have hnd' : ∀ r, t ≠ .done r := fun r h => hnd ⟨r, h⟩
    have hok := hinv.threads k t hk
    have hrem : 0 < remainingSteps t := by
      cases t with
      | start => simp [remainingSteps]
      | hashed h => simp [remainingSteps]
      | locked h => simp [remainingSteps]
      | adding h m => simp [remainingSteps]
      | done r => exact absurd rfl (hnd' r)
      | failed e => exact absurd hok id
    have hle : remainingSteps t ≤ (cfg.threads.map remainingSteps).sum :=
      List.single_le_sum (fun _ _ => Nat.zero_le _) _ (List.mem_map_of_mem _ ht)
    have hsum' : (List.map remainingSteps cfg.threads).sum ≤ 0 := hsum
    omega
  | succ n ih =>
    intro cfg phase holder hinv hsum
    by_cases hall : ∀ t ∈ cfg.threads, ∃ r, t = ThreadState.done r
    · exact ⟨[], hall⟩
    · push_neg at hall
      obtain ⟨t, ht, hnd⟩ := hall
      obtain ⟨j, hjlt, hjt⟩ := List.getElem_of_mem ht
      have hj : cfg.threads[j]? = some t := by
        rw [List.getElem?_eq_some]
        exact ⟨hjlt, hjt⟩
      have hpick : ∃ k t2, cfg.threads[k]? = some t2 ∧ (∀ r, t2 ≠ .done r) ∧
          (holder = none ∨ holder = some k) := by
        cases hholder : holder with
        | none => exact ⟨j, t, hj, hnd, Or.inl rfl⟩
        | some k =>
          obtain ⟨t2, ht2, hcase⟩ := hinv.holds k hholder
          refine ⟨k, t2, ht2, ?_, Or.inr rfl⟩
          intro r hr
          rcases hcase with h | h <;> rw [hr] at h <;> cases h
      obtain ⟨k, t2, hk, hnd2, hold⟩ := hpick
      obtain ⟨phase1, holder1, hinv1, _, hprog⟩ := threadStep_inv facts hinv k
      obtain ⟨t1, hset, hlt⟩ := hprog t2 hk hnd2 hold
      have hdec := sum_remainingSteps_set cfg.threads k t2 t1 hk hlt
      rw [← hset] at hdec
      obtain ⟨ext, hext⟩ := ih (threadStep c cfg k) phase1 holder1 hinv1 (by omega)
      exact ⟨k :: ext, hext⟩

/-! ## The specification, claim by claim -/

/-- C1. After any sequence of `InsertBlock` and `EraseBlock` calls on a freshly constructed
store (capacity >= 1, 1 <= hash_size < 2^31) in which every `EraseBlock` targets a
coordinate live at that moment, the run returns, and for every coordinate `c`:
`GetBlockId(c)` returns a slot >= 0 whose block has index `c` if and only if `c` was inserted
and not subsequently erased; otherwise it returns -1. -/
theorem GetBlockId_after_inserts_and_erases (voxel_size : Rat) (reserve_blocks hash_size : Nat)
    (ops : List Op) (hcap : 1 ≤ reserve_blocks) (h1 : 1 ≤ hash_size)
    (h2 : hash_size < 2147483648) (hvalid : ErasesTargetLive ops) :
    ∃ s, run (SparseTSDF.init voxel_size reserve_blocks hash_size) ops = .ok s ∧
      ∀ c : ivec3,
        ((∃ a : Nat, GetBlockId s c = .ok (a : Int) ∧ indexAt s.blocks a = some c) ↔
          InsertedNotErased ops c) ∧
        (¬ InsertedNotErased ops c → GetBlockId s c = .ok (-1)) := by
  obtain ⟨s, hrun, inv, _, hhs, hlive, _, _⟩ :=
    run_fresh_spec voxel_size reserve_blocks hash_size hcap h1 h2 ops hvalid
  refine ⟨s, hrun, fun c => ⟨⟨?_, ?_⟩, ?_⟩⟩
  · rintro ⟨a, hid, hca⟩
    rcases inv.lookup_ok hid with ⟨hneg, _⟩ | ⟨a', _, ha', hca'⟩
    · omega
    · exact (hlive c).1 ⟨a', ha', hca'⟩
  · intro h
    obtain ⟨a, ha, hca⟩ := (hlive c).2 h
    exact ⟨a, inv.lookup_live ha hca, hca⟩
  · intro h
    have hh := H_ok s.hash_size c (by omega) (by omega)
    exact inv.lookup_dead hh (fun hl => h ((hlive c).1 hl))

theorem GetBlockId_after_inserts_and_erases_witness :
    (1 ≤ 2 ∧ 1 ≤ 1 ∧ 1 < 2147483648 ∧ ErasesTargetLive exampleOps) ∧
      ∃ s, run (SparseTSDF.init (1 / 100) 2 1) exampleOps = .ok s ∧
        ∀ c : ivec3,
          ((∃ a : Nat, GetBlockId s c = .ok (a : Int) ∧ indexAt s.blocks a = some c) ↔
            InsertedNotErased exampleOps c) ∧
          (¬ InsertedNotErased exampleOps c → GetBlockId s c = .ok (-1)) :=
  ⟨⟨by decide, by decide, by decide, exampleOps_valid⟩,
    GetBlockId_after_inserts_and_erases (1 / 100) 2 1 exampleOps (by decide) (by decide)
      (by decide) exampleOps_valid⟩

/-- C2. After any sequence of `InsertBlock` and `EraseBlock` calls on a freshly constructed
store (capacity >= 1, 1 <= hash_size < 2^31) in which every `EraseBlock` targets a live
coordinate, the run returns and `Size()` is the number of distinct live coordinates, which
is the number of `InsertBlock` calls that found their coordinate absent minus the number of
`EraseBlock` calls. -/
theorem Size_after_inserts_and_erases (voxel_size : Rat) (reserve_blocks hash_size : Nat)
    (ops : List Op) (hcap : 1 ≤ reserve_blocks) (h1 : 1 ≤ hash_size)
    (h2 : hash_size < 2147483648) (hvalid : ErasesTargetLive ops) :
    ∃ s, run (SparseTSDF.init voxel_size reserve_blocks hash_size) ops = .ok s ∧
      (liveCoords ops).Nodup ∧ (∀ c, c ∈ liveCoords ops ↔ InsertedNotErased ops c) ∧
      Size s = ((liveCoords ops).length : Int) ∧
      Size s = (freshInserts (SparseTSDF.init voxel_size reserve_blocks hash_size) ops : Int)
        - (eraseCalls ops : Int) := by
  obtain ⟨s, hrun, _, _, _, _, hcur, hcount⟩ :=
    run_fresh_spec voxel_size reserve_blocks hash_size hcap h1 h2 ops hvalid
  exact ⟨s, hrun, (liveCoords_spec ops).1, (liveCoords_spec ops).2, hcur, hcount⟩

theorem Size_after_inserts_and_erases_witness :
    (1 ≤ 2 ∧ 1 ≤ 1 ∧ 1 < 2147483648 ∧ ErasesTargetLive exampleOps) ∧
      ∃ s, run (SparseTSDF.init (1 / 100) 2 1) exampleOps = .ok s ∧
        (liveCoords exampleOps).Nodup ∧
        (∀ c, c ∈ liveCoords exampleOps ↔ InsertedNotErased exampleOps c) ∧
        Size s = ((liveCoords exampleOps).length : Int) ∧
        Size s = (freshInserts (SparseTSDF.init (1 / 100) 2 1) exampleOps : Int)
          - (eraseCalls exampleOps : Int) :=
  ⟨⟨by decide, by decide, by decide, exampleOps_valid⟩,
    Size_after_inserts_and_erases (1 / 100) 2 1 exampleOps (by decide) (by decide) (by decide)
      exampleOps_valid⟩

/-- C3. After `InsertBlock((0,0,0))`, a write of voxel `{1, 1}` into `data[0][0][0]` of the
returned block and `EraseBlock((0,0,0))`, the coordinate is absent, and `InsertBlock((0,0,0))`
returns slot 0 with `data[0][0][0]` still `{1, 1}`: the voxels are not reset to the default. -/
theorem InsertBlock_after_erase_keeps_voxels :
    GetBlockId (EraseBlock exampleWritten ⟨0, 0, 0⟩).2 ⟨0, 0, 0⟩ = .ok (-1) ∧
      (InsertBlock (EraseBlock exampleWritten ⟨0, 0, 0⟩).2 ⟨0, 0, 0⟩).1 = .ok 0 ∧
      ((InsertBlock (EraseBlock exampleWritten ⟨0, 0, 0⟩).2 ⟨0, 0, 0⟩).2.blocks.map
        (fun b => b.data 0 0 0)) = [⟨1, 1⟩, ⟨0, 0⟩] ∧
      (⟨1, 1⟩ : Voxel) ≠ ⟨0, 0⟩ :=
  ⟨rfl, rfl, rfl, by decide⟩

/-- C4. `InsertBlock` is idempotent: when `GetBlockId(c)` finds `c` in slot `id >= 0`,
`InsertBlock(c)` returns that slot and the store (counter, capacity, bucket heads and every
block) is unchanged. -/
theorem InsertBlock_idempotent (s : SparseTSDF) (c : ivec3) (id : Int)
    (hid : GetBlockId s c = .ok id) (hlive : 0 ≤ id) : InsertBlock s c = (.ok id, s) :=
  InsertBlock_present hid hlive

theorem InsertBlock_idempotent_witness :
    GetBlockId exampleOne ⟨0, 0, 0⟩ = .ok 0 ∧ InsertBlock exampleOne ⟨0, 0, 0⟩ = (.ok 0, exampleOne) :=
  ⟨rfl, InsertBlock_idempotent exampleOne ⟨0, 0, 0⟩ 0 rfl (by decide)⟩

/-- C5. On the store constructed with `reserve_blocks = 0`, which satisfies the store
invariants and has no live coordinate, `InsertBlock` doubles the capacity 0 to 0 and then
accesses `blocks[0]` outside the array instead of returning slot 0. -/
theorem InsertBlock_out_of_range_without_capacity :
    StoreInv exampleNoCapacity ∧ GetBlockId exampleNoCapacity ⟨0, 0, 0⟩ = .ok (-1) ∧
      InsertBlock exampleNoCapacity ⟨0, 0, 0⟩
        = (.error .out_of_range, { exampleNoCapacity with current_blocks := 1 }) :=
  ⟨StoreInv.init _ _ _, rfl, rfl⟩

/-- C6. On a store satisfying the invariants, `EraseBlock` of a live coordinate `c` returns
true; afterwards `GetBlockId(c)` is -1, no slot of any bucket chain holds `c`, and
`current_blocks` is one less. -/
theorem EraseBlock_removes_live (s : SparseTSDF) (c : ivec3) (inv : StoreInv s) (hlive : Live s c) :
    ∃ s1, EraseBlock s c = (.ok true, s1) ∧ GetBlockId s1 c = .ok (-1) ∧
      (∀ (h : Nat) (head : Int) (l : List Nat), s1.first_hashed_block[h]? = some head →
        IsChain s1.blocks head l → ∀ x ∈ l, indexAt s1.blocks x ≠ some c) ∧
      s1.current_blocks = s.current_blocks - 1 := by
  obtain ⟨a, ha, hca⟩ := hlive
  obtain ⟨s1, heq, post⟩ := EraseBlock_live inv ha hca
  obtain ⟨c0, h, hc0, hh⟩ := inv.index.stored a ha
  rw [hca] at hc0
  cases hc0
  have hdead : ¬ Live s1 c := fun hl => ((post.live_iff inv ha hca c).1 hl).1 rfl
  refine ⟨s1, heq, post.inv.lookup_dead (by rw [post.hash_size]; exact hh) hdead, ?_,
    post.current_blocks⟩
  intro h head l hh hl
  exact post.inv.no_chain_of_not_live hdead h head l hh hl

theorem EraseBlock_removes_live_witness :
    StoreInv exampleOne ∧ Live exampleOne ⟨0, 0, 0⟩ ∧
      ∃ s1, EraseBlock exampleOne ⟨0, 0, 0⟩ = (.ok true, s1) ∧ GetBlockId s1 ⟨0, 0, 0⟩ = .ok (-1) ∧
        (∀ (h : Nat) (head : Int) (l : List Nat), s1.first_hashed_block[h]? = some head →
          IsChain s1.blocks head l → ∀ x ∈ l, indexAt s1.blocks x ≠ some ⟨0, 0, 0⟩) ∧
        s1.current_blocks = exampleOne.current_blocks - 1 :=
  ⟨exampleOne_inv, ⟨0, by decide, rfl⟩,
    EraseBlock_removes_live exampleOne ⟨0, 0, 0⟩ exampleOne_inv ⟨0, by decide, rfl⟩⟩

/-- C7. On a store satisfying the invariants with `n = current_blocks`, erasing the
coordinate `c` of live slot `a` leaves the invariants in force for the live slots
`0 .. n - 2`. When `a < n - 1`, the block of slot `n - 1` (same index, same voxels) is
then stored in slot `a` and is the head of the chain of its bucket. When `a = n - 1`,
every slot keeps its index and voxels. -/
theorem EraseBlock_relocates_last (s : SparseTSDF) (c : ivec3) (a : Nat) (inv : StoreInv s)
    (ha : (a : Int) < s.current_blocks) (hca : indexAt s.blocks a = some c) :
    ∃ s1, EraseBlock s c = (.ok true, s1) ∧ s1.current_blocks = s.current_blocks - 1 ∧ StoreInv s1 ∧
      ((a : Int) < s.current_blocks - 1 →
        ∃ (m : Nat) (cm : ivec3) (hm : Int), (m : Int) = s.current_blocks - 1 ∧
          indexAt s.blocks m = some cm ∧ indexAt s1.blocks a = some cm ∧
          dataAt s1.blocks a = dataAt s.blocks m ∧
          H s1.hash_size cm = .ok hm ∧ vecGet s1.first_hashed_block hm = .ok (a : Int)) ∧
      ((a : Int) = s.current_blocks - 1 →
        ∀ x, indexAt s1.blocks x = indexAt s.blocks x ∧ dataAt s1.blocks x = dataAt s.blocks x) := by
  obtain ⟨s1, heq, post⟩ := EraseBlock_live inv ha hca
  refine ⟨s1, heq, post.current_blocks, post.inv, ?_, post.last⟩
  intro hlt
  obtain ⟨m, hm, cm, hm1, hcm, hhm, hhead, hia, hda, _⟩ := post.middle (by omega)
  exact ⟨m, cm, hm, hm1, hcm, hia, hda, by rw [post.hash_size]; exact hhm, vecGet_natCast _ _ _ hhead⟩

theorem EraseBlock_relocates_last_witness :
    StoreInv exampleTwo ∧ ((0 : Nat) : Int) < exampleTwo.current_blocks ∧
      indexAt exampleTwo.blocks 0 = some ⟨0, 0, 0⟩ ∧
      ∃ s1, EraseBlock exampleTwo ⟨0, 0, 0⟩ = (.ok true, s1) ∧
        s1.current_blocks = exampleTwo.current_blocks - 1 ∧ StoreInv s1 ∧
        (((0 : Nat) : Int) < exampleTwo.current_blocks - 1 →
          ∃ (m : Nat) (cm : ivec3) (hm : Int), (m : Int) = exampleTwo.current_blocks - 1 ∧
            indexAt exampleTwo.blocks m = some cm ∧ indexAt s1.blocks 0 = some cm ∧
            dataAt s1.blocks 0 = dataAt exampleTwo.blocks m ∧
            H s1.hash_size cm = .ok hm ∧ vecGet s1.first_hashed_block hm = .ok ((0 : Nat) : Int)) ∧
        (((0 : Nat) : Int) = exampleTwo.current_blocks - 1 →
          ∀ x, indexAt s1.blocks x = indexAt exampleTwo.blocks x ∧
            dataAt s1.blocks x = dataAt exampleTwo.blocks x) :=
  ⟨exampleTwo_inv, by decide, rfl,
    EraseBlock_relocates_last exampleTwo ⟨0, 0, 0⟩ 0 exampleTwo_inv (by decide) rfl⟩

/-- C8. In every store reachable from a freshly constructed one by `InsertBlock`,
`EraseBlock` of a live coordinate, `Clear` and `Compact`, the store invariants hold, and
with them: (1) the coordinates of the live slots are pairwise distinct; (2) for every live
slot the chain of the bucket of its coordinate contains the slot exactly once; (3) the
chain of every bucket contains only live slots, visits no slot twice and ends at -1. -/
theorem reachable_store_invariants (s : SparseTSDF) (hr : Reachable s) :
    StoreInv s ∧
    (∀ (a b : Nat) (c : ivec3), (a : Int) < s.current_blocks → (b : Int) < s.current_blocks →
      indexAt s.blocks a = some c → indexAt s.blocks b = some c → a = b) ∧
    (∀ a : Nat, (a : Int) < s.current_blocks →
      ∃ (c : ivec3) (h head : Int) (l : List Nat), indexAt s.blocks a = some c ∧
        H s.hash_size c = .ok h ∧ vecGet s.first_hashed_block h = .ok head ∧
        IsChain s.blocks head l ∧ l.count a = 1) ∧
    (∀ (h : Nat) (head : Int), s.first_hashed_block[h]? = some head →
      ∃ l : List Nat, IsChain s.blocks head l ∧ l.Nodup ∧ ∀ x ∈ l, (x : Int) < s.current_blocks) := by
  have inv := hr.inv
  refine ⟨inv, ?_, ?_, ?_⟩
  · intro a b c ha hb hca hcb
    exact inv.index.distinct a b c ha hb hca hcb
  · intro a ha
    obtain ⟨c, h, hc, hh⟩ := inv.index.stored a ha
    obtain ⟨hn, head, l, rfl, _, hget, hl1, hl2, hl3⟩ := inv.index.bucket hh
    exact ⟨c, hn, head, l, hc, hh, hget, hl1,
      List.count_eq_one_of_mem hl2 ((hl3 a).2 ⟨ha, c, hc, hh⟩)⟩
  · intro h head hh
    obtain ⟨l, hl1, hl2, hl3⟩ := inv.index.chains h head hh
    exact ⟨l, hl1, hl2, fun x hx => ((hl3 x).1 hx).1⟩

theorem reachable_store_invariants_witness :
    Reachable exampleTwo ∧ StoreInv exampleTwo ∧
    (∀ (a b : Nat) (c : ivec3), (a : Int) < exampleTwo.current_blocks →
      (b : Int) < exampleTwo.current_blocks →
      indexAt exampleTwo.blocks a = some c → indexAt exampleTwo.blocks b = some c → a = b) ∧
    (∀ a : Nat, (a : Int) < exampleTwo.current_blocks →
      ∃ (c : ivec3) (h head : Int) (l : List Nat), indexAt exampleTwo.blocks a = some c ∧
        H exampleTwo.hash_size c = .ok h ∧ vecGet exampleTwo.first_hashed_block h = .ok head ∧
        IsChain exampleTwo.blocks head l ∧ l.count a = 1) ∧
    (∀ (h : Nat) (head : Int), exampleTwo.first_hashed_block[h]? = some head →
      ∃ l : List Nat, IsChain exampleTwo.blocks head l ∧ l.Nodup ∧
        ∀ x ∈ l, (x : Int) < exampleTwo.current_blocks) :=
  have hr : Reachable exampleTwo :=
    Reachable.insert ⟨1, 0, 0⟩ 1
      (Reachable.insert ⟨0, 0, 0⟩ 0 (Reachable.init (1 / 100) 2 1)
        (show InsertBlock exampleEmpty ⟨0, 0, 0⟩ = (.ok 0, exampleOne) from rfl))
      (show InsertBlock exampleOne ⟨1, 0, 0⟩ = (.ok 1, exampleTwo) from rfl)
  ⟨hr, reachable_store_invariants exampleTwo hr⟩

/-- C9. `EraseBlock` of a coordinate that is not live fails the assertion `block_id >= 0`
with the store unchanged, and on a store satisfying the invariants `EraseBlock` never
returns false. -/
theorem EraseBlock_not_live_asserts (s s1 : SparseTSDF) (c : ivec3) :
    (GetBlockId s c = .ok (-1) → EraseBlock s c = (.error .assertion, s)) ∧
    (StoreInv s → EraseBlock s c ≠ (.ok false, s1)) := by
  refine ⟨EraseBlock_absent, ?_⟩
  intro inv he
  cases hid : GetBlockId s c with
  | error e =>
    unfold EraseBlock at he
    simp [hid] at he
  | ok id =>
    rcases inv.lookup_ok hid with ⟨rfl, _⟩ | ⟨a, rfl, ha, hca⟩
    · rw [EraseBlock_absent hid] at he
      cases he
    · obtain ⟨s2, heq, _⟩ := EraseBlock_live inv ha hca
      rw [heq] at he
      cases he

theorem EraseBlock_not_live_asserts_witness :
    GetBlockId exampleOne ⟨1, 0, 0⟩ = .ok (-1) ∧ StoreInv exampleOne ∧
      EraseBlock exampleOne ⟨1, 0, 0⟩ = (.error .assertion, exampleOne) ∧
      EraseBlock exampleOne ⟨1, 0, 0⟩ ≠ (.ok false, exampleOne) :=
  ⟨rfl, exampleOne_inv,
    (EraseBlock_not_live_asserts exampleOne exampleOne ⟨1, 0, 0⟩).1 rfl,
    (EraseBlock_not_live_asserts exampleOne exampleOne ⟨1, 0, 0⟩).2 exampleOne_inv⟩

/-- C10, as stated, fails: for the coordinate (-1, 0, 0) and `hash_size = 100000` the
bucket is 67295, while the remainder of the polynomial value -1 modulo 100000 is 99999. -/
theorem H_negative_not_remainder :
    H 100000 ⟨-1, 0, 0⟩ = .ok 67295 ∧
      ((-1 : Int) + 0 * 1000 + 0 * 1000 * 1000) % ((100000 : Nat) : Int) = 99999 ∧
      H 100000 ⟨-1, 0, 0⟩ ≠ .ok (((-1 : Int) + 0 * 1000 + 0 * 1000 * 1000) % ((100000 : Nat) : Int)) := by
  refine ⟨rfl, rfl, ?_⟩
  intro h
  have h2 : H 100000 ⟨-1, 0, 0⟩ = .ok 67295 := rfl
  rw [h2] at h
  injection h with h
  revert h
  decide

/-- C10, amended. For every block coordinate and every `hash_size` from 1 to `2^31 - 1`,
`H` is the polynomial `x + y*1000 + z*1000*1000` reduced modulo `2^32` (its value as an
`unsigned int`) and then modulo `hash_size`; it is the remainder of the polynomial itself
modulo `hash_size` whenever the polynomial value lies in `[0, 2^32)`. -/
theorem H_eq_unsigned_poly_mod (hash_size : Nat) (i : ivec3) (h1 : 1 ≤ hash_size)
    (h2 : hash_size < 2147483648) :
    H hash_size i
        = .ok (((i.x + i.y * 1000 + i.z * 1000 * 1000) % 4294967296) % (hash_size : Int)) ∧
      (0 ≤ i.x + i.y * 1000 + i.z * 1000 * 1000 → i.x + i.y * 1000 + i.z * 1000 * 1000 < 4294967296 →
        H hash_size i = .ok ((i.x + i.y * 1000 + i.z * 1000 * 1000) % (hash_size : Int))) := by
  have h := H_ok hash_size i h1 (by omega)
  refine ⟨h, ?_⟩
  intro h0 hlt
  rw [h, Int.emod_eq_of_lt h0 hlt]

theorem H_eq_unsigned_poly_mod_witness :
    (1 ≤ 100000 ∧ 100000 < 2147483648) ∧
      H 100000 ⟨-1, 2, 3⟩
        = .ok ((((-1 : Int) + 2 * 1000 + 3 * 1000 * 1000) % 4294967296) % ((100000 : Nat) : Int)) ∧
      (0 ≤ (-1 : Int) + 2 * 1000 + 3 * 1000 * 1000 → (-1 : Int) + 2 * 1000 + 3 * 1000 * 1000 < 4294967296 →
        H 100000 ⟨-1, 2, 3⟩ = .ok (((-1 : Int) + 2 * 1000 + 3 * 1000 * 1000) % ((100000 : Nat) : Int))) :=
  ⟨by decide, H_eq_unsigned_poly_mod 100000 ⟨-1, 2, 3⟩ (by decide) (by decide)⟩

/-- C11. For every block coordinate (arithmetic wrapping at 32 bits) and every `hash_size`
with `1 <= hash_size <= 2^31 - 1`, `H` returns a bucket `b` with `0 <= b < hash_size`: the
range assertion of `H` holds, and an access with subscript `b` to a vector of `hash_size`
entries (`first_hashed_block`, `hash_locks`) is in bounds. -/
theorem H_bucket_in_bounds (hash_size : Nat) (i : ivec3) (h1 : 1 ≤ hash_size)
    (h2 : hash_size ≤ 2147483647) :
    ∃ b : Int, H hash_size i = .ok b ∧ 0 ≤ b ∧ b < (hash_size : Int) ∧
      ∀ (α : Type) (table : List α), table.length = hash_size → ∃ x, vecGet table b = .ok x := by
  have hh := H_ok hash_size i h1 (by omega)
  obtain ⟨hb0, hb1⟩ := H_range _ _ _ hh
  refine ⟨_, hh, hb0, hb1, ?_⟩
  intro α table hlen
  obtain ⟨n, hn⟩ := Int.eq_ofNat_of_zero_le hb0
  rw [hn] at hb1 ⊢
  have hlt : n < table.length := by rw [hlen]; exact_mod_cast hb1
  exact ⟨table[n], vecGet_natCast _ _ _ (List.getElem?_eq_getElem hlt)⟩

theorem H_bucket_in_bounds_witness :
    (1 ≤ 100000 ∧ 100000 ≤ 2147483647) ∧
      ∃ b : Int, H 100000 ⟨-7, 2000000, -2147483648⟩ = .ok b ∧ 0 ≤ b ∧ b < ((100000 : Nat) : Int) ∧
        ∀ (α : Type) (table : List α), table.length = 100000 → ∃ x, vecGet table b = .ok x :=
  ⟨by decide, H_bucket_in_bounds 100000 ⟨-7, 2000000, -2147483648⟩ (by decide) (by decide)⟩

/-- C12. For every integer voxel coordinate, `GetBlockIndex` is on each axis the
mathematical floor of `v / 8`, the block `b` with `8 * b <= v < 8 * b + 8`; voxel -1 maps to
block -1, voxel -8 to block -1 and voxel -9 to block -2. -/
theorem GetBlockIndex_is_floor (v : ivec3) :
    GetBlockIndex v = ⟨⌊(v.x : ℚ) / 8⌋, ⌊(v.y : ℚ) / 8⌋, ⌊(v.z : ℚ) / 8⌋⟩ ∧
      (8 * (GetBlockIndex v).x ≤ v.x ∧ v.x < 8 * (GetBlockIndex v).x + 8) ∧
      (8 * (GetBlockIndex v).y ≤ v.y ∧ v.y < 8 * (GetBlockIndex v).y + 8) ∧
      (8 * (GetBlockIndex v).z ≤ v.z ∧ v.z < 8 * (GetBlockIndex v).z + 8) ∧
      GetBlockIndex ⟨-1, -1, -1⟩ = ⟨-1, -1, -1⟩ ∧ GetBlockIndex ⟨-8, -8, -8⟩ = ⟨-1, -1, -1⟩ ∧
      GetBlockIndex ⟨-9, -9, -9⟩ = ⟨-2, -2, -2⟩ := by
  have hx : (GetBlockIndex v).x = v.x / 8 := iFloorDiv_eight v.x
  have hy : (GetBlockIndex v).y = v.y / 8 := iFloorDiv_eight v.y
  have hz : (GetBlockIndex v).z = v.z / 8 := iFloorDiv_eight v.z
  refine ⟨?_, by omega, by omega, by omega, by decide, by decide, by decide⟩
  unfold GetBlockIndex
  rw [iFloorDiv_eight_floor, iFloorDiv_eight_floor, iFloorDiv_eight_floor]

/-- C13. For every integer voxel coordinate `v`, `GetLocalOffset(GetBlockIndex(v), v)` passes
its two range assertions and returns an offset `o` with `0 <= o < 8` on every axis and
`GetBlockIndex(v) * 8 + o = v`, so the three subscripts of `data[z][y][x]` in `GetVoxel` are
in bounds; for a 32-bit `v` the product `block * 8` does not overflow. -/
theorem GetLocalOffset_in_block (v : ivec3) :
    ∃ o : ivec3, GetLocalOffset (GetBlockIndex v) v = .ok o ∧
      (0 ≤ o.x ∧ o.x < 8) ∧ (0 ≤ o.y ∧ o.y < 8) ∧ (0 ≤ o.z ∧ o.z < 8) ∧
      (GetBlockIndex v).x * 8 + o.x = v.x ∧ (GetBlockIndex v).y * 8 + o.y = v.y ∧
      (GetBlockIndex v).z * 8 + o.z = v.z ∧
      (∃ z y x : Fin 8, arrayIndex o.z = .ok z ∧ arrayIndex o.y = .ok y ∧ arrayIndex o.x = .ok x) ∧
      ((-2147483648 ≤ v.x ∧ v.x < 2147483648 ∧ -2147483648 ≤ v.y ∧ v.y < 2147483648 ∧
          -2147483648 ≤ v.z ∧ v.z < 2147483648) →
        wrapInt ((GetBlockIndex v).x * VOXEL_BLOCK_SIZE) = (GetBlockIndex v).x * 8 ∧
        wrapInt ((GetBlockIndex v).y * VOXEL_BLOCK_SIZE) = (GetBlockIndex v).y * 8 ∧
        wrapInt ((GetBlockIndex v).z * VOXEL_BLOCK_SIZE) = (GetBlockIndex v).z * 8) := by
  have hx : (GetBlockIndex v).x = v.x / 8 := iFloorDiv_eight v.x
  have hy : (GetBlockIndex v).y = v.y / 8 := iFloorDiv_eight v.y
  have hz : (GetBlockIndex v).z = v.z / 8 := iFloorDiv_eight v.z
  obtain ⟨ix, hix, _⟩ := arrayIndex_mod v.x
  obtain ⟨iy, hiy, _⟩ := arrayIndex_mod v.y
  obtain ⟨iz, hiz, _⟩ := arrayIndex_mod v.z
  refine ⟨_, GetLocalOffset_ok v, by show 0 ≤ v.x % 8 ∧ v.x % 8 < 8; omega,
    by show 0 ≤ v.y % 8 ∧ v.y % 8 < 8; omega, by show 0 ≤ v.z % 8 ∧ v.z % 8 < 8; omega,
    by show _ + v.x % 8 = _; omega, by show _ + v.y % 8 = _; omega, by show _ + v.z % 8 = _; omega,
    ⟨iz, iy, ix, hiz, hiy, hix⟩, ?_⟩
  intro hr
  rw [hx, hy, hz]
  unfold wrapInt VOXEL_BLOCK_SIZE
  omega

theorem GetLocalOffset_in_block_witness :
    ∃ o : ivec3, GetLocalOffset (GetBlockIndex ⟨-9, 0, 17⟩) ⟨-9, 0, 17⟩ = .ok o ∧
      (0 ≤ o.x ∧ o.x < 8) ∧ (0 ≤ o.y ∧ o.y < 8) ∧ (0 ≤ o.z ∧ o.z < 8) ∧
      (GetBlockIndex ⟨-9, 0, 17⟩).x * 8 + o.x = -9 ∧ (GetBlockIndex ⟨-9, 0, 17⟩).y * 8 + o.y = 0 ∧
      (GetBlockIndex ⟨-9, 0, 17⟩).z * 8 + o.z = 17 ∧
      (∃ z y x : Fin 8, arrayIndex o.z = .ok z ∧ arrayIndex o.y = .ok y ∧ arrayIndex o.x = .ok x) ∧
      ((-2147483648 ≤ (-9 : Int) ∧ (-9 : Int) < 2147483648 ∧ -2147483648 ≤ (0 : Int) ∧
          (0 : Int) < 2147483648 ∧ -2147483648 ≤ (17 : Int) ∧ (17 : Int) < 2147483648) →
        wrapInt ((GetBlockIndex ⟨-9, 0, 17⟩).x * VOXEL_BLOCK_SIZE) = (GetBlockIndex ⟨-9, 0, 17⟩).x * 8 ∧
        wrapInt ((GetBlockIndex ⟨-9, 0, 17⟩).y * VOXEL_BLOCK_SIZE) = (GetBlockIndex ⟨-9, 0, 17⟩).y * 8 ∧
        wrapInt ((GetBlockIndex ⟨-9, 0, 17⟩).z * VOXEL_BLOCK_SIZE) = (GetBlockIndex ⟨-9, 0, 17⟩).z * 8) :=
  GetLocalOffset_in_block ⟨-9, 0, 17⟩

/-- C14. On a store satisfying the invariants, with `hash_size` between 1 and `2^31 - 1`, and
for every voxel coordinate `v` with block `b = GetBlockIndex(v)` and offset `v - 8 * b`: if
`b` is live, `GetVoxel(v)` returns the voxel stored at `data[oz][oy][ox]` of the block of `b`;
if `b` is not live it returns the zero voxel; in both cases `GetVoxel` returns (it is a
function of the store, which it does not change). -/
theorem GetVoxel_reads_block (s : SparseTSDF) (v : ivec3) (inv : StoreInv s) (h1 : 1 ≤ s.hash_size)
    (h2 : s.hash_size < 2147483648) :
    (∀ (a : Nat) (blk : VoxelBlock) (ox oy oz : Fin 8), (a : Int) < s.current_blocks →
      s.blocks[a]? = some blk → blk.index = GetBlockIndex v →
      (ox : Int) = v.x - 8 * (GetBlockIndex v).x → (oy : Int) = v.y - 8 * (GetBlockIndex v).y →
      (oz : Int) = v.z - 8 * (GetBlockIndex v).z → GetVoxel s v = .ok (blk.data oz oy ox)) ∧
    (¬ Live s (GetBlockIndex v) → GetVoxel s v = .ok ⟨0, 0⟩) ∧
    ∃ vox, GetVoxel s v = .ok vox := by
  have hlive : ∀ (a : Nat) (blk : VoxelBlock) (ox oy oz : Fin 8), (a : Int) < s.current_blocks →
      s.blocks[a]? = some blk → blk.index = GetBlockIndex v →
      (ox : Int) = v.x - 8 * (GetBlockIndex v).x → (oy : Int) = v.y - 8 * (GetBlockIndex v).y →
      (oz : Int) = v.z - 8 * (GetBlockIndex v).z → GetVoxel s v = .ok (blk.data oz oy ox) := by
    intro a blk ox oy oz ha hb hi hx hy hz
    exact GetVoxel_live inv ha ((indexAt_eq_some _ _ _).2 ⟨blk, hb, hi⟩) hb ox oy oz hx hy hz
  refine ⟨hlive, GetVoxel_dead inv h1 h2, ?_⟩
  by_cases hl : Live s (GetBlockIndex v)
  · obtain ⟨a, ha, hca⟩ := hl
    obtain ⟨blk, hb, hi⟩ := (indexAt_eq_some _ _ _).1 hca
    have hbx : (GetBlockIndex v).x = v.x / 8 := iFloorDiv_eight v.x
    have hby : (GetBlockIndex v).y = v.y / 8 := iFloorDiv_eight v.y
    have hbz : (GetBlockIndex v).z = v.z / 8 := iFloorDiv_eight v.z
    obtain ⟨ix, _, hix⟩ := arrayIndex_mod v.x
    obtain ⟨iy, _, hiy⟩ := arrayIndex_mod v.y
    obtain ⟨iz, _, hiz⟩ := arrayIndex_mod v.z
    exact ⟨_, hlive a blk ix iy iz ha hb hi (by omega) (by omega) (by omega)⟩
  · exact ⟨_, GetVoxel_dead inv h1 h2 hl⟩

theorem GetVoxel_reads_block_witness :
    (StoreInv exampleWritten ∧ 1 ≤ exampleWritten.hash_size ∧ exampleWritten.hash_size < 2147483648) ∧
      GetVoxel exampleWritten ⟨0, 0, 0⟩ = .ok ⟨1, 1⟩ ∧ GetVoxel exampleWritten ⟨8, 0, 0⟩ = .ok ⟨0, 0⟩ ∧
      ((∀ (a : Nat) (blk : VoxelBlock) (ox oy oz : Fin 8), (a : Int) < exampleWritten.current_blocks →
        exampleWritten.blocks[a]? = some blk → blk.index = GetBlockIndex ⟨0, 0, 0⟩ →
        (ox : Int) = 0 - 8 * (GetBlockIndex ⟨0, 0, 0⟩).x → (oy : Int) = 0 - 8 * (GetBlockIndex ⟨0, 0, 0⟩).y →
        (oz : Int) = 0 - 8 * (GetBlockIndex ⟨0, 0, 0⟩).z →
        GetVoxel exampleWritten ⟨0, 0, 0⟩ = .ok (blk.data oz oy ox)) ∧
      (¬ Live exampleWritten (GetBlockIndex ⟨0, 0, 0⟩) → GetVoxel exampleWritten ⟨0, 0, 0⟩ = .ok ⟨0, 0⟩) ∧
      ∃ vox, GetVoxel exampleWritten ⟨0, 0, 0⟩ = .ok vox) :=
  ⟨⟨exampleWritten_inv, by decide, by decide⟩, rfl, rfl,
    GetVoxel_reads_block exampleWritten ⟨0, 0, 0⟩ exampleWritten_inv (by decide) (by decide)⟩

/-- C18 (divergence). Bisection is started after a failed sample. On `exampleRayStore`
(voxel size 1, one block whose voxel (0,0,1) was never written) the ray from the origin along
the x axis with `min_t = 0`, `max_t = 4`, `step = 2` is sampled at `t = 0` and `t = 2`. The
call of `TrilinearAccess` at `t = 0` returns false, but leaves the partial sum of its first
corner, distance 1 and weight 1, in its result; the call at `t = 2` returns true with
distance -1. The test `last_sample.weight > 0 && last_sample.distance > 0 &&
current_sample.distance < 0` therefore passes, `findIntersectionBisection` runs on the pair
and `RaySurfaceIntersection` returns its result `1/2` instead of `max_t`: the preceding sample
was not a successful one. The store is well formed and all its weights are non-negative. -/
theorem RaySurfaceIntersection_bisects_after_failed_sample :
    StoreInv exampleRayStore ∧ (∀ v, 0 ≤ (voxelAt exampleRayStore v).weight) ∧
    TrilinearAccess exampleRayStore (rayPoint ⟨0, 0, 0⟩ ⟨1, 0, 0⟩ (sampleTime 0 2 0))
      = .ok (false, ⟨1, 1⟩) ∧
    TrilinearAccess exampleRayStore (rayPoint ⟨0, 0, 0⟩ ⟨1, 0, 0⟩ (sampleTime 0 2 1))
      = .ok (true, ⟨-1, 1⟩) ∧
    findIntersectionBisection exampleRayStore 1 ⟨0, 0, 0⟩ ⟨1, 0, 0⟩ (sampleTime 0 2 0)
      (sampleTime 0 2 1) 1 (-1) = .ok (some (1 / 2)) ∧
    CrossingAt exampleRayStore 1 ⟨0, 0, 0⟩ ⟨1, 0, 0⟩ 0 2 0 (1 / 2) ∧
    RaySurfaceIntersection exampleRayStore 1 ⟨0, 0, 0⟩ ⟨1, 0, 0⟩ 0 4 2 false 2 = .ok (1 / 2) ∧
    RaySurfaceIntersection exampleRayStore 1 ⟨0, 0, 0⟩ ⟨1, 0, 0⟩ 0 4 2 false 2 ≠ .ok 4 := by
  set_option maxRecDepth 4000 in
  exact ⟨exampleRayStore_inv, exampleRayStore_weights, by with_unfolding_all rfl,
    by with_unfolding_all rfl, by with_unfolding_all rfl,
    ⟨false, ⟨1, 1⟩, ⟨-1, 1⟩, by with_unfolding_all rfl, by with_unfolding_all rfl,
      by with_unfolding_all decide, by with_unfolding_all decide, by with_unfolding_all decide,
      by with_unfolding_all rfl⟩,
    by with_unfolding_all rfl,
    by
      have h : RaySurfaceIntersection exampleRayStore 1 ⟨0, 0, 0⟩ ⟨1, 0, 0⟩ 0 4 2 false 2
          = .ok (1 / 2) := by with_unfolding_all rfl
      rw [h]
      intro h4
      injection h4 with h4
      exact absurd h4 (by norm_num)⟩

/-- C19, as stated, fails: a step that the float addition absorbs never advances the march.
On the empty store `exampleUnitEmpty` (voxel size 1; every read returns, every weight is 0,
no crossing) the ray from the origin along the x axis with `min_t = 1`, `max_t = 2` and
`step = 2^-30 > 0`, all of them float values, has `current_t + step` rounded back to
`current_t = 1`: every sample parameter is 1, the loop test `current_t < max_t` never fails,
and the call does not return, whatever the number of loop tests; the claim says that it
returns `max_t`. -/
theorem RaySurfaceIntersection_absorbed_step_never_returns :
    (0 : Rat) < 1 / 1073741824 ∧
    (float32 1 = 1 ∧ float32 2 = 2 ∧ float32 (1 / 1073741824) = 1 / 1073741824) ∧
    floatAdd 1 (1 / 1073741824) = 1 ∧
    (∀ k, sampleTime 1 (1 / 1073741824) k = 1) ∧
    (∀ v, GetVoxel exampleUnitEmpty v = .ok (voxelAt exampleUnitEmpty v)) ∧
    (∀ v, (voxelAt exampleUnitEmpty v).weight = 0) ∧
    (∀ k t, ¬ CrossingAt exampleUnitEmpty 1 ⟨0, 0, 0⟩ ⟨1, 0, 0⟩ 1 (1 / 1073741824) k t) ∧
    (∀ fuel, RaySurfaceIntersection exampleUnitEmpty 1 ⟨0, 0, 0⟩ ⟨1, 0, 0⟩ 1 2 (1 / 1073741824) false fuel
      = .error .nontermination) ∧
    (∀ fuel, RaySurfaceIntersection exampleUnitEmpty 1 ⟨0, 0, 0⟩ ⟨1, 0, 0⟩ 1 2 (1 / 1073741824) false fuel
      ≠ .ok 2) := by
  set_option maxRecDepth 4000 in
  have habs : floatAdd 1 (1 / 1073741824) = 1 := by with_unfolding_all rfl
  set_option maxRecDepth 4000 in
  have hrun : ∀ fuel, RaySurfaceIntersection exampleUnitEmpty 1 ⟨0, 0, 0⟩ ⟨1, 0, 0⟩ 1 2
      (1 / 1073741824) false fuel = .error .nontermination := fun fuel =>
    RaySurfaceIntersectionLoop_absorbed exampleUnitEmpty 1 ⟨0, 0, 0⟩ ⟨1, 0, 0⟩ 2 (1 / 1073741824) false 1
      ⟨0, 0⟩ habs (by norm_num) (by with_unfolding_all rfl) fuel 0 ⟨0, 0⟩
  have hfloat : float32 1 = 1 ∧ float32 2 = 2 ∧ float32 (1 / 1073741824) = 1 / 1073741824 := by
    set_option maxRecDepth 4000 in
    exact ⟨by with_unfolding_all rfl, by with_unfolding_all rfl, by with_unfolding_all rfl⟩
  refine ⟨by norm_num, hfloat, habs, ?_, exampleUnitEmpty_reads, exampleUnitEmpty_weights, ?_,
    hrun, ?_⟩
  · intro k
    induction k with
    | zero => rfl
    | succ k ih => rw [sampleTime_succ, ih, habs]
  · intro k t hc
    obtain ⟨b, last, cur, _, hcur, _⟩ := hc
    exact TrilinearAccess_not_true_of_zero exampleUnitEmpty_reads exampleUnitEmpty_weights _ _ hcur
  · intro fuel h
    rw [hrun fuel] at h
    cases h

/-- C19, amended. The marching parameter is accumulated in float arithmetic (`sampleTime k` is
`current_t` after `k` additions of `step`); `min_t` is a float value and `step > 0`.
When `max_t ≤ min_t`, `RaySurfaceIntersection` returns exactly `max_t`. When every voxel read
returns, the voxel weights are non-negative and the marching parameter reaches `max_t` after
finitely many additions, `RaySurfaceIntersection` returns: there is a value `r` that every run
with enough fuel returns, and `r` is exactly `max_t` if at no marching step the crossing
condition holds with a successful bisection, in particular when every voxel has weight 0 (an
empty store). Whenever a run returns a value other than `max_t`, that value is the bisection
result of a marching step `k`, lies between the previous and the current sample parameter of
that step, and hence in `[min_t, max_t + step)`. -/
theorem RaySurfaceIntersection_max_t_or_between (s : SparseTSDF) (bisect_iterations : Nat)
    (ray_origin ray_dir : vec3) (min_t max_t step : Rat) (verbose : Bool) (hstep : 0 < step)
    (hmin : float32 min_t = min_t) :
    (max_t ≤ min_t → ∀ fuel, 1 ≤ fuel →
      RaySurfaceIntersection s bisect_iterations ray_origin ray_dir min_t max_t step verbose fuel
        = .ok max_t) ∧
    ((∀ v, GetVoxel s v = .ok (voxelAt s v)) → (∀ v, 0 ≤ (voxelAt s v).weight) →
      (∃ n, max_t ≤ sampleTime min_t step n) →
      ∃ (r : Rat) (fuel0 : Nat),
        (∀ fuel, fuel0 ≤ fuel →
          RaySurfaceIntersection s bisect_iterations ray_origin ray_dir min_t max_t step verbose fuel
            = .ok r) ∧
        ((∀ k t, sampleTime min_t step (k + 1) < max_t →
            ¬ CrossingAt s bisect_iterations ray_origin ray_dir min_t step k t) → r = max_t) ∧
        ((∀ v, (voxelAt s v).weight = 0) → r = max_t)) ∧
    (∀ (fuel : Nat) (r : Rat),
      RaySurfaceIntersection s bisect_iterations ray_origin ray_dir min_t max_t step verbose fuel
        = .ok r →
      r ≠ max_t → ∃ k, CrossingAt s bisect_iterations ray_origin ray_dir min_t step k r ∧
        sampleTime min_t step k ≤ r ∧ r ≤ sampleTime min_t step (k + 1) ∧
        sampleTime min_t step (k + 1) < max_t ∧ min_t ≤ r ∧ r < max_t + step) := by
  have hsound : ∀ (fuel : Nat) (r : Rat),
      RaySurfaceIntersection s bisect_iterations ray_origin ray_dir min_t max_t step verbose fuel
        = .ok r →
      r = max_t ∨ (verbose = false ∧ ∃ k, sampleTime min_t step (k + 1) < max_t ∧
        CrossingAt s bisect_iterations ray_origin ray_dir min_t step k r ∧
        sampleTime min_t step k ≤ r ∧ r ≤ sampleTime min_t step (k + 1)) := fun fuel r h =>
    RaySurfaceIntersectionLoop_sound s bisect_iterations ray_origin ray_dir min_t max_t step verbose
      fuel 0 0 ⟨0, 0⟩ r (fun h0 => absurd h0 (lt_irrefl _)) h
  refine ⟨?_, ?_, ?_⟩
  · intro hle fuel hfuel
    obtain ⟨f, rfl⟩ : ∃ f, fuel = f + 1 := ⟨fuel - 1, by omega⟩
    show RaySurfaceIntersectionLoop s bisect_iterations ray_origin ray_dir max_t step verbose (f + 1)
      min_t 0 ⟨0, 0⟩ = .ok max_t
    rw [RaySurfaceIntersectionLoop, if_pos (not_lt.2 hle)]
  · intro hread hw hreach
    obtain ⟨n, hn⟩ := hreach
    obtain ⟨r, hr⟩ := RaySurfaceIntersectionLoop_returns hread hw bisect_iterations ray_origin
      ray_dir min_t max_t step verbose (fun _ k => sampleTime_le_succ hmin (le_of_lt hstep) k)
      n 0 0 ⟨0, 0⟩ (by rw [Nat.zero_add]; exact hn) (fun h0 => absurd h0 (lt_irrefl _))
    have hcase := hsound (n + 1) r hr
    refine ⟨r, n + 1, fun f hf => RaySurfaceIntersectionLoop_mono_le s bisect_iterations
      ray_origin ray_dir max_t step verbose min_t 0 ⟨0, 0⟩ r (n + 1) hr f hf, ?_, ?_⟩
    · intro hno
      rcases hcase with h | ⟨_, k, hk, hcr, _, _⟩
      · exact h
      · exact absurd hcr (hno k r hk)
    · intro hzero
      rcases hcase with h | ⟨_, k, _, hcr, _, _⟩
      · exact h
      · obtain ⟨b, last, cur, _, hcur, _⟩ := hcr
        exact absurd hcur (TrilinearAccess_not_true_of_zero hread hzero _ _)
  · intro fuel r hr hne
    rcases hsound fuel r hr with h | ⟨_, k, hk, hcr, hlo, hhi⟩
    · exact absurd h hne
    · have := sampleTime_ge hmin (le_of_lt hstep) k
      exact ⟨k, hcr, hlo, hhi, hk, by linarith, by linarith⟩

theorem RaySurfaceIntersection_max_t_or_between_witness :
    ((0 : Rat) < 2 ∧ float32 0 = 0 ∧
      (∀ v, GetVoxel exampleRayStore v = .ok (voxelAt exampleRayStore v)) ∧
      (∀ v, 0 ≤ (voxelAt exampleRayStore v).weight) ∧ (∃ n, (4 : Rat) ≤ sampleTime 0 2 n)) ∧
    RaySurfaceIntersection exampleRayStore 0 ⟨0, 0, 0⟩ ⟨1, 0, 0⟩ 0 4 2 false 2 = .ok 1 ∧
    (∃ (r : Rat) (fuel0 : Nat),
      (∀ fuel, fuel0 ≤ fuel →
        RaySurfaceIntersection exampleRayStore 0 ⟨0, 0, 0⟩ ⟨1, 0, 0⟩ 0 4 2 false fuel = .ok r) ∧
      ((∀ k t, sampleTime 0 2 (k + 1) < 4 →
          ¬ CrossingAt exampleRayStore 0 ⟨0, 0, 0⟩ ⟨1, 0, 0⟩ 0 2 k t) → r = 4) ∧
      ((∀ v, (voxelAt exampleRayStore v).weight = 0) → r = 4)) ∧
    (∃ k, CrossingAt exampleRayStore 0 ⟨0, 0, 0⟩ ⟨1, 0, 0⟩ 0 2 k 1 ∧
      sampleTime 0 2 k ≤ 1 ∧ 1 ≤ sampleTime 0 2 (k + 1) ∧
      sampleTime 0 2 (k + 1) < 4 ∧ (0 : Rat) ≤ 1 ∧ (1 : Rat) < 4 + 2) := by
  have hmin : float32 0 = 0 := by
    set_option maxRecDepth 4000 in
    with_unfolding_all rfl
  have hreach : ∃ n, (4 : Rat) ≤ sampleTime 0 2 n := by
    set_option maxRecDepth 4000 in
    exact ⟨2, by with_unfolding_all decide⟩
  have hrun : RaySurfaceIntersection exampleRayStore 0 ⟨0, 0, 0⟩ ⟨1, 0, 0⟩ 0 4 2 false 2 = .ok 1 := by
    set_option maxRecDepth 4000 in
    with_unfolding_all rfl
  have h := RaySurfaceIntersection_max_t_or_between exampleRayStore 0 ⟨0, 0, 0⟩ ⟨1, 0, 0⟩ 0 4 2 false
    (by norm_num) hmin
  exact ⟨⟨by norm_num, hmin, exampleRayStore_reads, exampleRayStore_weights, hreach⟩,
    hrun, h.2.1 exampleRayStore_reads exampleRayStore_weights hreach,
    h.2.2 2 1 hrun (by norm_num)⟩

/-- C20. Without another thread, on a store satisfying the invariants with
`current_blocks < capacity`, `InsertBlockLock(c)` and `InsertBlock(c)` give the same result
for every coordinate `c`, live or absent: the same returned slot and the same store; and both
return whenever the hash of `c` is defined. -/
theorem InsertBlockLock_equivalent (s : SparseTSDF) (c : ivec3) (inv : StoreInv s)
    (hcap : s.current_blocks < (s.blocks.length : Int)) :
    InsertBlockLock s c = InsertBlock s c ∧
      ∀ h, H s.hash_size c = .ok h →
        ∃ slot s1, InsertBlockLock s c = (.ok slot, s1) ∧ InsertBlock s c = (.ok slot, s1) := by
  have heq := InsertBlockLock_eq_InsertBlock c inv.size_nonneg hcap
  refine ⟨heq, ?_⟩
  intro h hh
  rw [heq]
  by_cases hl : Live s c
  · obtain ⟨a, ha, hca⟩ := hl
    exact ⟨_, _, InsertBlock_present (inv.lookup_live ha hca) (by omega),
      InsertBlock_present (inv.lookup_live ha hca) (by omega)⟩
  · have h0 := inv.size_nonneg
    obtain ⟨s1, hins, _⟩ := InsertBlock_absent_live inv (inv.lookup_dead hh hl) (by omega)
    exact ⟨_, s1, hins, hins⟩

theorem InsertBlockLock_equivalent_witness :
    (StoreInv exampleOne ∧ exampleOne.current_blocks < (exampleOne.blocks.length : Int)) ∧
      InsertBlockLock exampleOne ⟨1, 0, 0⟩ = (.ok 1, exampleTwo) ∧
      InsertBlockLock exampleOne ⟨1, 0, 0⟩ = InsertBlock exampleOne ⟨1, 0, 0⟩ ∧
      ∀ h, H exampleOne.hash_size ⟨1, 0, 0⟩ = .ok h →
        ∃ slot s1, InsertBlockLock exampleOne ⟨1, 0, 0⟩ = (.ok slot, s1) ∧
          InsertBlock exampleOne ⟨1, 0, 0⟩ = (.ok slot, s1) :=
  ⟨⟨exampleOne_inv, by decide⟩, rfl,
    InsertBlockLock_equivalent exampleOne ⟨1, 0, 0⟩ exampleOne_inv (by decide)⟩

/-- C21. `InsertBlockLock` never grows the backing array. On a store satisfying the
invariants, with `hash_size` between 1 and `2^31 - 1`: the capacity after the call is the
capacity before it; for a coordinate that is not live the call ends in the fatal error if and
only if `current_blocks >= capacity` at the call, and otherwise returns the new slot
`current_blocks` with the coordinate live; for a live coordinate it returns the slot of the
coordinate and the unchanged store, whatever the capacity. -/
theorem InsertBlockLock_never_grows (s : SparseTSDF) (c : ivec3) (inv : StoreInv s)
    (h1 : 1 ≤ s.hash_size) (h2 : s.hash_size < 2147483648) :
    (InsertBlockLock s c).2.blocks.length = s.blocks.length ∧
    (¬ Live s c →
      ((InsertBlockLock s c).1 = .error .exit_error ↔ (s.blocks.length : Int) ≤ s.current_blocks) ∧
      ((s.blocks.length : Int) ≤ s.current_blocks →
        InsertBlockLock s c = (.error .exit_error, { s with current_blocks := s.current_blocks + 1 })) ∧
      (s.current_blocks < (s.blocks.length : Int) →
        ∃ s1, InsertBlockLock s c = (.ok s.current_blocks, s1) ∧ StoreInv s1 ∧ Live s1 c ∧
          s1.blocks.length = s.blocks.length ∧ s1.current_blocks = s.current_blocks + 1)) ∧
    (Live s c → ∃ a : Nat, (a : Int) < s.current_blocks ∧ indexAt s.blocks a = some c ∧
      InsertBlockLock s c = (.ok (a : Int), s)) := by
  have hh := H_ok s.hash_size c h1 (by omega)
  have hlive : Live s c → ∃ a : Nat, (a : Int) < s.current_blocks ∧ indexAt s.blocks a = some c ∧
      InsertBlockLock s c = (.ok (a : Int), s) := by
    rintro ⟨a, ha, hca⟩
    exact ⟨a, ha, hca, InsertBlockLock_present (inv.lookup_live ha hca) (by omega)⟩
  have hfull : ¬ Live s c → (s.blocks.length : Int) ≤ s.current_blocks →
      InsertBlockLock s c = (.error .exit_error, { s with current_blocks := s.current_blocks + 1 }) :=
    fun hc hf => InsertBlockLock_full (inv.lookup_dead hh hc) (Or.inr hf)
  have hroom : ¬ Live s c → s.current_blocks < (s.blocks.length : Int) →
      ∃ s1, InsertBlockLock s c = (.ok s.current_blocks, s1) ∧ StoreInv s1 ∧ Live s1 c ∧
        s1.blocks.length = s.blocks.length ∧ s1.current_blocks = s.current_blocks + 1 := by
    intro hc hlt
    have h0 := inv.size_nonneg
    have habs := inv.lookup_dead hh hc
    obtain ⟨n, hn, head, b, bs, s1, hcur, hhn, hhead, hbs, hb, hs1, hins, inv1⟩ :=
      InsertBlock_absent inv habs (by omega)
    have hnlt : n < s.blocks.length := by omega
    rw [if_pos hnlt] at hbs
    refine ⟨s1, by rw [InsertBlockLock_eq_InsertBlock c h0 hlt]; exact hins, inv1, ?_, ?_, ?_⟩
    · refine ⟨n, ?_, ?_⟩
      · rw [hs1]; show (n : Int) < s.current_blocks + 1; omega
      · rw [hs1, hbs]
        show indexAt (s.blocks.set n _) n = some c
        simp [indexAt, List.getElem?_set, hnlt]
    · rw [hs1, hbs]
      show (s.blocks.set n _).length = _
      simp
    · rw [hs1]
  refine ⟨?_, fun hc => ⟨?_, hfull hc, hroom hc⟩, hlive⟩
  · by_cases hc : Live s c
    · obtain ⟨a, _, _, hins⟩ := hlive hc
      rw [hins]
    · by_cases hlt : s.current_blocks < (s.blocks.length : Int)
      · obtain ⟨s1, hins, _, _, hlen, _⟩ := hroom hc hlt
        rw [hins]
        exact hlen
      · rw [hfull hc (by omega)]
  · constructor
    · intro herr
      by_contra hlt
      obtain ⟨s1, hins, _⟩ := hroom hc (by omega)
      rw [hins] at herr
      cases herr
    · intro hf
      rw [hfull hc hf]

theorem InsertBlockLock_never_grows_witness :
    (StoreInv exampleTwo ∧ 1 ≤ exampleTwo.hash_size ∧ exampleTwo.hash_size < 2147483648) ∧
    InsertBlockLock exampleTwo ⟨2, 0, 0⟩
      = (.error .exit_error, { exampleTwo with current_blocks := 3 }) ∧
    InsertBlockLock exampleTwo ⟨1, 0, 0⟩ = (.ok 1, exampleTwo) ∧
    (InsertBlockLock exampleTwo ⟨2, 0, 0⟩).2.blocks.length = exampleTwo.blocks.length ∧
    (¬ Live exampleTwo ⟨2, 0, 0⟩ →
      ((InsertBlockLock exampleTwo ⟨2, 0, 0⟩).1 = .error .exit_error ↔
        (exampleTwo.blocks.length : Int) ≤ exampleTwo.current_blocks) ∧
      ((exampleTwo.blocks.length : Int) ≤ exampleTwo.current_blocks →
        InsertBlockLock exampleTwo ⟨2, 0, 0⟩ = (.error .exit_error,
          { exampleTwo with current_blocks := exampleTwo.current_blocks + 1 })) ∧
      (exampleTwo.current_blocks < (exampleTwo.blocks.length : Int) →
        ∃ s1, InsertBlockLock exampleTwo ⟨2, 0, 0⟩ = (.ok exampleTwo.current_blocks, s1) ∧
          StoreInv s1 ∧ Live s1 ⟨2, 0, 0⟩ ∧ s1.blocks.length = exampleTwo.blocks.length ∧
          s1.current_blocks = exampleTwo.current_blocks + 1)) ∧
    (Live exampleTwo ⟨2, 0, 0⟩ → ∃ a : Nat, (a : Int) < exampleTwo.current_blocks ∧
      indexAt exampleTwo.blocks a = some ⟨2, 0, 0⟩ ∧
      InsertBlockLock exampleTwo ⟨2, 0, 0⟩ = (.ok (a : Int), exampleTwo)) :=
  ⟨⟨exampleTwo_inv, by decide, by decide⟩, rfl, rfl,
    InsertBlockLock_never_grows exampleTwo ⟨2, 0, 0⟩ exampleTwo_inv (by decide) (by decide)⟩

/-- C22. For every number `N >= 1` of threads that each call `InsertBlockLock(c)` with the same
coordinate `c`, on a store satisfying the invariants with `hash_size` between 1 and `2^31 - 1`
and `current_blocks < capacity`, and for every schedule (interleaving of their steps): no
thread fails, every thread that has returned has returned the slot `slot` that a single call
would return, and the store is the initial one, the initial one with the counter incremented,
or the store `sF` that a single call leaves. When all `N` threads have returned the store is
`sF`: exactly one live block holds `c`, it is in slot `slot`, and `current_blocks` grew by at
most one. Every schedule can be continued so that all threads return (no thread waits for
ever for the lock). -/
theorem InsertBlockLock_threads_same_coordinate (s : SparseTSDF) (c : ivec3) (N : Nat)
    (schedule : List Nat) (inv : StoreInv s) (h1 : 1 ≤ s.hash_size) (h2 : s.hash_size < 2147483648)
    (hN : 1 ≤ N) (hcap : s.current_blocks < (s.blocks.length : Int)) :
    ∃ (slot : Int) (sF : SparseTSDF),
      InsertBlockLock s c = (.ok slot, sF) ∧ StoreInv sF ∧
      s.current_blocks ≤ sF.current_blocks ∧ sF.current_blocks ≤ s.current_blocks + 1 ∧
      (∃ a : Nat, slot = (a : Int) ∧ (a : Int) < sF.current_blocks ∧ indexAt sF.blocks a = some c ∧
        ∀ a1 : Nat, (a1 : Int) < sF.current_blocks → indexAt sF.blocks a1 = some c → a1 = a) ∧
      (runSchedule c (Threads.init s N) schedule).threads.length = N ∧
      (∀ (k : Nat) (e : Err), (runSchedule c (Threads.init s N) schedule).threads[k]? ≠ some (ThreadState.failed e)) ∧
      (∀ (k : Nat) (r : Int), (runSchedule c (Threads.init s N) schedule).threads[k]? = some (ThreadState.done r) → r = slot) ∧
      ((runSchedule c (Threads.init s N) schedule).store = s ∨
        (runSchedule c (Threads.init s N) schedule).store
          = { s with current_blocks := s.current_blocks + 1 } ∨
        (runSchedule c (Threads.init s N) schedule).store = sF) ∧
      ((∀ t ∈ (runSchedule c (Threads.init s N) schedule).threads, ∃ r, t = .done r) →
        (runSchedule c (Threads.init s N) schedule).store = sF ∧
        ∀ t ∈ (runSchedule c (Threads.init s N) schedule).threads, t = .done slot) ∧
      (∃ ext : List Nat,
        (runSchedule c (Threads.init s N) (schedule ++ ext)).store = sF ∧
        ∀ t ∈ (runSchedule c (Threads.init s N) (schedule ++ ext)).threads, t = .done slot) := by
  obtain ⟨h0, slot, sF, facts, hlock, invF, hlive, hdead, a, hslot, ha, hca⟩ :=
    InsertFacts.intro s c inv h1 h2 hcap
  obtain ⟨phase0, hinv0⟩ := ThreadsInv.at_start facts hlive N
  obtain ⟨phase, holder, hinv, hlen⟩ := runSchedule_inv facts schedule _ phase0 none hinv0
  have hlenN : (runSchedule c (Threads.init s N) schedule).threads.length = N := by
    rw [hlen]
    simp [Threads.init]
  have hdone : ∀ (cfg : Threads) (phase : Nat) (holder : Option Nat),
      ThreadsInv s c h0 slot sF cfg phase holder → cfg.threads.length = N →
      (∀ t ∈ cfg.threads, ∃ r, t = ThreadState.done r) →
      cfg.store = sF ∧ ∀ t ∈ cfg.threads, t = .done slot := by
    intro cfg phase holder hi hl hall
    have hslots : ∀ t ∈ cfg.threads, t = .done slot := by
      intro t ht
      obtain ⟨k, hklt, hkt⟩ := List.getElem_of_mem ht
      have hk : cfg.threads[k]? = some t := by
        rw [List.getElem?_eq_some]
        exact ⟨hklt, hkt⟩
      obtain ⟨r, hr⟩ := hall t ht
      have hok := hi.threads k t hk
      rw [hr] at hok ⊢
      have hok' : r = slot ∧ phase = 2 := hok
      rw [hok'.1]
    refine ⟨?_, hslots⟩
    have h0lt : 0 < cfg.threads.length := by omega
    have hk : cfg.threads[0]? = some cfg.threads[0] := List.getElem?_eq_getElem h0lt
    have hok := hi.threads 0 _ hk
    rw [hslots _ (List.getElem_mem h0lt)] at hok
    have hok' : slot = slot ∧ phase = 2 := hok
    rcases hi.store with ⟨hp, _⟩ | ⟨hp, _⟩ | ⟨_, hs⟩
    · omega
    · omega
    · exact hs
  refine ⟨slot, sF, hlock, invF, ?_, ?_, ⟨a, hslot, ha, hca, ?_⟩, hlenN, ?_, ?_, ?_,
    hdone _ phase holder hinv hlenN, ?_⟩
  · by_cases hc : Live s c
    · rw [hlive hc]
    · rw [hdead hc]; omega
  · by_cases hc : Live s c
    · rw [hlive hc]; omega
    · rw [hdead hc]
  · intro a1 ha1 hca1
    exact invF.index.distinct a1 a c ha1 ha hca1 hca
  · intro k e hk
    exact hinv.threads k _ hk
  · intro k r hk
    have hok : r = slot ∧ phase = 2 := hinv.threads k _ hk
    exact hok.1
  · rcases hinv.store with ⟨_, hs⟩ | ⟨_, hs⟩ | ⟨_, hs⟩
    · exact Or.inl hs
    · exact Or.inr (Or.inl hs)
    · exact Or.inr (Or.inr hs)
  · obtain ⟨ext, hext⟩ := runSchedule_complete facts _ _ phase holder hinv (le_refl _)
    obtain ⟨phase2, holder2, hinv2, hlen2⟩ := runSchedule_inv facts ext _ phase holder hinv
    refine ⟨ext, ?_⟩
    rw [runSchedule_append]
    exact hdone _ phase2 holder2 hinv2 (by rw [hlen2]; exact hlenN) hext

theorem InsertBlockLock_threads_same_coordinate_witness :
    (StoreInv exampleOne ∧ 1 ≤ exampleOne.hash_size ∧ exampleOne.hash_size < 2147483648 ∧ 1 ≤ 2 ∧
      exampleOne.current_blocks < (exampleOne.blocks.length : Int)) ∧
    ((runSchedule ⟨1, 0, 0⟩ (Threads.init exampleOne 2) [0, 1, 1, 0, 1, 0, 1, 0, 0]).threads
        = [.done 1, .done 1] ∧
      (runSchedule ⟨1, 0, 0⟩ (Threads.init exampleOne 2) [0, 1, 1, 0, 1, 0, 1, 0, 0]).store
        = exampleTwo ∧
      (runSchedule ⟨1, 0, 0⟩ (Threads.init exampleOne 2) [0, 1, 1, 0, 1]).threads
        = [.hashed 0, .adding 0 1]) ∧
    ∃ (slot : Int) (sF : SparseTSDF),
      InsertBlockLock exampleOne ⟨1, 0, 0⟩ = (.ok slot, sF) ∧ StoreInv sF ∧
      exampleOne.current_blocks ≤ sF.current_blocks ∧
      sF.current_blocks ≤ exampleOne.current_blocks + 1 ∧
      (∃ a : Nat, slot = (a : Int) ∧ (a : Int) < sF.current_blocks ∧
        indexAt sF.blocks a = some ⟨1, 0, 0⟩ ∧
        ∀ a1 : Nat, (a1 : Int) < sF.current_blocks → indexAt sF.blocks a1 = some ⟨1, 0, 0⟩ → a1 = a) ∧
      (runSchedule ⟨1, 0, 0⟩ (Threads.init exampleOne 2) [0, 1, 1, 0, 1]).threads.length = 2 ∧
      (∀ (k : Nat) (e : Err), (runSchedule ⟨1, 0, 0⟩ (Threads.init exampleOne 2) [0, 1, 1, 0, 1]).threads[k]?
        ≠ some (ThreadState.failed e)) ∧
      (∀ (k : Nat) (r : Int), (runSchedule ⟨1, 0, 0⟩ (Threads.init exampleOne 2) [0, 1, 1, 0, 1]).threads[k]?
        = some (ThreadState.done r) → r = slot) ∧
      ((runSchedule ⟨1, 0, 0⟩ (Threads.init exampleOne 2) [0, 1, 1, 0, 1]).store = exampleOne ∨
        (runSchedule ⟨1, 0, 0⟩ (Threads.init exampleOne 2) [0, 1, 1, 0, 1]).store
          = { exampleOne with current_blocks := exampleOne.current_blocks + 1 } ∨
        (runSchedule ⟨1, 0, 0⟩ (Threads.init exampleOne 2) [0, 1, 1, 0, 1]).store = sF) ∧
      ((∀ t ∈ (runSchedule ⟨1, 0, 0⟩ (Threads.init exampleOne 2) [0, 1, 1, 0, 1]).threads,
          ∃ r, t = .done r) →
        (runSchedule ⟨1, 0, 0⟩ (Threads.init exampleOne 2) [0, 1, 1, 0, 1]).store = sF ∧
        ∀ t ∈ (runSchedule ⟨1, 0, 0⟩ (Threads.init exampleOne 2) [0, 1, 1, 0, 1]).threads,
          t = .done slot) ∧
      (∃ ext : List Nat,
        (runSchedule ⟨1, 0, 0⟩ (Threads.init exampleOne 2) ([0, 1, 1, 0, 1] ++ ext)).store = sF ∧
        ∀ t ∈ (runSchedule ⟨1, 0, 0⟩ (Threads.init exampleOne 2) ([0, 1, 1, 0, 1] ++ ext)).threads,
          t = .done slot) :=
  ⟨⟨exampleOne_inv, by decide, by decide, by decide, by decide⟩, ⟨rfl, rfl, rfl⟩,
    InsertBlockLock_threads_same_coordinate exampleOne ⟨1, 0, 0⟩ 2 [0, 1, 1, 0, 1] exampleOne_inv
      (by decide) (by decide) (by decide) (by decide)⟩

/-- C23. On a store satisfying the invariants, `InsertBlock` of a coordinate that is not live
(`hash_size` between 1 and `2^31 - 1`): when `current_blocks` equals the capacity the capacity
becomes exactly twice the old one, when `current_blocks` is below the capacity it is
unchanged; every slot below the old `current_blocks` holds the same block as before (index,
`next_index` and voxels); and with a capacity of at least 1 the call returns the new slot. -/
theorem InsertBlock_doubles_capacity (s : SparseTSDF) (c : ivec3) (inv : StoreInv s)
    (h1 : 1 ≤ s.hash_size) (h2 : s.hash_size < 2147483648) (hc : ¬ Live s c) :
    (s.current_blocks = (s.blocks.length : Int) →
      (InsertBlock s c).2.blocks.length = 2 * s.blocks.length) ∧
    (s.current_blocks < (s.blocks.length : Int) →
      (InsertBlock s c).2.blocks.length = s.blocks.length) ∧
    (∀ a : Nat, (a : Int) < s.current_blocks → (InsertBlock s c).2.blocks[a]? = s.blocks[a]?) ∧
    (1 ≤ s.blocks.length → ∃ s1, InsertBlock s c = (.ok s.current_blocks, s1) ∧ StoreInv s1 ∧
      s1.current_blocks = s.current_blocks + 1 ∧ Live s1 c) := by
  have hh := H_ok s.hash_size c h1 (by omega)
  have habs := inv.lookup_dead hh hc
  have h0 := inv.size_nonneg
  have hle := inv.size_le
  by_cases hcap : 1 ≤ s.blocks.length
  · obtain ⟨n, hn, head, b, bs, s1, hcur, hhn, hhead, hbs, hb, hs1, hins, inv1⟩ :=
      InsertBlock_absent inv habs hcap
    have hbl : s1.blocks = bs.set n { b with index := c, next_index := head } := by rw [hs1]
    have hnb : n < bs.length := (List.getElem?_eq_some.1 hb).1
    rw [hins]
    refine ⟨?_, ?_, ?_, fun _ => ⟨s1, rfl, inv1, by rw [hs1], n, ?_, ?_⟩⟩
    · intro heq
      have hnl : ¬ n < s.blocks.length := by omega
      rw [if_neg hnl] at hbs
      show s1.blocks.length = _
      rw [hbl, List.length_set, hbs, resize_length]
      omega
    · intro hlt
      have hnl : n < s.blocks.length := by omega
      rw [if_pos hnl] at hbs
      show s1.blocks.length = _
      rw [hbl, List.length_set, hbs]
    · intro a ha
      have han : n ≠ a := by omega
      show s1.blocks[a]? = _
      rw [hbl, List.getElem?_set_ne han, hbs]
      split
      · rfl
      · exact resize_getElem?_of_lt _ _ _ (by omega) (by omega)
    · rw [hs1]; show (n : Int) < s.current_blocks + 1; omega
    · rw [hbl]
      simp [indexAt, List.getElem?_set, hnb]
  · have hnil : s.blocks = [] := List.eq_nil_of_length_eq_zero (by omega)
    have hcur : s.current_blocks = 0 := by rw [hnil] at hle; simp at hle; omega
    rw [InsertBlock_no_capacity habs hcur hnil]
    refine ⟨?_, ?_, ?_, fun h => absurd h hcap⟩
    · intro _
      show s.blocks.length = _
      rw [hnil]; rfl
    · intro hlt
      omega
    · intro a ha
      omega

theorem InsertBlock_doubles_capacity_witness :
    (StoreInv exampleTwo ∧ 1 ≤ exampleTwo.hash_size ∧ exampleTwo.hash_size < 2147483648 ∧
      ¬ Live exampleTwo ⟨2, 0, 0⟩) ∧
    (exampleTwo.blocks.length = 2 ∧ exampleTwo.current_blocks = 2 ∧
      (InsertBlock exampleTwo ⟨2, 0, 0⟩).1 = .ok 2 ∧
      (InsertBlock exampleTwo ⟨2, 0, 0⟩).2.blocks.length = 4) ∧
    (exampleTwo.current_blocks = (exampleTwo.blocks.length : Int) →
      (InsertBlock exampleTwo ⟨2, 0, 0⟩).2.blocks.length = 2 * exampleTwo.blocks.length) ∧
    (exampleTwo.current_blocks < (exampleTwo.blocks.length : Int) →
      (InsertBlock exampleTwo ⟨2, 0, 0⟩).2.blocks.length = exampleTwo.blocks.length) ∧
    (∀ a : Nat, (a : Int) < exampleTwo.current_blocks →
      (InsertBlock exampleTwo ⟨2, 0, 0⟩).2.blocks[a]? = exampleTwo.blocks[a]?) ∧
    (1 ≤ exampleTwo.blocks.length →
      ∃ s1, InsertBlock exampleTwo ⟨2, 0, 0⟩ = (.ok exampleTwo.current_blocks, s1) ∧ StoreInv s1 ∧
        s1.current_blocks = exampleTwo.current_blocks + 1 ∧ Live s1 ⟨2, 0, 0⟩) :=
  have hdead : ¬ Live exampleTwo ⟨2, 0, 0⟩ :=
    exampleTwo_inv.not_live_of_miss (show GetBlockId exampleTwo ⟨2, 0, 0⟩ = .ok (-1) from rfl)
  ⟨⟨exampleTwo_inv, by decide, by decide, hdead⟩, ⟨rfl, rfl, rfl, rfl⟩,
    InsertBlock_doubles_capacity exampleTwo ⟨2, 0, 0⟩ exampleTwo_inv (by decide) (by decide) hdead⟩

/-- C24. On a store satisfying the invariants, `Compact()` returns and makes the length of the
backing array exactly `current_blocks`; nothing else changes: `current_blocks`, the scalar
members and the bucket heads are the same, every live slot holds the same block, every bucket
has the same chain, and `GetBlockId`, `GetBlock` and `GetVoxel` give the same result for every
coordinate; the invariants still hold. -/
theorem Compact_shrinks_only (s : SparseTSDF) (inv : StoreInv s) :
    ∃ s1, Compact s = (.ok (), s1) ∧ StoreInv s1 ∧ (s1.blocks.length : Int) = s.current_blocks ∧
      s1.current_blocks = s.current_blocks ∧ s1.hash_size = s.hash_size ∧
      s1.voxel_size = s.voxel_size ∧ s1.voxel_size_inv = s.voxel_size_inv ∧
      s1.first_hashed_block = s.first_hashed_block ∧
      (∀ a : Nat, (a : Int) < s.current_blocks → s1.blocks[a]? = s.blocks[a]?) ∧
      (∀ (h : Nat) (head : Int) (l : List Nat), s.first_hashed_block[h]? = some head →
        (IsChain s1.blocks head l ↔ IsChain s.blocks head l)) ∧
      (∀ c, GetBlockId s1 c = GetBlockId s c) ∧ (∀ c, GetBlock s1 c = GetBlock s c) ∧
      (∀ v, GetVoxel s1 v = GetVoxel s v) := by
  have heq := Compact_eq inv
  have inv1 := inv.compact heq
  have h0 := inv.size_nonneg
  have hblk : ∀ a : Nat, (a : Int) < s.current_blocks →
      (resize s.blocks s.current_blocks.toNat)[a]? = s.blocks[a]? := Compact_getElem? inv
  have hid : ∀ c, GetBlockId { s with blocks := resize s.blocks s.current_blocks.toNat } c
      = GetBlockId s c := by
    refine GetBlockId_eq_of_live_iff inv inv1 rfl ?_
    intro a c
    constructor
    · rintro ⟨ha, hca⟩
      refine ⟨ha, ?_⟩
      have hca' : indexAt (resize s.blocks s.current_blocks.toNat) a = some c := hca
      simp only [indexAt, hblk a ha] at hca'
      exact hca'
    · rintro ⟨ha, hca⟩
      refine ⟨ha, ?_⟩
      show indexAt (resize s.blocks s.current_blocks.toNat) a = some c
      simp only [indexAt, hblk a ha]
      exact hca
  have hgb : ∀ c, GetBlock { s with blocks := resize s.blocks s.current_blocks.toNat } c
      = GetBlock s c := fun c => @GetBlock_eq_of_GetBlockId_eq s { s with blocks := resize s.blocks s.current_blocks.toNat } rfl c (hid c)
  refine ⟨_, heq, inv1, ?_, rfl, rfl, rfl, rfl, rfl, hblk, ?_, hid, hgb,
    GetVoxel_eq_of_same_blocks inv hgb hblk⟩
  · show ((resize s.blocks s.current_blocks.toNat).length : Int) = _
    rw [resize_length]
    omega
  · intro h head l hhead
    constructor
    · intro hl
      obtain ⟨l1, hl1, _, hmem⟩ := inv1.index.chains h head hhead
      have hll : l = l1 := IsChain.unique hl hl1
      subst hll
      refine IsSeg.frame hl ?_
      intro a ha
      have hlive : (a : Int) < s.current_blocks := ((hmem a).1 ha).1
      simp only [nextAt, hblk a hlive]
    · intro hl
      obtain ⟨l1, hl1, _, hmem⟩ := inv.index.chains h head hhead
      have hll : l = l1 := IsChain.unique hl hl1
      subst hll
      refine IsSeg.frame hl ?_
      intro a ha
      have hlive : (a : Int) < s.current_blocks := ((hmem a).1 ha).1
      show nextAt (resize s.blocks s.current_blocks.toNat) a = _
      simp only [nextAt, hblk a hlive]

theorem Compact_shrinks_only_witness :
    StoreInv exampleOne ∧ exampleOne.blocks.length = 2 ∧
    (Compact exampleOne).2.blocks.length = 1 ∧
    ∃ s1, Compact exampleOne = (.ok (), s1) ∧ StoreInv s1 ∧
      (s1.blocks.length : Int) = exampleOne.current_blocks ∧
      s1.current_blocks = exampleOne.current_blocks ∧ s1.hash_size = exampleOne.hash_size ∧
      s1.voxel_size = exampleOne.voxel_size ∧ s1.voxel_size_inv = exampleOne.voxel_size_inv ∧
      s1.first_hashed_block = exampleOne.first_hashed_block ∧
      (∀ a : Nat, (a : Int) < exampleOne.current_blocks → s1.blocks[a]? = exampleOne.blocks[a]?) ∧
      (∀ (h : Nat) (head : Int) (l : List Nat), exampleOne.first_hashed_block[h]? = some head →
        (IsChain s1.blocks head l ↔ IsChain exampleOne.blocks head l)) ∧
      (∀ c, GetBlockId s1 c = GetBlockId exampleOne c) ∧ (∀ c, GetBlock s1 c = GetBlock exampleOne c) ∧
      (∀ v, GetVoxel s1 v = GetVoxel exampleOne v) :=
  ⟨exampleOne_inv, rfl, rfl, Compact_shrinks_only exampleOne exampleOne_inv⟩

/-- C25. In exact arithmetic, for a call `findIntersectionBisection(origin, dir, t1, t2, d1,
d2, t)` with `t1 <= t2` and `d1 > 0 > d2` on a store whose samples on the segment return:
the first `IntersectionLinear` divides by a non-zero number and the loop starts in a sound
state; from a sound state an iteration whose sample succeeds leads to a sound state with a
nested interval (opposite signs `aDist > 0 >= bDist`, no division by zero, `t1 <= c <= t2`,
so that the two assertions hold), and an iteration whose sample fails returns false with
`t` unwritten; the call returns, a written `t` lies in `[t1, t2]`, false is returned only
when a sample on the segment failed, and when every sample on the segment succeeds the call
returns true with `t` in `[t1, t2]`. -/
theorem findIntersectionBisection_sound (s : SparseTSDF) (bisect_iterations : Nat)
    (ray_origin ray_dir : vec3) (t1 t2 d1 d2 : Rat) (ht : t1 ≤ t2) (hd1 : 0 < d1) (hd2 : d2 < 0)
    (hTA : ∀ c, t1 ≤ c → c ≤ t2 →
      ∃ b v, TrilinearAccess s (rayPoint ray_origin ray_dir c) = .ok (b, v)) :
    (∃ c, IntersectionLinear t1 t2 d1 d2 = .ok c ∧ BisectionInv t1 t2 t1 t2 d1 d2 c ∧
      findIntersectionBisection s bisect_iterations ray_origin ray_dir t1 t2 d1 d2
        = findIntersectionBisectionLoop s ray_origin ray_dir t1 t2 bisect_iterations t1 t2 d1 d2 c) ∧
    (∀ (k : Nat) (a b aDist bDist c : Rat), BisectionInv t1 t2 a b aDist bDist c →
      (t1 ≤ c ∧ c ≤ t2 ∧ 0 < aDist ∧ bDist ≤ 0 ∧ aDist - bDist ≠ 0) ∧
      (∀ sample, TrilinearAccess s (rayPoint ray_origin ray_dir c) = .ok (true, sample) →
        ∃ a1 b1 aDist1 bDist1 c1,
          findIntersectionBisectionLoop s ray_origin ray_dir t1 t2 (k + 1) a b aDist bDist c
            = findIntersectionBisectionLoop s ray_origin ray_dir t1 t2 k a1 b1 aDist1 bDist1 c1 ∧
          BisectionInv t1 t2 a1 b1 aDist1 bDist1 c1 ∧ a ≤ a1 ∧ b1 ≤ b) ∧
      (∀ sample, TrilinearAccess s (rayPoint ray_origin ray_dir c) = .ok (false, sample) →
        findIntersectionBisectionLoop s ray_origin ray_dir t1 t2 (k + 1) a b aDist bDist c
          = .ok none)) ∧
    (∃ r, findIntersectionBisection s bisect_iterations ray_origin ray_dir t1 t2 d1 d2 = .ok r ∧
      (∀ t, r = some t → t1 ≤ t ∧ t ≤ t2) ∧
      (r = none → ∃ c v, t1 ≤ c ∧ c ≤ t2 ∧
        TrilinearAccess s (rayPoint ray_origin ray_dir c) = .ok (false, v)) ∧
      ((∀ c, t1 ≤ c → c ≤ t2 →
          ∃ v, TrilinearAccess s (rayPoint ray_origin ray_dir c) = .ok (true, v)) →
        ∃ t, r = some t ∧ t1 ≤ t ∧ t ≤ t2)) := by
  obtain ⟨c, hc, hlo, hhi⟩ := IntersectionLinear_between ht hd1 (le_of_lt hd2)
  have hinv : BisectionInv t1 t2 t1 t2 d1 d2 c := ⟨le_refl _, hlo, hhi, le_refl _, hd1, le_of_lt hd2, hc⟩
  have heq : findIntersectionBisection s bisect_iterations ray_origin ray_dir t1 t2 d1 d2
      = findIntersectionBisectionLoop s ray_origin ray_dir t1 t2 bisect_iterations t1 t2 d1 d2 c := by
    unfold findIntersectionBisection
    rw [hc]
  refine ⟨⟨c, hc, hinv, heq⟩, ?_, ?_⟩
  · intro k a b aDist bDist c1 h
    refine ⟨?_, fun sample hs => findIntersectionBisectionLoop_true ray_origin ray_dir h k hs,
      fun sample hs => findIntersectionBisectionLoop_false ray_origin ray_dir h k hs⟩
    obtain ⟨h1, h2, h3, h4, h5, h6, _⟩ := h
    exact ⟨by linarith, by linarith, h5, h6, by intro h0; linarith⟩
  · obtain ⟨r, hr, hsome, hnone⟩ :=
      findIntersectionBisectionLoop_sound ray_origin ray_dir t1 t2 hTA bisect_iterations t1 t2 d1 d2 c hinv
    refine ⟨r, by rw [heq]; exact hr, hsome, hnone, ?_⟩
    intro hall
    cases r with
    | none =>
      obtain ⟨c1, v, h1, h2, hv⟩ := hnone rfl
      obtain ⟨v1, hv1⟩ := hall c1 h1 h2
      rw [hv1] at hv
      cases hv
    | some t => exact ⟨t, rfl, hsome t rfl⟩

theorem findIntersectionBisection_sound_witness :
    ((0 : Rat) ≤ 1 ∧ (0 : Rat) < 1 ∧ (-1 : Rat) < 0 ∧
      ∀ c, (0 : Rat) ≤ c → c ≤ 1 →
        ∃ b v, TrilinearAccess exampleRayStore (rayPoint ⟨0, 2, 2⟩ ⟨1, 0, 0⟩ c) = .ok (b, v)) ∧
    findIntersectionBisection exampleRayStore 2 ⟨0, 2, 2⟩ ⟨1, 0, 0⟩ 0 1 1 (-1) = .ok (some (1 / 2)) ∧
    (∃ c, IntersectionLinear 0 1 1 (-1) = .ok c ∧ BisectionInv 0 1 0 1 1 (-1) c ∧
      findIntersectionBisection exampleRayStore 2 ⟨0, 2, 2⟩ ⟨1, 0, 0⟩ 0 1 1 (-1)
        = findIntersectionBisectionLoop exampleRayStore ⟨0, 2, 2⟩ ⟨1, 0, 0⟩ 0 1 2 0 1 1 (-1) c) ∧
    (∀ (k : Nat) (a b aDist bDist c : Rat), BisectionInv 0 1 a b aDist bDist c →
      (0 ≤ c ∧ c ≤ 1 ∧ 0 < aDist ∧ bDist ≤ 0 ∧ aDist - bDist ≠ 0) ∧
      (∀ sample, TrilinearAccess exampleRayStore (rayPoint ⟨0, 2, 2⟩ ⟨1, 0, 0⟩ c) = .ok (true, sample) →
        ∃ a1 b1 aDist1 bDist1 c1,
          findIntersectionBisectionLoop exampleRayStore ⟨0, 2, 2⟩ ⟨1, 0, 0⟩ 0 1 (k + 1) a b aDist bDist c
            = findIntersectionBisectionLoop exampleRayStore ⟨0, 2, 2⟩ ⟨1, 0, 0⟩ 0 1 k a1 b1 aDist1
              bDist1 c1 ∧
          BisectionInv 0 1 a1 b1 aDist1 bDist1 c1 ∧ a ≤ a1 ∧ b1 ≤ b) ∧
      (∀ sample, TrilinearAccess exampleRayStore (rayPoint ⟨0, 2, 2⟩ ⟨1, 0, 0⟩ c) = .ok (false, sample) →
        findIntersectionBisectionLoop exampleRayStore ⟨0, 2, 2⟩ ⟨1, 0, 0⟩ 0 1 (k + 1) a b aDist bDist c
          = .ok none)) ∧
    (∃ r, findIntersectionBisection exampleRayStore 2 ⟨0, 2, 2⟩ ⟨1, 0, 0⟩ 0 1 1 (-1) = .ok r ∧
      (∀ t, r = some t → 0 ≤ t ∧ t ≤ 1) ∧
      (r = none → ∃ c v, 0 ≤ c ∧ c ≤ 1 ∧
        TrilinearAccess exampleRayStore (rayPoint ⟨0, 2, 2⟩ ⟨1, 0, 0⟩ c) = .ok (false, v)) ∧
      ((∀ c, (0 : Rat) ≤ c → c ≤ 1 →
          ∃ v, TrilinearAccess exampleRayStore (rayPoint ⟨0, 2, 2⟩ ⟨1, 0, 0⟩ c) = .ok (true, v)) →
        ∃ t, r = some t ∧ 0 ≤ t ∧ t ≤ 1)) :=
  have hTA : ∀ c, (0 : Rat) ≤ c → c ≤ 1 →
      ∃ b v, TrilinearAccess exampleRayStore (rayPoint ⟨0, 2, 2⟩ ⟨1, 0, 0⟩ c) = .ok (b, v) :=
    fun c _ _ => TrilinearAccess_total exampleRayStore_reads _
  ⟨⟨by norm_num, by norm_num, by norm_num, hTA⟩, by with_unfolding_all rfl,
    findIntersectionBisection_sound exampleRayStore 2 ⟨0, 2, 2⟩ ⟨1, 0, 0⟩ 0 1 1 (-1) (by norm_num)
      (by norm_num) (by norm_num) hTA⟩

/-- C27. On a store satisfying the invariants, `EraseBlock(c)` of a live coordinate `c`
returns true and preserves every other live block by coordinate: a coordinate `c'` other than
`c` that was live in slot `a'` is found afterwards by `GetBlockId` in a live slot holding the
same voxels as before, and the slot is `a'` itself unless `a'` was the last live slot;
coordinates that were not live stay not live, and `c` is no longer live. -/
theorem EraseBlock_preserves_others (s : SparseTSDF) (c : ivec3) (inv : StoreInv s) (hc : Live s c) :
    ∃ s1, EraseBlock s c = (.ok true, s1) ∧ StoreInv s1 ∧
      (∀ (c' : ivec3) (a' : Nat), c' ≠ c → (a' : Int) < s.current_blocks →
        indexAt s.blocks a' = some c' →
        ∃ a'' : Nat, GetBlockId s1 c' = .ok (a'' : Int) ∧ (a'' : Int) < s1.current_blocks ∧
          indexAt s1.blocks a'' = some c' ∧ dataAt s1.blocks a'' = dataAt s.blocks a' ∧
          (a'' ≠ a' → (a' : Int) = s.current_blocks - 1)) ∧
      (∀ c', ¬ Live s c' → ¬ Live s1 c') ∧ ¬ Live s1 c := by
  obtain ⟨a, ha, hca⟩ := hc
  obtain ⟨s1, her, post⟩ := EraseBlock_live inv ha hca
  have hcur := post.current_blocks
  refine ⟨s1, her, post.inv, ?_, ?_, ?_⟩
  · intro c' a' hne ha' hca'
    have haa : a' ≠ a := by
      rintro rfl
      rw [hca] at hca'
      exact hne (Option.some.inj hca').symm
    by_cases hlast : (a : Int) = s.current_blocks - 1
    · obtain ⟨hi, hd⟩ := post.last hlast a'
      have hlt : (a' : Int) < s1.current_blocks := by omega
      have hi1 : indexAt s1.blocks a' = some c' := by rw [hi]; exact hca'
      exact ⟨a', post.inv.lookup_live hlt hi1, hlt, hi1, hd, fun h => absurd rfl h⟩
    · obtain ⟨m, hm, cm, hm1, hcm, _, _, hia, hda, hsame⟩ := post.middle hlast
      by_cases ham : a' = m
      · subst ham
        rw [hcm] at hca'
        have hcc : cm = c' := Option.some.inj hca'
        rw [hcc] at hia
        have hlt : (a : Int) < s1.current_blocks := by omega
        exact ⟨a, post.inv.lookup_live hlt hia, hlt, hia, hda, fun _ => hm1⟩
      · obtain ⟨hi, hd⟩ := hsame a' haa
        have hlt : (a' : Int) < s1.current_blocks := by omega
        have hi1 : indexAt s1.blocks a' = some c' := by rw [hi]; exact hca'
        exact ⟨a', post.inv.lookup_live hlt hi1, hlt, hi1, hd, fun h => absurd rfl h⟩
  · intro c' hno hl
    exact hno ((post.live_iff inv ha hca c').1 hl).2
  · intro hl
    exact ((post.live_iff inv ha hca c).1 hl).1 rfl

theorem EraseBlock_preserves_others_witness :
    (StoreInv exampleTwo ∧ Live exampleTwo ⟨0, 0, 0⟩) ∧
    ∃ s1, EraseBlock exampleTwo ⟨0, 0, 0⟩ = (.ok true, s1) ∧ StoreInv s1 ∧
      (∀ (c' : ivec3) (a' : Nat), c' ≠ ⟨0, 0, 0⟩ → (a' : Int) < exampleTwo.current_blocks →
        indexAt exampleTwo.blocks a' = some c' →
        ∃ a'' : Nat, GetBlockId s1 c' = .ok (a'' : Int) ∧ (a'' : Int) < s1.current_blocks ∧
          indexAt s1.blocks a'' = some c' ∧ dataAt s1.blocks a'' = dataAt exampleTwo.blocks a' ∧
          (a'' ≠ a' → (a' : Int) = exampleTwo.current_blocks - 1)) ∧
      (∀ c', ¬ Live exampleTwo c' → ¬ Live s1 c') ∧ ¬ Live s1 ⟨0, 0, 0⟩ :=
  have hlive : Live exampleTwo ⟨0, 0, 0⟩ := ⟨0, by decide, rfl⟩
  ⟨⟨exampleTwo_inv, hlive⟩, EraseBlock_preserves_others exampleTwo ⟨0, 0, 0⟩ exampleTwo_inv hlive⟩

/-- C28. On a store satisfying the invariants (so that `current_blocks <= capacity`), with
`hash_size` between 1 and `2^31 - 1`, and for a coordinate that is not live: the slot
`current_blocks` that `InsertBlock` writes lies inside the backing array, and the call returns
it, if and only if the capacity before the call is at least 1. With capacity 0 the doubled
capacity is still 0 and the access to the slot is out of range; a store constructed with
`reserve_blocks = 0` and a store compacted without live blocks have capacity 0. Every store
reached from one constructed with capacity at least 1 without `Compact` satisfies the
invariants and has capacity at least 1, so the access is in range. -/
theorem InsertBlock_in_range_iff_capacity (s : SparseTSDF) (c : ivec3) (inv : StoreInv s)
    (h1 : 1 ≤ s.hash_size) (h2 : s.hash_size < 2147483648) (hc : ¬ Live s c) :
    ((∃ s1, InsertBlock s c = (.ok s.current_blocks, s1) ∧
        ∃ b, vecGet s1.blocks s.current_blocks = .ok b ∧ b.index = c) ↔ 1 ≤ s.blocks.length) ∧
    (s.blocks.length = 0 →
      InsertBlock s c = (.error .out_of_range, { s with current_blocks := 1 }) ∧
      (InsertBlock s c).2.blocks.length = 0) ∧
    (∀ (voxel_size : Rat) (hash_size : Nat), (SparseTSDF.init voxel_size 0 hash_size).blocks.length = 0) ∧
    (s.current_blocks = 0 → (Compact s).1 = .ok () ∧ (Compact s).2.blocks.length = 0) ∧
    (ReachableWithoutCompact s → s.current_blocks ≤ (s.blocks.length : Int) ∧ 1 ≤ s.blocks.length ∧
      ∃ s1, InsertBlock s c = (.ok s.current_blocks, s1)) := by
  have hh := H_ok s.hash_size c h1 (by omega)
  have habs := inv.lookup_dead hh hc
  have h0 := inv.size_nonneg
  have hle := inv.size_le
  have hok : 1 ≤ s.blocks.length → ∃ s1, InsertBlock s c = (.ok s.current_blocks, s1) ∧
      ∃ b, vecGet s1.blocks s.current_blocks = .ok b ∧ b.index = c := by
    intro hcap
    obtain ⟨n, hn, head, b, bs, s1, hcur, hhn, hhead, hbs, hb, hs1, hins, inv1⟩ :=
      InsertBlock_absent inv habs hcap
    have hnb : n < bs.length := (List.getElem?_eq_some.1 hb).1
    refine ⟨s1, hins, { b with index := c, next_index := head }, ?_, rfl⟩
    rw [hcur]
    refine vecGet_natCast _ _ _ ?_
    rw [hs1]
    show (bs.set n _)[n]? = _
    simp [List.getElem?_set, hnb]
  have hzero : s.blocks.length = 0 →
      InsertBlock s c = (.error .out_of_range, { s with current_blocks := 1 }) := by
    intro hcap
    have hnil : s.blocks = [] := List.eq_nil_of_length_eq_zero hcap
    exact InsertBlock_no_capacity habs (by omega) hnil
  refine ⟨⟨?_, hok⟩, ?_, ?_, ?_, ?_⟩
  · rintro ⟨s1, hins, _⟩
    by_contra hcap
    rw [hzero (by omega)] at hins
    cases hins
  · intro hcap
    refine ⟨hzero hcap, ?_⟩
    rw [hzero hcap]
    exact hcap
  · intro voxel_size hash_size
    simp [SparseTSDF.init]
  · intro hcur
    rw [Compact_eq inv, hcur]
    exact ⟨rfl, by show (resize s.blocks 0).length = 0; rw [resize_length]⟩
  · intro hr
    obtain ⟨_, hcap⟩ := hr.inv_capacity
    obtain ⟨s1, hins, _⟩ := hok hcap
    exact ⟨hle, hcap, s1, hins⟩

theorem InsertBlock_in_range_iff_capacity_witness :
    (StoreInv exampleNoCapacity ∧ 1 ≤ exampleNoCapacity.hash_size ∧
      exampleNoCapacity.hash_size < 2147483648 ∧ ¬ Live exampleNoCapacity ⟨0, 0, 0⟩) ∧
    ((∃ s1, InsertBlock exampleNoCapacity ⟨0, 0, 0⟩ = (.ok exampleNoCapacity.current_blocks, s1) ∧
        ∃ b, vecGet s1.blocks exampleNoCapacity.current_blocks = .ok b ∧ b.index = ⟨0, 0, 0⟩) ↔
      1 ≤ exampleNoCapacity.blocks.length) ∧
    (exampleNoCapacity.blocks.length = 0 →
      InsertBlock exampleNoCapacity ⟨0, 0, 0⟩
        = (.error .out_of_range, { exampleNoCapacity with current_blocks := 1 }) ∧
      (InsertBlock exampleNoCapacity ⟨0, 0, 0⟩).2.blocks.length = 0) ∧
    (∀ (voxel_size : Rat) (hash_size : Nat), (SparseTSDF.init voxel_size 0 hash_size).blocks.length = 0) ∧
    (exampleNoCapacity.current_blocks = 0 →
      (Compact exampleNoCapacity).1 = .ok () ∧ (Compact exampleNoCapacity).2.blocks.length = 0) ∧
    (ReachableWithoutCompact exampleNoCapacity →
      exampleNoCapacity.current_blocks ≤ (exampleNoCapacity.blocks.length : Int) ∧
      1 ≤ exampleNoCapacity.blocks.length ∧
      ∃ s1, InsertBlock exampleNoCapacity ⟨0, 0, 0⟩ = (.ok exampleNoCapacity.current_blocks, s1)) :=
  have inv : StoreInv exampleNoCapacity := StoreInv.init _ _ _
  have hdead : ¬ Live exampleNoCapacity ⟨0, 0, 0⟩ :=
    inv.not_live_of_miss (show GetBlockId exampleNoCapacity ⟨0, 0, 0⟩ = .ok (-1) from rfl)
  ⟨⟨inv, by decide, by decide, hdead⟩,
    InsertBlock_in_range_iff_capacity exampleNoCapacity ⟨0, 0, 0⟩ inv (by decide) (by decide) hdead⟩

/-- C30, as stated, fails: with `verbose = true` too, a step that the float addition absorbs
never advances the march. On the empty store `exampleUnitEmpty` the ray from the origin along
the x axis with `min_t = 1`, `max_t = 2` and `step = 2^-30 > 0` has `current_t + step` rounded
back to `current_t = 1`, and the call with `verbose = true` does not return, whatever the
number of loop tests; the claim says that it returns `max_t`. -/
theorem RaySurfaceIntersection_verbose_absorbed_step_never_returns :
    (0 : Rat) < 1 / 1073741824 ∧
    (float32 1 = 1 ∧ float32 2 = 2 ∧ float32 (1 / 1073741824) = 1 / 1073741824) ∧
    floatAdd 1 (1 / 1073741824) = 1 ∧
    (∀ v, GetVoxel exampleUnitEmpty v = .ok (voxelAt exampleUnitEmpty v)) ∧
    (∀ v, 0 ≤ (voxelAt exampleUnitEmpty v).weight) ∧
    (∀ fuel, RaySurfaceIntersection exampleUnitEmpty 1 ⟨0, 0, 0⟩ ⟨1, 0, 0⟩ 1 2 (1 / 1073741824) true fuel
      = .error .nontermination) ∧
    (∀ fuel, RaySurfaceIntersection exampleUnitEmpty 1 ⟨0, 0, 0⟩ ⟨1, 0, 0⟩ 1 2 (1 / 1073741824) true fuel
      ≠ .ok 2) := by
  set_option maxRecDepth 4000 in
  have habs : floatAdd 1 (1 / 1073741824) = 1 := by with_unfolding_all rfl
  set_option maxRecDepth 4000 in
  have hrun : ∀ fuel, RaySurfaceIntersection exampleUnitEmpty 1 ⟨0, 0, 0⟩ ⟨1, 0, 0⟩ 1 2
      (1 / 1073741824) true fuel = .error .nontermination := fun fuel =>
    RaySurfaceIntersectionLoop_absorbed exampleUnitEmpty 1 ⟨0, 0, 0⟩ ⟨1, 0, 0⟩ 2 (1 / 1073741824) true 1
      ⟨0, 0⟩ habs (by norm_num) (by with_unfolding_all rfl) fuel 0 ⟨0, 0⟩
  have hfloat : float32 1 = 1 ∧ float32 2 = 2 ∧ float32 (1 / 1073741824) = 1 / 1073741824 := by
    set_option maxRecDepth 4000 in
    exact ⟨by with_unfolding_all rfl, by with_unfolding_all rfl, by with_unfolding_all rfl⟩
  refine ⟨by norm_num, hfloat, habs, exampleUnitEmpty_reads,
    fun v => le_of_eq (exampleUnitEmpty_weights v).symm, hrun, ?_⟩
  intro fuel h
  rw [hrun fuel] at h
  cases h

/-- C30, amended. The marching parameter is accumulated in float arithmetic (`sampleTime k` is
`current_t` after `k` additions of `step`). For a store whose voxel reads return and whose
voxel weights are non-negative, and for every ray, `min_t`, `max_t` and `step` for which the
marching parameter reaches `max_t` after finitely many additions, `RaySurfaceIntersection`
with `verbose = true` returns exactly `max_t` (every run with enough fuel does). On every
store and for every step, a run with `verbose = true` that returns returns `max_t`, and it
performs no bisection: the result is the same for every `bisect_iterations` and every fuel.
The same call with `verbose = false` can return a crossing below `max_t`: on
`exampleRayStore` the ray from (0,2,2) along the x axis with step 1 crosses between its first
two samples and returns `1/2`, with `verbose = true` it returns `max_t = 4`. The function reads
the store only; it returns a value and no store. -/
theorem RaySurfaceIntersection_verbose_returns_max_t (s : SparseTSDF) (bisect_iterations : Nat)
    (ray_origin ray_dir : vec3) (min_t max_t step : Rat)
    (hread : ∀ v, GetVoxel s v = .ok (voxelAt s v)) (hw : ∀ v, 0 ≤ (voxelAt s v).weight)
    (hreach : ∃ n, max_t ≤ sampleTime min_t step n) :
    (∃ fuel0 : Nat, ∀ fuel, fuel0 ≤ fuel →
      RaySurfaceIntersection s bisect_iterations ray_origin ray_dir min_t max_t step true fuel
        = .ok max_t) ∧
    (∀ (s1 : SparseTSDF) (t0 t1 st : Rat) (fuel : Nat) (r : Rat),
      RaySurfaceIntersection s1 bisect_iterations ray_origin ray_dir t0 t1 st true fuel = .ok r →
      r = t1) ∧
    (∀ (n1 fuel : Nat),
      RaySurfaceIntersection s n1 ray_origin ray_dir min_t max_t step true fuel
        = RaySurfaceIntersection s bisect_iterations ray_origin ray_dir min_t max_t step true fuel) ∧
    (RaySurfaceIntersection exampleRayStore 0 ⟨0, 2, 2⟩ ⟨1, 0, 0⟩ 0 4 1 false 2 = .ok (1 / 2) ∧
      RaySurfaceIntersection exampleRayStore 0 ⟨0, 2, 2⟩ ⟨1, 0, 0⟩ 0 4 1 true 5 = .ok 4) := by
  have hsound : ∀ (s1 : SparseTSDF) (t0 t1 st : Rat) (fuel : Nat) (r : Rat),
      RaySurfaceIntersection s1 bisect_iterations ray_origin ray_dir t0 t1 st true fuel = .ok r →
      r = t1 := by
    intro s1 t0 t1 st fuel r h
    rcases RaySurfaceIntersectionLoop_sound s1 bisect_iterations ray_origin ray_dir t0 t1 st true
      fuel 0 0 ⟨0, 0⟩ r (fun h0 => absurd h0 (lt_irrefl _)) h with h1 | ⟨h1, _⟩
    · exact h1
    · exact Bool.noConfusion h1
  have hex : RaySurfaceIntersection exampleRayStore 0 ⟨0, 2, 2⟩ ⟨1, 0, 0⟩ 0 4 1 false 2 = .ok (1 / 2) ∧
      RaySurfaceIntersection exampleRayStore 0 ⟨0, 2, 2⟩ ⟨1, 0, 0⟩ 0 4 1 true 5 = .ok 4 := by
    set_option maxRecDepth 4000 in
    exact ⟨by with_unfolding_all rfl, by with_unfolding_all rfl⟩
  refine ⟨?_, hsound, fun n1 fuel => RaySurfaceIntersectionLoop_verbose s n1 bisect_iterations
    ray_origin ray_dir max_t step fuel min_t 0 ⟨0, 0⟩, hex⟩
  obtain ⟨n, hn⟩ := hreach
  obtain ⟨r, hr⟩ := RaySurfaceIntersectionLoop_returns hread hw bisect_iterations ray_origin
    ray_dir min_t max_t step true (fun h => Bool.noConfusion h)
    n 0 0 ⟨0, 0⟩ (by rw [Nat.zero_add]; exact hn) (fun h0 => absurd h0 (lt_irrefl _))
  have hmax : r = max_t := hsound s min_t max_t step (n + 1) r hr
  rw [hmax] at hr
  exact ⟨n + 1, fun f hf => RaySurfaceIntersectionLoop_mono_le s bisect_iterations ray_origin
    ray_dir max_t step true min_t 0 ⟨0, 0⟩ max_t (n + 1) hr f hf⟩

theorem RaySurfaceIntersection_verbose_returns_max_t_witness :
    ((∀ v, GetVoxel exampleRayStore v = .ok (voxelAt exampleRayStore v)) ∧
      (∀ v, 0 ≤ (voxelAt exampleRayStore v).weight) ∧ (∃ n, (4 : Rat) ≤ sampleTime 0 1 n)) ∧
    (TrilinearAccess exampleRayStore (rayPoint ⟨0, 2, 2⟩ ⟨1, 0, 0⟩ 0) = .ok (true, ⟨1, 1⟩) ∧
      TrilinearAccess exampleRayStore (rayPoint ⟨0, 2, 2⟩ ⟨1, 0, 0⟩ 1) = .ok (true, ⟨-1, 1⟩)) ∧
    (∃ fuel0 : Nat, ∀ fuel, fuel0 ≤ fuel →
      RaySurfaceIntersection exampleRayStore 0 ⟨0, 2, 2⟩ ⟨1, 0, 0⟩ 0 4 1 true fuel = .ok 4) ∧
    (∀ (s1 : SparseTSDF) (t0 t1 st : Rat) (fuel : Nat) (r : Rat),
      RaySurfaceIntersection s1 0 ⟨0, 2, 2⟩ ⟨1, 0, 0⟩ t0 t1 st true fuel = .ok r → r = t1) ∧
    (∀ (n1 fuel : Nat),
      RaySurfaceIntersection exampleRayStore n1 ⟨0, 2, 2⟩ ⟨1, 0, 0⟩ 0 4 1 true fuel
        = RaySurfaceIntersection exampleRayStore 0 ⟨0, 2, 2⟩ ⟨1, 0, 0⟩ 0 4 1 true fuel) ∧
    (RaySurfaceIntersection exampleRayStore 0 ⟨0, 2, 2⟩ ⟨1, 0, 0⟩ 0 4 1 false 2 = .ok (1 / 2) ∧
      RaySurfaceIntersection exampleRayStore 0 ⟨0, 2, 2⟩ ⟨1, 0, 0⟩ 0 4 1 true 5 = .ok 4) := by
  have hreach : ∃ n, (4 : Rat) ≤ sampleTime 0 1 n := by
    set_option maxRecDepth 4000 in
    exact ⟨4, by with_unfolding_all decide⟩
  exact ⟨⟨exampleRayStore_reads, exampleRayStore_weights, hreach⟩,
    ⟨by with_unfolding_all rfl, by with_unfolding_all rfl⟩,
    RaySurfaceIntersection_verbose_returns_max_t exampleRayStore 0 ⟨0, 2, 2⟩ ⟨1, 0, 0⟩ 0 4 1
      exampleRayStore_reads exampleRayStore_weights hreach⟩

end Saiga
